import Mathlib

/-!
# Obsidian search core: a shallow embedding of `search.cpp` and `tt.cpp`

The definitions below follow `src/Obsidian/search.cpp` and `src/Obsidian/tt.cpp`.
C++ arrays are total maps from indices to values (a write is `Function.update`),
`int` and `Value` are `Int`, `uint64_t` is `Nat` reduced modulo `2 ^ 64`.
An access that is undefined behaviour in the source (an index past the end of a
stack, a zero modulus) makes the operation return `none`.
Types and helpers declared in headers that are not among the sources
(`movegen.h`, `position.h`, `tt.h`, `types.h`) are either modelled from the
specification or taken as parameters; each such definition says so.
-/

namespace Obsidian

/-! ## Basic types -/

/-- A move is a small integer code; `MOVE_NONE` is zero. -/
abbrev Move := Nat

/-- A Zobrist key (`uint64_t`). -/
abbrev Key := Nat

/-- A search score (`enum Value : int`). -/
abbrev Value := Int

/-- The null move sentinel. -/
def MOVE_NONE : Move := 0

/-- The largest `int`. -/
def INT_MAX : Int := 2147483647

/-- Modelled from the spec: `MoveList` of `movegen.h`, parallel arrays of moves and
integer scores together with the element count returned by `size()`. -/
structure MoveList where
  /-- The array `moves[]`. -/
  moves : Nat → Move
  /-- The array `scores[]`. -/
  scores : Nat → Int
  /-- The value of `size()`. -/
  size : Nat

/-! ## Move ordering: `nextBestMove` -/

/-- The `for` loop of `nextBestMove`: `n` iterations remain, `i` is the loop index,
`bestMoveI` and `bestMoveValue` are the two locals. Returns both locals at loop exit. -/
def nextBestMove.scan (scores : Nat → Int) : Nat → Nat → Nat → Int → Nat × Int
  | 0, _, bestMoveI, bestMoveValue => (bestMoveI, bestMoveValue)
  | n + 1, i, bestMoveI, bestMoveValue =>
    let thisValue := scores i
    if thisValue > bestMoveValue then
      nextBestMove.scan scores n (i + 1) i thisValue
    else
      nextBestMove.scan scores n (i + 1) bestMoveI bestMoveValue

/-- The value of the local `bestMoveI` of `nextBestMove` when the scan has finished. -/
def nextBestMove.index (moveList : MoveList) (scannedMoves : Nat) : Nat :=
  (nextBestMove.scan moveList.scores (moveList.size - (scannedMoves + 1)) (scannedMoves + 1)
    scannedMoves (moveList.scores scannedMoves)).1

/-- The function `nextBestMove(moveList, scannedMoves)`: the returned move and the list after the
call. The source copies slot `scannedMoves` over the selected slot and writes nothing else. -/
def nextBestMove (moveList : MoveList) (scannedMoves : Nat) : Move × MoveList :=
  let bestMoveI := nextBestMove.index moveList scannedMoves
  let result := moveList.moves bestMoveI
  (result,
    { moveList with
      moves := Function.update moveList.moves bestMoveI (moveList.moves scannedMoves)
      scores := Function.update moveList.scores bestMoveI (moveList.scores scannedMoves) })

/-- The move loops of `negaMax` and `qsearch`,
`for (i = 0; i < moves.size(); i++) move = nextBestMove(moves, i)`:
the moves in the order in which they are returned, each with the score its slot held when it
was selected. `n` iterations remain and `i` is the loop index. -/
def moveLoop.picks : Nat → Nat → MoveList → List (Move × Int)
  | 0, _, _ => []
  | n + 1, i, moves =>
    let score := moves.scores (nextBestMove.index moves i)
    let r := nextBestMove moves i
    (r.1, score) :: moveLoop.picks n (i + 1) r.2

/-- The whole move loop, from `i = 0` to `moves.size() - 1`. -/
def moveLoop (moves : MoveList) : List (Move × Int) :=
  moveLoop.picks moves.size 0 moves

/-- Slots `[i, size)` of a move list as a list of (move, score) pairs. -/
def MoveList.slotsFrom (ml : MoveList) (i : Nat) : List (Move × Int) :=
  (List.range' i (ml.size - i)).map (fun k => (ml.moves k, ml.scores k))

/-! ## Machine integers -/

/-- The value an `int` holds after a result `x` has been reduced to 32 bits (two's complement). -/
def wrapInt (x : Int) : Int :=
  (x + 2147483648) % 4294967296 - 2147483648

/-! ## Transposition table (`tt.cpp`) -/

/-- Modelled from the spec: `TT::Flag` of `tt.h`, a bit mask with `FLAG_LOWER = 1`,
`FLAG_UPPER = 2` and `FLAG_EXACT = FLAG_LOWER | FLAG_UPPER`. -/
inductive TT.Flag where
  | NO_FLAG
  | FLAG_LOWER
  | FLAG_UPPER
  | FLAG_EXACT
  deriving DecidableEq, Repr

/-- The integer value of a flag, the operand of `&`. -/
def TT.Flag.bits : TT.Flag → Nat
  | .NO_FLAG => 0
  | .FLAG_LOWER => 1
  | .FLAG_UPPER => 2
  | .FLAG_EXACT => 3

/-- Modelled from the spec: `TT::Entry` of `tt.h` with the fields read by `getFlag`, `getValue`,
`getMove`, `getDepth`, `getStaticEval` and compared by `matches`. -/
structure TT.Entry where
  /-- The stored key. -/
  key : Key
  /-- The stored move. -/
  move : Move
  /-- The stored value. -/
  value : Value
  /-- The stored static evaluation. -/
  staticEval : Value
  /-- The stored depth. -/
  depth : Int
  /-- The stored bound flag. -/
  flag : TT.Flag
  deriving DecidableEq, Repr

/-- Modelled from the spec: `Entry::matches` of `tt.h`, the stored key matches the probed key. -/
def TT.Entry.matches (e : TT.Entry) (key : Key) : Bool :=
  e.key == key

/-- Modelled from the spec: the entry left by `Entry::clear` of `tt.h`, all fields zero. -/
def TT.Entry.cleared : TT.Entry :=
  { key := 0, move := 0, value := 0, staticEval := 0, depth := 0, flag := .NO_FLAG }

/-- The globals `entries` and `entryCount` of `tt.cpp`. -/
structure TT.Table where
  /-- The array `entries`. -/
  entries : Nat → TT.Entry
  /-- The global `entryCount`. -/
  entryCount : Nat

/-- The function `TT::resize(megaBytes)`; `sizeofEntry` is `sizeof(Entry)`, whose declaration is in
`tt.h`. The byte count is a `size_t` product, reduced modulo `2 ^ 64`. -/
def TT.resize (sizeofEntry megaBytes : Nat) : TT.Table :=
  let bytes := (megaBytes * 1024 * 1024) % 2 ^ 64
  let entryCount := bytes / sizeofEntry
  { entries := fun _ => TT.Entry.cleared, entryCount := entryCount }

/-- The function `TT::probe(key, hit)`: the index of the returned slot and the value of `hit`.
The source computes `key % entryCount` unguarded; a zero modulus is undefined behaviour and is
`none` here. -/
def TT.probe (t : TT.Table) (key : Key) : Option (Nat × Bool) :=
  if t.entryCount = 0 then none
  else
    let index := key % t.entryCount
    some (index, (t.entries index).matches key)

/-! ## Positions, the search stack and the globals of `search.cpp` -/

/-- Modelled from the spec: `Position` of `position.h`, with the data members that `search.cpp`
reads. A value of this type is what `memcpy` copies to and from `posStack`. -/
structure Position where
  /-- The side to move. -/
  sideToMove : Nat
  /-- The piece on each square. -/
  board : Nat → Nat
  /-- The bitboard of checking pieces, non-zero when the side to move is in check. -/
  checkers : Nat
  /-- The Zobrist key. -/
  key : Key
  /-- The half-move clock. -/
  halfMoveClock : Int

/-- The content of one `NNUE::Accumulator`. -/
abbrev Accumulator := List Int

/-- The values of `getMoveType` handled by the `switch` of `scoreMoves`. -/
inductive MoveType where
  | MT_NORMAL
  | MT_CASTLING
  | MT_EN_PASSANT
  | MT_PROMOTION
  deriving DecidableEq, Repr

/-- The three node types of the search templates. -/
inductive NodeType where
  | Root
  | PV
  | NonPV
  deriving DecidableEq, Repr

/-- The states of `Threads::searchState`. -/
inductive RunState where
  | STOPPED
  | RUNNING
  | STOP_PENDING
  deriving DecidableEq, Repr

/-- Constants and helpers that `search.cpp` takes from headers which are not among the sources
(`types.h`, `move.h`, `position.h`); they are parameters of the embedding. -/
structure Decls where
  /-- The constant `MAX_PLY`. -/
  MAX_PLY : Nat
  /-- The constant `SQUARE_NB`. -/
  SQUARE_NB : Nat
  /-- The constant `NO_PIECE`. -/
  NO_PIECE : Nat
  /-- The constant `VALUE_NONE`. -/
  VALUE_NONE : Value
  /-- The constant `VALUE_INFINITE`. -/
  VALUE_INFINITE : Value
  /-- The constant `VALUE_MATE_IN_MAX_PLY`. -/
  VALUE_MATE_IN_MAX_PLY : Value
  /-- The table `PieceValue[]`. -/
  PieceValue : Nat → Int
  /-- The helper `getMoveSrc`. -/
  getMoveSrc : Move → Nat
  /-- The helper `getMoveDest`. -/
  getMoveDest : Move → Nat
  /-- The helper `getMoveType`. -/
  getMoveType : Move → MoveType
  /-- The helper `getPromoType`. -/
  getPromoType : Move → Nat
  /-- The method `Position::isQuiet`. -/
  isQuiet : Position → Move → Bool
  /-- The method `Position::doMove(move, accumulator)`: the new position and the new content of
  the accumulator it was handed. -/
  doMove : Position → Move → Accumulator → Position × Accumulator
  /-- The method `Position::doNullMove`. -/
  doNullMove : Position → Position
  /-- The constant `VALUE_MATE`. -/
  VALUE_MATE : Value
  /-- The constant `VALUE_TB_WIN_IN_MAX_PLY`. -/
  VALUE_TB_WIN_IN_MAX_PLY : Value
  /-- The constant `VALUE_TB_LOSS_IN_MAX_PLY`. -/
  VALUE_TB_LOSS_IN_MAX_PLY : Value
  /-- The generator `getPseudoLegalMoves(position, &moves)`: the list it fills. -/
  getPseudoLegalMoves : Position → MoveList
  /-- The generator `getAggressiveMoves(position, &moves)`: the list it fills. -/
  getAggressiveMoves : Position → MoveList
  /-- The method `Position::isLegal`. -/
  isLegal : Position → Move → Bool
  /-- The method `Position::see_ge`. -/
  see_ge : Position → Move → Value → Bool
  /-- The method `Position::hasNonPawns`. -/
  hasNonPawns : Position → Nat → Bool
  /-- The function `Eval::evaluate()`, which reads the position and the current accumulator. -/
  evaluate : Position → Accumulator → Value
  /-- The table `lmrTable` as filled by `searchInit()` with floating-point logarithms. -/
  lmrTable : Nat → Nat → Int

/-- The struct `SearchInfo`. -/
structure SearchInfo where
  /-- The member `staticEval`. -/
  staticEval : Value
  /-- The member `playedMove`. -/
  playedMove : Move
  /-- The array `killers[2]`. -/
  killers : Nat → Move
  /-- The array `pv[MAX_PLY]`. -/
  pv : Nat → Move
  /-- The member `pvLength`. -/
  pvLength : Int

/-- The namespace-level variables of `search.cpp`, the two variables of `Threads` it uses
(`searchState`, `seenPositions`) and the transposition table. -/
structure Globals where
  /-- The global `rootColor`. -/
  rootColor : Nat
  /-- The global `lastBestMove`. -/
  lastBestMove : Move
  /-- The global `nodesSearched` (`uint64_t`). -/
  nodesSearched : Nat
  /-- The global `selDepth`. -/
  selDepth : Int
  /-- The global `rootDepth`. -/
  rootDepth : Int
  /-- The global `ply`. -/
  ply : Nat
  /-- The array `accumulatorStack[MAX_PLY]`. -/
  accumulatorStack : Nat → Accumulator
  /-- The array `posStack[MAX_PLY]`. -/
  posStack : Nat → Position
  /-- The global `position`. -/
  position : Position
  /-- The global `rootMoves`. -/
  rootMoves : MoveList
  /-- The table `mainHistory[COLOR_NB][SQUARE_NB * SQUARE_NB]`. -/
  mainHistory : Nat → Nat → Int
  /-- The array `searchStack[MAX_PLY + SsOffset]`. -/
  searchStack : Nat → SearchInfo
  /-- The variable `Threads::searchState`. -/
  searchState : RunState
  /-- The variable `seenPositions`. -/
  seenPositions : List Key
  /-- The transposition table. -/
  tt : TT.Table

/-! ## Move ordering: `scoreMoves` -/

/-- The function `fromTo(m)`. -/
def fromTo (D : Decls) (m : Move) : Nat :=
  D.getMoveSrc m * D.SQUARE_NB + D.getMoveDest m

/-- The body of the loop of `scoreMoves` for one move `m`: the value left in `moves.scores[i]`.
Each `+=` is an `int` addition. -/
def scoreMoves.score (D : Decls) (position : Position) (mainHistory : Nat → Nat → Int)
    (ttMove killer0 killer1 m : Move) : Int :=
  if m = ttMove then INT_MAX
  else
    let moveScore : Int := 0
    let moveScore :=
      if D.isQuiet position m then
        let moveScore :=
          wrapInt (moveScore + (mainHistory position.sideToMove (fromTo D m)).tdiv 200)
        let moveScore := if m = killer0 then wrapInt (moveScore + 40) else moveScore
        if m = killer1 then wrapInt (moveScore + 20) else moveScore
      else moveScore
    match D.getMoveType m with
    | .MT_NORMAL =>
      let capturedPc := position.board (D.getMoveDest m)
      if capturedPc ≠ D.NO_PIECE then wrapInt (moveScore + D.PieceValue capturedPc)
      else moveScore
    | .MT_CASTLING => wrapInt (moveScore + 50)
    | .MT_EN_PASSANT => wrapInt (moveScore + 70)
    | .MT_PROMOTION =>
      let capturedPc := position.board (D.getMoveDest m)
      let moveScore := wrapInt (moveScore + D.PieceValue (D.getPromoType m))
      if capturedPc ≠ D.NO_PIECE then wrapInt (moveScore + D.PieceValue capturedPc)
      else moveScore

/-- The `for` loop of `scoreMoves`: `n` iterations remain and `i` is the loop index. -/
def scoreMoves.loop (D : Decls) (position : Position) (mainHistory : Nat → Nat → Int)
    (ttMove killer0 killer1 : Move) : Nat → Nat → MoveList → MoveList
  | 0, _, moves => moves
  | n + 1, i, moves =>
    scoreMoves.loop D position mainHistory ttMove killer0 killer1 n (i + 1)
      { moves with
        scores := Function.update moves.scores i
          (scoreMoves.score D position mainHistory ttMove killer0 killer1 (moves.moves i)) }

/-- The function `scoreMoves(moves, ttMove, ss)`, reading the globals `position` and
`mainHistory`. -/
def scoreMoves (D : Decls) (position : Position) (mainHistory : Nat → Nat → Int)
    (moves : MoveList) (ttMove : Move) (ss : SearchInfo) : MoveList :=
  scoreMoves.loop D position mainHistory ttMove (ss.killers 0) (ss.killers 1) moves.size 0 moves

/-! ## Make and unmake -/

/-- What `checkTime` reads from `searchLimits` and the clock: whether there is a time limit and
whether `elapsedTime() >= d * searchLimits.time[rootColor] - 10` holds. -/
structure TimeReading where
  /-- The value of `searchLimits.hasTimeLimit()`. -/
  hasTimeLimit : Bool
  /-- The outcome of the comparison of the elapsed time with the deadline. -/
  deadlineReached : Bool

/-- The function `checkTime()`. -/
def checkTime (t : TimeReading) (g : Globals) : Globals :=
  if !t.hasTimeLimit then g
  else if t.deadlineReached then { g with searchState := .STOP_PENDING }
  else g

/-- The function `pushPosition()`. Both stacks have `MAX_PLY` slots; a write past the end is
undefined behaviour and is `none` here. -/
def pushPosition (D : Decls) (g : Globals) : Option Globals :=
  if g.ply + 1 < D.MAX_PLY then
    some { g with
      posStack := Function.update g.posStack g.ply g.position
      accumulatorStack :=
        Function.update g.accumulatorStack (g.ply + 1) (g.accumulatorStack g.ply)
      ply := g.ply + 1 }
  else none

/-- The function `popPosition()`. A read before the start or past the end of `posStack` is
undefined behaviour and is `none` here. -/
def popPosition (D : Decls) (g : Globals) : Option Globals :=
  if 0 < g.ply ∧ g.ply - 1 < D.MAX_PLY then
    some { g with ply := g.ply - 1, position := g.posStack (g.ply - 1) }
  else none

/-- The first three statements shared by `playMove` and `playNullMove`: count the node, poll
the clock every 32768 nodes, record the played move in `*ss`. -/
def recordPlayed (t : TimeReading) (move : Move) (ss : Nat) (g : Globals) : Globals :=
  let g := { g with nodesSearched := (g.nodesSearched + 1) % 2 ^ 64 }
  let g := if g.nodesSearched % 32768 = 0 then checkTime t g else g
  { g with
    searchStack := Function.update g.searchStack ss { g.searchStack ss with playedMove := move } }

/-- The function `playNullMove(ss)`; `ss` is the index of `*ss` in `searchStack`. -/
def playNullMove (D : Decls) (t : TimeReading) (ss : Nat) (g : Globals) : Option Globals :=
  match pushPosition D (recordPlayed t MOVE_NONE ss g) with
  | none => none
  | some g => some { g with position := D.doNullMove g.position }

/-- The function `playMove(move, ss)`; `doMove` receives `&accumulatorStack[ply]` after the
increment of `ply`. -/
def playMove (D : Decls) (t : TimeReading) (move : Move) (ss : Nat) (g : Globals) :
    Option Globals :=
  match pushPosition D (recordPlayed t move ss g) with
  | none => none
  | some g =>
    let r := D.doMove g.position move (g.accumulatorStack g.ply)
    some { g with
      position := r.1
      accumulatorStack := Function.update g.accumulatorStack g.ply r.2 }

/-- The function `cancelMove()`. -/
def cancelMove (D : Decls) (g : Globals) : Option Globals :=
  popPosition D g

/-! ## Repetition detection -/

/-- The first loop of `is2FoldRepetition`, `for (i = ply - 2; i >= 0; i -= 2)`, from index `i`
on; `n` bounds the number of iterations still to run. -/
def is2FoldRepetition.stackLoop (key : Key) (posStack : Nat → Position) : Nat → Int → Bool
  | 0, _ => false
  | n + 1, i =>
    if i ≥ 0 then
      if key = (posStack i.toNat).key then true
      else is2FoldRepetition.stackLoop key posStack n (i - 2)
    else false

/-- The second loop of `is2FoldRepetition`, `for (i = size - 2; i >= 0; --i)`, from index `i`
on; `n` bounds the number of iterations still to run. -/
def is2FoldRepetition.seenLoop (key : Key) (seenPositions : List Key) : Nat → Int → Bool
  | 0, _ => false
  | n + 1, i =>
    if i ≥ 0 then
      if key = seenPositions.getD i.toNat 0 then true
      else is2FoldRepetition.seenLoop key seenPositions n (i - 1)
    else false

/-- The function `is2FoldRepetition()`. `seenPositions.size() - 2` is an unsigned 64-bit
difference converted to `int`. -/
def is2FoldRepetition (g : Globals) : Bool :=
  if g.position.halfMoveClock < 4 then false
  else if is2FoldRepetition.stackLoop g.position.key g.posStack g.ply ((g.ply : Int) - 2) then
    true
  else if is2FoldRepetition.seenLoop g.position.key g.seenPositions g.seenPositions.length
      (wrapInt (((g.seenPositions.length : Int) - 2) % 2 ^ 64)) then
    true
  else false

/-! ## The iterative deepening driver -/

/-- What one call of `negaMax<Root>` leaves behind for `startSearch`: the returned score and the
globals the driver reads afterwards. -/
structure RootResult where
  /-- The returned score. -/
  score : Value
  /-- The move `ss->pv[0]` after the call. -/
  pv0 : Move
  /-- The global `selDepth` after the call. -/
  selDepth : Int
  /-- The global `nodesSearched` after the call. -/
  nodesSearched : Nat
  /-- Whether `Threads::searchState == STOP_PENDING` after the call. -/
  stopPending : Bool

/-- The struct `SearchLoopInfo`. -/
structure SearchLoopInfo where
  /-- The member `score`. -/
  score : Value
  /-- The member `bestMove`. -/
  bestMove : Move
  /-- The member `selDepth`. -/
  selDepth : Int

/-- The members of `searchLimits` read by `startSearch`. -/
structure SearchLimits where
  /-- The member `depth`. -/
  depth : Int
  /-- The member `nodes`. -/
  nodes : Nat
  /-- The value of `hasTimeLimit()`. -/
  hasTimeLimit : Bool

/-- The collaborators of the driver loop: the root search, indexed by the number of root
searches made before it, and the clock test `elapsed > optScale * optimumTime` as a function of
`rootDepth` and `searchStability`. -/
structure RootSearch where
  /-- The call `negaMax<Root>(alpha, beta, depth, false, ss)`. -/
  negaMax : Nat → Value → Value → Int → RootResult
  /-- The outcome of `elapsed > optScale * optimumTime`. -/
  timeExceeded : Int → Int → Bool

/-- The locals of `startSearch` that live across iterations, with the globals the loop reads. -/
structure Driver where
  /-- The local `bestMove`. -/
  bestMove : Move
  /-- The local array `iterDeepening`. -/
  iterDeepening : Nat → SearchLoopInfo
  /-- The local `searchStability`. -/
  searchStability : Int
  /-- The global `nodesSearched`. -/
  nodesSearched : Nat
  /-- Whether `Threads::searchState == STOP_PENDING`. -/
  stopPending : Bool
  /-- The number of root searches made so far. -/
  calls : Nat

/-- The locals of the aspiration loop of `startSearch`. -/
structure startSearch.Window where
  /-- The local `windowSize`. -/
  windowSize : Int
  /-- The local `alpha`. -/
  alpha : Value
  /-- The local `beta`. -/
  beta : Value
  /-- The local `failedHighCnt`. -/
  failedHighCnt : Int

/-- The locals on entry of the aspiration loop: `windowSize = 10`, `alpha = score - windowSize`,
`beta = score + windowSize`, `failedHighCnt = 0`, where `score` is the score of the previous
iteration. -/
def startSearch.firstWindow (score : Value) : startSearch.Window :=
  { windowSize := 10, alpha := wrapInt (score - 10), beta := wrapInt (score + 10),
    failedHighCnt := 0 }

/-- One pass of the aspiration loop after the root search has returned `r`: `none` when the loop
is left (stop pending, node limit, or a score inside the window), otherwise the locals for the
next pass. All arithmetic is `int` arithmetic. -/
def startSearch.nextWindow (D : Decls) (limits : SearchLimits) (w : startSearch.Window)
    (r : RootResult) : Option startSearch.Window :=
  if r.stopPending then none
  else if limits.nodes ≠ 0 ∧ r.nodesSearched ≥ limits.nodes then none
  else
    let mate := r.score ≥ D.VALUE_MATE_IN_MAX_PLY
    let beta := if mate then D.VALUE_INFINITE else w.beta
    let failedHighCnt := if mate then 0 else w.failedHighCnt
    if r.score ≤ w.alpha then
      some { beta := wrapInt ((wrapInt (w.alpha + beta)).tdiv 2)
             alpha := max (-D.VALUE_INFINITE) (wrapInt (w.alpha - w.windowSize))
             failedHighCnt := 0
             windowSize := wrapInt (w.windowSize + w.windowSize.tdiv 3) }
    else if r.score ≥ beta then
      some { beta := min D.VALUE_INFINITE (wrapInt (beta + w.windowSize))
             alpha := w.alpha
             failedHighCnt := wrapInt (failedHighCnt + 1)
             windowSize := wrapInt (w.windowSize + w.windowSize.tdiv 3) }
    else none

/-- The aspiration loop `while (true)` of `startSearch` for one `rootDepth`, entered with the
locals `w`. The result is the last root search and the number of root searches made; `none` when
the loop has not been left after `fuel` passes. -/
def startSearch.aspiration (D : Decls) (R : RootSearch) (limits : SearchLimits)
    (rootDepth : Int) : Nat → startSearch.Window → Nat → Option (RootResult × Nat)
  | 0, _, _ => none
  | fuel + 1, w, calls =>
    let adjustedDepth := max 1 (wrapInt (rootDepth - w.failedHighCnt))
    let r := R.negaMax calls w.alpha w.beta adjustedDepth
    match startSearch.nextWindow D limits w r with
    | none => some (r, calls + 1)
    | some w2 => startSearch.aspiration D R limits rootDepth fuel w2 (calls + 1)

/-- The search of one iteration of `startSearch`: the aspiration loop when `rootDepth >= 4`, one
full-window root search otherwise. The result is the last root search made and the number of
root searches made so far. -/
def startSearch.searchIteration (D : Decls) (R : RootSearch) (limits : SearchLimits)
    (fuel : Nat) (rootDepth : Int) (d : Driver) : Option (RootResult × Nat) :=
  if rootDepth ≥ 4 then
    startSearch.aspiration D R limits rootDepth fuel
      (startSearch.firstWindow (d.iterDeepening (rootDepth - 1).toNat).score) d.calls
  else
    some (R.negaMax d.calls (-D.VALUE_INFINITE) D.VALUE_INFINITE rootDepth, d.calls + 1)

/-- The loop `for (rootDepth = 1; rootDepth <= searchLimits.depth; rootDepth++)` of `startSearch`
from `rootDepth` on, with `n` iterations left before the loop condition fails. The result is the
state at the label `bestMoveDecided`. -/
def startSearch.iterate (D : Decls) (R : RootSearch) (limits : SearchLimits) (fuel : Nat) :
    Nat → Int → Driver → Option Driver
  | 0, _, d => some d
  | n + 1, rootDepth, d =>
    if limits.nodes ≠ 0 ∧ d.nodesSearched ≥ limits.nodes then some d
    else
      match startSearch.searchIteration D R limits fuel rootDepth d with
      | none => none
      | some (r, calls) =>
        let d := { d with nodesSearched := r.nodesSearched, stopPending := r.stopPending,
                          calls := calls }
        if r.stopPending then some d
        else
          let bestMove := r.pv0
          let searchStability :=
            if bestMove = (d.iterDeepening (rootDepth - 1).toNat).bestMove then
              min (d.searchStability + 1) 10
            else 0
          let d := { d with
            bestMove := bestMove
            iterDeepening := Function.update d.iterDeepening rootDepth.toNat
              { score := r.score, bestMove := bestMove, selDepth := r.selDepth }
            searchStability := searchStability }
          if r.score ≥ D.VALUE_MATE_IN_MAX_PLY then some d
          else if limits.hasTimeLimit ∧ rootDepth ≥ 4 then
            if rootDepth ≥ 40 ∧ |r.score| < 5 then some d
            else if R.timeExceeded rootDepth searchStability then some d
            else startSearch.iterate D R limits fuel n (rootDepth + 1) d
          else startSearch.iterate D R limits fuel n (rootDepth + 1) d

/-- The part of `startSearch()` that decides `lastBestMove`: the iterative deepening loop and the
assignment `lastBestMove = bestMove` at `bestMoveDecided`. The locals `bestMove` and
`iterDeepening` are declared without a value in the source; `bestMove0` and `iterDeepening0` are
whatever they hold then. `fuel` bounds the passes of each aspiration loop. -/
def startSearch (D : Decls) (R : RootSearch) (limits : SearchLimits) (fuel : Nat)
    (bestMove0 : Move) (iterDeepening0 : Nat → SearchLoopInfo) : Option Move :=
  let depth : Int := if limits.depth = 0 then (D.MAX_PLY : Int) else limits.depth
  let d : Driver :=
    { bestMove := bestMove0, iterDeepening := iterDeepening0, searchStability := 0,
      nodesSearched := 0, stopPending := false, calls := 0 }
  (startSearch.iterate D R { limits with depth := depth } fuel depth.toNat 1 d).map
    (fun d => d.bestMove)

/-- The window invariant behind the termination of the aspiration loop: `alpha` and `beta` lie in
`[-VALUE_INFINITE - 10, VALUE_INFINITE + 10]` and `windowSize` is at least 10 and at most 3, 4, 6
or 8 times `VALUE_INFINITE + 10`, depending on which of the two bounds can still move. -/
def startSearch.Window.Bounded (D : Decls) (w : startSearch.Window) : Prop :=
  10 ≤ w.windowSize ∧
    -(D.VALUE_INFINITE + 10) ≤ w.alpha ∧ w.alpha ≤ D.VALUE_INFINITE + 10 ∧
    -(D.VALUE_INFINITE + 10) ≤ w.beta ∧ w.beta ≤ D.VALUE_INFINITE + 10 ∧
    (-D.VALUE_INFINITE < w.alpha → w.beta < D.VALUE_INFINITE →
      w.windowSize ≤ 3 * (D.VALUE_INFINITE + 10)) ∧
    (-D.VALUE_INFINITE < w.alpha → w.windowSize ≤ 4 * (D.VALUE_INFINITE + 10)) ∧
    (w.beta < D.VALUE_INFINITE → w.windowSize ≤ 6 * (D.VALUE_INFINITE + 10)) ∧
    w.windowSize ≤ 8 * (D.VALUE_INFINITE + 10)

/-- A window inside the value range: `-VALUE_INFINITE <= alpha < beta <= VALUE_INFINITE`. -/
def startSearch.Window.InRange (D : Decls) (w : startSearch.Window) : Prop :=
  -D.VALUE_INFINITE ≤ w.alpha ∧ w.alpha < w.beta ∧ w.beta ≤ D.VALUE_INFINITE

/-! ## Transposition table use in `negaMax` and `qsearch` -/

/-- The function `flagForTT(failsHigh)`. -/
def flagForTT (failsHigh : Bool) : TT.Flag :=
  if failsHigh then .FLAG_LOWER else .FLAG_UPPER

/-- How `negaMax` leaves the statements from the probe to the quiescence drop. -/
inductive negaMax.AfterProbe where
  /-- The statement `return ttValue` of the transposition table cutoff. -/
  | ttCutoff (ttValue : Value)
  /-- The statement `return qsearch(alpha, beta, ss)`. -/
  | quiescence (alpha beta : Value)
  /-- Execution goes on to the static evaluation and the move loop with these locals. -/
  | search (depth : Int) (ttFlag : TT.Flag) (ttValue : Value) (ttMove : Move)
  deriving DecidableEq, Repr

/-- The statements of `negaMax` from `TT::probe` to `if (depth <= 0) return qsearch(...)`;
`ttEntry` and `ttHit` are the result of the probe, `alpha`, `beta`, `depth` the locals on
arrival. -/
def negaMax.afterProbe (D : Decls) (nodeType : NodeType) (g : Globals) (ttEntry : TT.Entry)
    (ttHit : Bool) (alpha beta : Value) (depth : Int) : negaMax.AfterProbe :=
  let PvNode := nodeType ≠ NodeType.NonPV
  let rootNode := nodeType = NodeType.Root
  let ttFlag := if ttHit then ttEntry.flag else TT.Flag.NO_FLAG
  let ttValue := if ttHit then ttEntry.value else D.VALUE_NONE
  let ttMove := if ttHit then ttEntry.move else MOVE_NONE
  let ttMove := if rootNode then (if ttMove = MOVE_NONE then g.rootMoves.moves 0 else ttMove)
    else ttMove
  let depth := if g.position.checkers ≠ 0 then max 1 (depth + 1) else depth
  if ¬ PvNode ∧ ttEntry.depth ≥ depth ∧
      ttFlag.bits &&& (flagForTT (decide (ttValue ≥ beta))).bits ≠ 0 then
    .ttCutoff ttValue
  else if depth ≤ 0 then .quiescence alpha beta
  else .search depth ttFlag ttValue ttMove

/-- The stand-pat value of `qsearch` at a node not in check: `bestValue` after
`if (ttFlag & flagForTT(ttValue > bestValue)) bestValue = ttValue`; `evaluate` is the value of
`Eval::evaluate()`. -/
def qsearch.standPat (D : Decls) (ttEntry : TT.Entry) (ttHit : Bool) (evaluate : Value) :
    Value :=
  let ttFlag := if ttHit then ttEntry.flag else TT.Flag.NO_FLAG
  let ttValue := if ttHit then ttEntry.value else D.VALUE_NONE
  let bestValue := if ttHit then ttEntry.staticEval else evaluate
  if ttFlag.bits &&& (flagForTT (decide (ttValue > bestValue))).bits ≠ 0 then ttValue
  else bestValue

/-- The static evaluation of `negaMax` at a node not in check: `eval` after
`if (ttFlag & flagForTT(ttValue > eval)) ss->staticEval = eval = ttValue`. -/
def negaMax.staticEval (D : Decls) (ttEntry : TT.Entry) (ttHit : Bool) (evaluate : Value) :
    Value :=
  let ttFlag := if ttHit then ttEntry.flag else TT.Flag.NO_FLAG
  let ttValue := if ttHit then ttEntry.value else D.VALUE_NONE
  let eval := if ttHit then ttEntry.staticEval else evaluate
  if ttFlag.bits &&& (flagForTT (decide (ttValue > eval))).bits ≠ 0 then ttValue
  else eval

/-! ## History heuristics -/

/-- Modelled from the spec: the helper `myClamp(v, lo, hi)` of a header that is not among the
sources, which clamps `v` to `[lo, hi]`. -/
def myClamp (v lo hi : Int) : Int :=
  if v < lo then lo else if v > hi then hi else v

/-- The function `stat_bonus(d)`, `std::min(2 * d * d + 16 * d, 1000)` in `int` arithmetic. -/
def stat_bonus (d : Int) : Int :=
  min (wrapInt (wrapInt (wrapInt (2 * d) * d) + wrapInt (16 * d))) 1000

/-- The history table after `clear()`: `memset(mainHistory, 0, sizeof(mainHistory))`. -/
def clearedHistory : Nat → Nat → Int :=
  fun _ _ => 0

/-- The decay loop at the start of `startSearch()`: `mainHistory[c][i] /= 5` for the colours
`WHITE = 0` and `BLACK = 1` and every `i < 4096`. -/
def startSearch.decayHistory (mainHistory : Nat → Nat → Int) : Nat → Nat → Int :=
  fun c i => if c ≤ 1 ∧ i < 4096 then (mainHistory c i).tdiv 5 else mainHistory c i

/-- The block `// Update histories` of `negaMax`: when `bestMove` is a quiet move its history
entry receives the clamped bonus and the killers of `*ss` are shifted. -/
def negaMax.updateHistories (D : Decls) (ss : Nat) (bestMove : Move) (bestValue beta : Value)
    (depth : Int) (g : Globals) : Globals :=
  if bestMove ≠ MOVE_NONE ∧ D.isQuiet g.position bestMove = true then
    let bonus :=
      if bestValue > beta + 150 then stat_bonus (wrapInt (depth + 1)) else stat_bonus depth
    let c := g.position.sideToMove
    let i := fromTo D bestMove
    let history := myClamp (wrapInt (g.mainHistory c i + bonus)) (-12000) 12000
    let g := { g with
      mainHistory := Function.update g.mainHistory c (Function.update (g.mainHistory c) i history) }
    if bestMove ≠ (g.searchStack ss).killers 0 then
      let info := g.searchStack ss
      let killers := Function.update (Function.update info.killers 1 (info.killers 0)) 0 bestMove
      { g with searchStack := Function.update g.searchStack ss { info with killers := killers } }
    else g
  else g

/-! ## Perft -/

/-- The loop of `perft` for `depth == 1`: `k` iterations remain, `i` is the loop index and `n`
the `int` counter. -/
def perft.count (D : Decls) (position : Position) (moves : MoveList) : Nat → Nat → Int → Int
  | 0, _, n => n
  | k + 1, i, n =>
    if D.isLegal position (moves.moves i) = false then perft.count D position moves k (i + 1) n
    else perft.count D position moves k (i + 1) (wrapInt (n + 1))

/-- The loop of `perft` for `depth != 1`: `k` iterations remain, `i` is the loop index, `n` the
`int` counter and `child` the recursive call `perft<false>(depth - 1)`. Each legal move is made
with `pushPosition()` and `doMove(moves[i], &accumulatorStack[0])` and unmade with
`popPosition()`. -/
def perft.loop (D : Decls) (child : Globals → Option (Int × Globals)) (moves : MoveList) :
    Nat → Nat → Int → Globals → Option (Int × Globals)
  | 0, _, n, g => some (n, g)
  | k + 1, i, n, g =>
    if D.isLegal g.position (moves.moves i) = false then
      perft.loop D child moves k (i + 1) n g
    else
      match pushPosition D g with
      | none => none
      | some g1 =>
        let r := D.doMove g1.position (moves.moves i) (g1.accumulatorStack 0)
        let g2 := { g1 with
          position := r.1
          accumulatorStack := Function.update g1.accumulatorStack 0 r.2 }
        match child g2 with
        | none => none
        | some (thisNodes, g3) =>
          match popPosition D g3 with
          | none => none
          | some g4 => perft.loop D child moves k (i + 1) (wrapInt (n + thisNodes)) g4

/-- The function `perft(depth)` with at most `fuel` nested calls: the returned count and the
globals after the call. -/
def perft.go (D : Decls) : Nat → Int → Globals → Option (Int × Globals)
  | 0, _, _ => none
  | fuel + 1, depth, g =>
    let moves := D.getPseudoLegalMoves g.position
    if depth = 1 then some (perft.count D g.position moves moves.size 0 0, g)
    else perft.loop D (perft.go D fuel (depth - 1)) moves moves.size 0 0 g

/-- The function `perft(depth)`. Every nested call follows a `pushPosition()`, which needs a
free slot of the `MAX_PLY` slots of `posStack`, so `MAX_PLY + 1` nested calls are never
exceeded by a run without undefined behaviour. -/
def perft (D : Decls) (depth : Int) (g : Globals) : Option (Int × Globals) :=
  perft.go D (D.MAX_PLY + 1) depth g

/-- The number of sequences of `depth` consecutive legal moves from `position`, in the words of
the specification: one sequence of length zero, and for `depth + 1` the sum over the generated
moves that pass `isLegal` of the number of sequences of length `depth` after the move. -/
def legalSequences (D : Decls) : Nat → Position → Nat
  | 0, _ => 1
  | depth + 1, position =>
    (((List.range (D.getPseudoLegalMoves position).size).filter
        (fun i => D.isLegal position ((D.getPseudoLegalMoves position).moves i))).map
      (fun i => legalSequences D depth
        (D.doMove position ((D.getPseudoLegalMoves position).moves i) []).1)).sum

/-- The part of the sum of `legalSequences` contributed by the generated moves with index in
`[i, i + k)`. -/
def legalSequences.part (D : Decls) (depth : Nat) (position : Position) (i k : Nat) : Nat :=
  (((List.range' i k).filter
      (fun j => D.isLegal position ((D.getPseudoLegalMoves position).moves j))).map
    (fun j => legalSequences D depth
      (D.doMove position ((D.getPseudoLegalMoves position).moves j) []).1)).sum

/-! ## The recursive search: common parts -/

/-- The constant `VALUE_DRAW`, zero in the specification. -/
def VALUE_DRAW : Value := 0

/-- The function `makeDrawValue()`. -/
def makeDrawValue (g : Globals) : Value :=
  ((g.nodesSearched % 3 : Nat) : Int) - 1

/-- Modelled from the spec: `Entry::store(key, flag, depth, move, value, staticEval)` of `tt.h`,
which overwrites the slot with its arguments. -/
def TT.Entry.store (key : Key) (flag : TT.Flag) (depth : Int) (move : Move) (value : Value)
    (staticEval : Value) : TT.Entry :=
  { key := key, move := move, value := value, staticEval := staticEval, depth := depth,
    flag := flag }

/-- How `qsearch` and `negaMax` reach a `return`: with the returned value alone, or after
`ttEntry->store(position.key, flag, depth, move, value, staticEval)` on the probed slot. -/
inductive Leave where
  /-- A `return value` without a store. -/
  | plain (value : Value)
  /-- The statement `ttEntry->store(...)` followed by `return value`. -/
  | stored (slot : Nat) (flag : TT.Flag) (depth : Int) (move : Move) (value : Value)
      (staticEval : Value)
  deriving DecidableEq, Repr

/-- The value returned and the globals after the optional store. -/
def Leave.finish : Leave × Globals → Value × Globals
  | (.plain value, g) => (value, g)
  | (.stored slot flag depth move value staticEval, g) =>
    (value,
      { g with
        tt := { g.tt with
          entries := Function.update g.tt.entries slot
            (TT.Entry.store g.position.key flag depth move value staticEval) } })

/-- The type of `qsearch<nodeType>(alpha, beta, ss)` as a function of the globals; `ss` is the
index of `*ss` in `searchStack`, `none` stands for undefined behaviour or exhausted fuel. -/
abbrev QSearch := NodeType → Value → Value → Nat → Globals → Option (Value × Globals)

/-- The type of `negaMax<nodeType>(alpha, beta, depth, cutNode, ss)` as a function of the
globals. -/
abbrev NegaMax :=
  NodeType → Value → Value → Int → Bool → Nat → Globals → Option (Value × Globals)

/-- The reading of the clock made by `checkTime()`, as a function of `nodesSearched`. -/
abbrev Clock := Nat → TimeReading

/-! ## Quiescence search -/

/-- The locals of `qsearch` that the move loop changes. -/
structure qsearch.Locals where
  /-- The local `moves`. -/
  moves : MoveList
  /-- The local `alpha`. -/
  alpha : Value
  /-- The local `bestValue`. -/
  bestValue : Value
  /-- The local `bestMove`. -/
  bestMove : Move
  /-- The local `foundLegalMoves`. -/
  foundLegalMoves : Bool

/-- What a searched move with value `value` does to the locals of `qsearch`. -/
inductive qsearch.Improve where
  /-- The test `value > bestValue` fails. -/
  | nothing
  /-- Only `bestValue` is replaced. -/
  | newBest
  /-- The store with `FLAG_LOWER` and `return bestValue` inside the loop. -/
  | failHigh
  /-- Both `bestValue` and `alpha` are replaced and `bestMove` is set. -/
  | raiseAlpha
  deriving DecidableEq, Repr

/-- The tests `value > bestValue`, `bestValue > alpha` and `!PvNode || bestValue >= beta` at
the end of the loop body of `qsearch`. -/
def qsearch.improve (nodeType : NodeType) (value bestValue alpha beta : Value) :
    qsearch.Improve :=
  if value > bestValue then
    if value > alpha then
      if nodeType = NodeType.NonPV ∨ value ≥ beta then .failHigh else .raiseAlpha
    else .newBest
  else .nothing

/-- How the move loop of `qsearch` ends. -/
inductive qsearch.LoopEnd where
  /-- The `return bestValue` inside the loop, after the store with `FLAG_LOWER`. -/
  | failHigh (bestMove : Move) (bestValue : Value) (g : Globals)
  /-- The loop condition fails. -/
  | done (locals : qsearch.Locals) (g : Globals)

/-- The move loop of `qsearch`: `n` iterations remain and `i` is the loop index; `self` is the
recursive call. -/
def qsearch.loop (D : Decls) (T : Clock) (self : QSearch) (nodeType : NodeType) (beta : Value)
    (generateAllMoves : Bool) (ss : Nat) :
    Nat → Nat → qsearch.Locals → Globals → Option qsearch.LoopEnd
  | 0, _, l, g => some (.done l g)
  | n + 1, i, l, g =>
    let picked := nextBestMove l.moves i
    let move := picked.1
    let l := { l with moves := picked.2 }
    if D.isLegal g.position move = false then
      qsearch.loop D T self nodeType beta generateAllMoves ss n (i + 1) l g
    else
      let l := { l with foundLegalMoves := true }
      if generateAllMoves = false ∧ D.see_ge g.position move (-95) = false then
        qsearch.loop D T self nodeType beta generateAllMoves ss n (i + 1) l g
      else
        match playMove D (T g.nodesSearched) move ss g with
        | none => none
        | some g1 =>
          match self nodeType (-beta) (-l.alpha) (ss + 1) g1 with
          | none => none
          | some (childValue, g2) =>
            match cancelMove D g2 with
            | none => none
            | some g3 =>
              let value := -childValue
              match qsearch.improve nodeType value l.bestValue l.alpha beta with
              | .nothing =>
                qsearch.loop D T self nodeType beta generateAllMoves ss n (i + 1) l g3
              | .newBest =>
                qsearch.loop D T self nodeType beta generateAllMoves ss n (i + 1)
                  { l with bestValue := value } g3
              | .failHigh => some (.failHigh move value g3)
              | .raiseAlpha =>
                qsearch.loop D T self nodeType beta generateAllMoves ss n (i + 1)
                  { l with bestValue := value, bestMove := move, alpha := value } g3

/-- The body of `qsearch<nodeType>(alpha, beta, ss)` with `self` for the recursive call: the way
the function returns and the globals just before the optional store. -/
def qsearch.body (D : Decls) (T : Clock) (self : QSearch) (nodeType : NodeType)
    (alpha beta : Value) (ss : Nat) (g : Globals) : Option (Leave × Globals) :=
  if g.position.halfMoveClock ≥ 100 then some (.plain (makeDrawValue g), g)
  else
    match TT.probe g.tt g.position.key with
    | none => none
    | some (slot, ttHit) =>
      let ttEntry := g.tt.entries slot
      let ttFlag := if ttHit then ttEntry.flag else TT.Flag.NO_FLAG
      let ttValue := if ttHit then ttEntry.value else D.VALUE_NONE
      let ttMove := if ttHit then ttEntry.move else MOVE_NONE
      if nodeType = NodeType.NonPV ∧
          ttFlag.bits &&& (flagForTT (decide (ttValue ≥ beta))).bits ≠ 0 then
        some (.plain ttValue, g)
      else
        let inCheck := g.position.checkers ≠ 0
        let oldAlpha := alpha
        let standPat :=
          qsearch.standPat D ttEntry ttHit (D.evaluate g.position (g.accumulatorStack g.ply))
        if ¬ inCheck ∧ standPat ≥ beta then some (.plain standPat, g)
        else
          let bestValue := if inCheck then -D.VALUE_INFINITE else standPat
          let eval :=
            if inCheck then D.VALUE_NONE
            else if ttHit then ttEntry.staticEval
            else D.evaluate g.position (g.accumulatorStack g.ply)
          let alpha := if ¬ inCheck ∧ bestValue > alpha then bestValue else alpha
          let generateAllMoves := decide inCheck
          let generated :=
            if inCheck then D.getPseudoLegalMoves g.position
            else D.getAggressiveMoves g.position
          let moves := scoreMoves D g.position g.mainHistory generated ttMove (g.searchStack ss)
          match qsearch.loop D T self nodeType beta generateAllMoves ss moves.size 0
              { moves := moves, alpha := alpha, bestValue := bestValue, bestMove := MOVE_NONE,
                foundLegalMoves := false } g with
          | none => none
          | some (.failHigh bestMove bestValue g2) =>
            some (.stored slot TT.Flag.FLAG_LOWER 0 bestMove bestValue eval, g2)
          | some (.done l g2) =>
            if g2.position.checkers ≠ 0 ∧ l.foundLegalMoves = false then
              some (.plain ((g2.ply : Int) - D.VALUE_MATE), g2)
            else
              some (.stored slot
                (if l.alpha > oldAlpha then TT.Flag.FLAG_EXACT else TT.Flag.FLAG_UPPER) 0
                l.bestMove l.bestValue eval, g2)

/-- The function `qsearch<nodeType>(alpha, beta, ss)` with at most `fuel` nested calls. -/
def qsearch (D : Decls) (T : Clock) : Nat → QSearch
  | 0 => fun _ _ _ _ _ => none
  | fuel + 1 => fun nodeType alpha beta ss g =>
    (qsearch.body D T (qsearch D T fuel) nodeType alpha beta ss g).map Leave.finish

/-! ## Negamax search -/

/-- The function `updatePV(ss, move)`: `ss->pv[ply] = move`, the moves of the child line from
`ply + 1` up to its `pvLength` are copied, and `ss->pvLength` becomes the child `pvLength`. -/
def updatePV (ss : Nat) (move : Move) (g : Globals) : Globals :=
  let info := g.searchStack ss
  let child := g.searchStack (ss + 1)
  { g with
    searchStack := Function.update g.searchStack ss
      { info with
        pv := fun i =>
          if i = g.ply then move
          else if g.ply + 1 ≤ i ∧ (i : Int) < child.pvLength then child.pv i
          else info.pv i
        pvLength := child.pvLength } }

/-- The scan behind `MoveList::indexOf`: `n` slots remain from index `i` on. -/
def MoveList.indexOf.scan (ml : MoveList) (move : Move) : Nat → Nat → Nat
  | 0, i => i
  | n + 1, i => if ml.moves i = move then i else MoveList.indexOf.scan ml move n (i + 1)

/-- Modelled from the spec: `MoveList::indexOf(move)` of `movegen.h`, the first index holding
`move` (the size when there is none). -/
def MoveList.indexOf (ml : MoveList) (move : Move) : Nat :=
  MoveList.indexOf.scan ml move ml.size 0

/-- How the first statements of `negaMax` end. -/
inductive negaMax.Entered where
  /-- A `return` of the preamble: stop pending, draw, or mate-distance pruning. -/
  | leave (value : Value) (g : Globals)
  /-- Execution reaches the TT probe with this window. -/
  | proceed (alpha beta : Value) (g : Globals)

/-- The statements of `negaMax` before the TT probe: the PV initialisation, the stop test, the
reset of the killers of `ss + 1`, and for a node other than the root the draw tests and
mate-distance pruning. -/
def negaMax.enter (D : Decls) (nodeType : NodeType) (alpha beta : Value) (ss : Nat)
    (g : Globals) : negaMax.Entered :=
  let g :=
    if nodeType ≠ NodeType.NonPV then
      { g with
        searchStack := Function.update g.searchStack ss
          { g.searchStack ss with pvLength := (g.ply : Int) }
        selDepth := if (g.ply : Int) > g.selDepth then (g.ply : Int) else g.selDepth }
    else g
  if g.searchState = RunState.STOP_PENDING then .leave (makeDrawValue g) g
  else
    let next := g.searchStack (ss + 1)
    let g := { g with
      searchStack := Function.update g.searchStack (ss + 1)
        { next with
          killers := Function.update (Function.update next.killers 0 MOVE_NONE) 1 MOVE_NONE } }
    if nodeType ≠ NodeType.Root then
      if is2FoldRepetition g = true ∨ g.position.halfMoveClock ≥ 100 then
        .leave (makeDrawValue g) g
      else
        let alpha := max alpha ((g.ply : Int) - D.VALUE_MATE)
        let beta := min beta (D.VALUE_MATE - (g.ply : Int) - 1)
        if alpha ≥ beta then .leave alpha g else .proceed alpha beta g
    else .proceed alpha beta g

/-- The locals of `negaMax` at the label `moves_loop`. -/
structure negaMax.Node where
  /-- The local `alpha`. -/
  alpha : Value
  /-- The local `beta`. -/
  beta : Value
  /-- The local `depth`, after check extension and internal iterative reduction. -/
  depth : Int
  /-- The local `ttMove`. -/
  ttMove : Move
  /-- The local `improving`. -/
  improving : Bool
  /-- The index of the probed slot `ttEntry`. -/
  slot : Nat

/-- How the statements of `negaMax` from the TT probe to the label `moves_loop` end. -/
inductive negaMax.Pruned where
  /-- A `return`: TT cutoff, quiescence drop, razoring, reverse futility or null move. -/
  | leave (value : Value) (g : Globals)
  /-- Execution reaches `moves_loop`. -/
  | moves (node : negaMax.Node) (g : Globals)

/-- The statements of `negaMax` from the static evaluation to the label `moves_loop` at a node
that is not in check: evaluation, `improving`, razoring, reverse futility pruning, null move
pruning and internal iterative reduction. -/
def negaMax.pruneQuiet (D : Decls) (T : Clock) (selfN : NegaMax) (selfQ : QSearch)
    (nodeType : NodeType) (alpha beta : Value) (depth : Int) (cutNode : Bool) (ss : Nat)
    (slot : Nat) (ttHit : Bool) (ttMove : Move) (g : Globals) : Option negaMax.Pruned :=
  let ttEntry := g.tt.entries slot
  let eval :=
    negaMax.staticEval D ttEntry ttHit (D.evaluate g.position (g.accumulatorStack g.ply))
  let g := { g with
    searchStack := Function.update g.searchStack ss { g.searchStack ss with staticEval := eval } }
  let improving : Bool :=
    if (g.searchStack (ss - 2)).staticEval ≠ D.VALUE_NONE then
      decide (eval > (g.searchStack (ss - 2)).staticEval)
    else if (g.searchStack (ss - 4)).staticEval ≠ D.VALUE_NONE then
      decide (eval > (g.searchStack (ss - 4)).staticEval)
    else false
  let razored : Option (Option Value × Globals) :=
    if eval < alpha - 400 - 500 * depth then
      match selfQ NodeType.NonPV (alpha - 1) alpha ss g with
      | none => none
      | some (value, g2) => if value < alpha then some (some value, g2) else some (none, g2)
    else some (none, g)
  match razored with
  | none => none
  | some (some value, g) => some (.leave value g)
  | some (none, g) =>
    if nodeType = NodeType.NonPV ∧ depth < 9 ∧ |eval| < D.VALUE_TB_WIN_IN_MAX_PLY ∧
        eval ≥ beta ∧ eval + 120 * (if improving then 1 else 0) - 140 * depth ≥ beta then
      some (.leave eval g)
    else
      let nulled : Option (Option Value × Globals) :=
        if nodeType = NodeType.NonPV ∧ (g.searchStack (ss - 1)).playedMove ≠ MOVE_NONE ∧
            eval ≥ beta ∧ D.hasNonPawns g.position g.position.sideToMove = true ∧
            beta > D.VALUE_TB_LOSS_IN_MAX_PLY then
          let R := min ((eval - beta).tdiv 200) 3 + depth.tdiv 3 + 4
          match playNullMove D (T g.nodesSearched) ss g with
          | none => none
          | some g1 =>
            match selfN NodeType.NonPV (-beta) (-beta + 1) (depth - R) (!cutNode) (ss + 1)
                g1 with
            | none => none
            | some (childValue, g2) =>
              match cancelMove D g2 with
              | none => none
              | some g3 =>
                let nullValue := -childValue
                if nullValue ≥ beta ∧ |nullValue| < D.VALUE_TB_WIN_IN_MAX_PLY then
                  some (some nullValue, g3)
                else some (none, g3)
        else some (none, g)
      match nulled with
      | none => none
      | some (some value, g) => some (.leave value g)
      | some (none, g) =>
        let depth := if cutNode = true ∧ depth ≥ 4 ∧ ttMove = MOVE_NONE then depth - 2 else depth
        some (.moves
          { alpha := alpha, beta := beta, depth := depth, ttMove := ttMove,
            improving := improving, slot := slot } g)

/-- The statements of `negaMax` from the TT probe to the label `moves_loop`. -/
def negaMax.prune (D : Decls) (T : Clock) (selfN : NegaMax) (selfQ : QSearch)
    (nodeType : NodeType) (alpha beta : Value) (depth : Int) (cutNode : Bool) (ss : Nat)
    (g : Globals) : Option negaMax.Pruned :=
  match TT.probe g.tt g.position.key with
  | none => none
  | some (slot, ttHit) =>
    match negaMax.afterProbe D nodeType g (g.tt.entries slot) ttHit alpha beta depth with
    | .ttCutoff ttValue => some (.leave ttValue g)
    | .quiescence a b =>
      match selfQ (if nodeType ≠ NodeType.NonPV then NodeType.PV else NodeType.NonPV) a b ss
          g with
      | none => none
      | some (value, g2) => some (.leave value g2)
    | .search depth _ _ ttMove =>
      if g.position.checkers ≠ 0 then
        some (.moves
          { alpha := alpha, beta := beta, depth := depth, ttMove := ttMove, improving := false,
            slot := slot }
          { g with
            searchStack := Function.update g.searchStack ss
              { g.searchStack ss with staticEval := D.VALUE_NONE } })
      else negaMax.pruneQuiet D T selfN selfQ nodeType alpha beta depth cutNode ss slot ttHit
        ttMove g

/-- The locals of `negaMax` that the move loop changes. -/
structure negaMax.Locals where
  /-- The local `moves`. -/
  moves : MoveList
  /-- The local `alpha`. -/
  alpha : Value
  /-- The local `bestValue`. -/
  bestValue : Value
  /-- The local `bestMove`. -/
  bestMove : Move
  /-- The local `foundLegalMove`. -/
  foundLegalMove : Bool
  /-- The local `playedMoves`. -/
  playedMoves : Int

/-- What a searched move with value `value` does to the locals of `negaMax`. -/
inductive negaMax.Improve where
  /-- The test `value > bestValue` fails. -/
  | nothing
  /-- Only `bestValue` is replaced. -/
  | newBest
  /-- The `break` on `bestValue >= beta`. -/
  | failHigh
  /-- The statements `alpha = bestValue; updatePV(ss, bestMove)`. -/
  | raiseAlpha
  deriving DecidableEq, Repr

/-- The tests `value > bestValue`, `bestValue > alpha` and `bestValue >= beta` at the end of the
loop body of `negaMax`. -/
def negaMax.improve (value bestValue alpha beta : Value) : negaMax.Improve :=
  if value > bestValue then
    if value > alpha then
      if value ≥ beta then .failHigh else .raiseAlpha
    else .newBest
  else .nothing

/-- The searches of one move in the loop of `negaMax`, between `playMove` and `cancelMove`: the
reduced search, the full-depth zero-window search and the PV search. The local `value` has no
initialiser in the source; it is assigned on every path before it is read, and starts at 0
here. -/
def negaMax.searchMove (D : Decls) (selfN : NegaMax) (nodeType : NodeType) (alpha beta : Value)
    (depth : Int) (cutNode wasInCheck improving : Bool) (playedMoves : Int) (ss : Nat)
    (g : Globals) : Option (Value × Globals) :=
  let pv : Int := if nodeType ≠ NodeType.NonPV then 1 else 0
  let reduced : Option (Value × Bool × Globals) :=
    if wasInCheck = false ∧ depth ≥ 3 ∧ playedMoves > 1 + 2 * pv then
      let R := D.lmrTable depth.toNat (playedMoves + 1).toNat + (if improving then 0 else 1) - pv
      let reducedDepth := myClamp (depth - R) 1 (depth + 1)
      match selfN NodeType.NonPV (-alpha - 1) (-alpha) reducedDepth true (ss + 1) g with
      | none => none
      | some (childValue, g2) =>
        some (-childValue, decide (-childValue > alpha ∧ reducedDepth < depth), g2)
    else some (0, decide (nodeType = NodeType.NonPV ∨ playedMoves ≥ 1), g)
  match reduced with
  | none => none
  | some (value, needFullSearch, g) =>
    let full : Option (Value × Globals) :=
      if needFullSearch = true then
        match selfN NodeType.NonPV (-alpha - 1) (-alpha) (depth - 1) (!cutNode) (ss + 1) g with
        | none => none
        | some (childValue, g2) => some (-childValue, g2)
      else some (value, g)
    match full with
    | none => none
    | some (value, g) =>
      if nodeType ≠ NodeType.NonPV ∧ (playedMoves = 0 ∨ value > alpha) then
        match selfN NodeType.PV (-beta) (-alpha) (depth - 1) false (ss + 1) g with
        | none => none
        | some (childValue, g2) => some (-childValue, g2)
      else some (value, g)

/-- The move loop of `negaMax`: `n` iterations remain and `i` is the loop index. The result is
the locals and the globals when the loop is left, by its condition or by `break`. -/
def negaMax.loop (D : Decls) (T : Clock) (selfN : NegaMax) (nodeType : NodeType) (beta : Value)
    (depth : Int) (cutNode wasInCheck improving : Bool) (ss : Nat) :
    Nat → Nat → negaMax.Locals → Globals → Option (negaMax.Locals × Globals)
  | 0, _, l, g => some (l, g)
  | n + 1, i, l, g =>
    let picked := nextBestMove l.moves i
    let move := picked.1
    let l := { l with moves := picked.2 }
    if D.isLegal g.position move = false then
      negaMax.loop D T selfN nodeType beta depth cutNode wasInCheck improving ss n (i + 1) l g
    else
      let l := { l with foundLegalMove := true }
      if nodeType ≠ NodeType.Root ∧ l.bestValue > D.VALUE_TB_LOSS_IN_MAX_PLY ∧
          (D.getMoveType move = MoveType.MT_NORMAL ∧
            g.position.board (D.getMoveDest move) ≠ D.NO_PIECE) ∧
          D.see_ge g.position move (-260 * depth) = false then
        negaMax.loop D T selfN nodeType beta depth cutNode wasInCheck improving ss n (i + 1) l g
      else
        match playMove D (T g.nodesSearched) move ss g with
        | none => none
        | some g1 =>
          match negaMax.searchMove D selfN nodeType l.alpha beta depth cutNode wasInCheck
              improving l.playedMoves ss g1 with
          | none => none
          | some (value, g2) =>
            match cancelMove D g2 with
            | none => none
            | some g3 =>
              let l := { l with playedMoves := l.playedMoves + 1 }
              let g4 :=
                if nodeType = NodeType.Root then
                  { g3 with
                    rootMoves := { g3.rootMoves with
                      scores := Function.update g3.rootMoves.scores
                        (g3.rootMoves.indexOf move) value } }
                else g3
              match negaMax.improve value l.bestValue l.alpha beta with
              | .nothing =>
                negaMax.loop D T selfN nodeType beta depth cutNode wasInCheck improving ss n
                  (i + 1) l g4
              | .newBest =>
                negaMax.loop D T selfN nodeType beta depth cutNode wasInCheck improving ss n
                  (i + 1) { l with bestValue := value } g4
              | .failHigh => some ({ l with bestValue := value, bestMove := move }, g4)
              | .raiseAlpha =>
                negaMax.loop D T selfN nodeType beta depth cutNode wasInCheck improving ss n
                  (i + 1) { l with bestValue := value, bestMove := move, alpha := value }
                  (updatePV ss move g4)

/-- The flag of the final store of `negaMax`. -/
def negaMax.storeFlag (nodeType : NodeType) (bestValue beta : Value) (bestMove : Move) :
    TT.Flag :=
  if bestValue ≥ beta then .FLAG_LOWER
  else if nodeType ≠ NodeType.NonPV ∧ bestMove ≠ MOVE_NONE then .FLAG_EXACT
  else .FLAG_UPPER

/-- The statements of `negaMax` from the label `moves_loop` to the end: the move list, the move
loop, the terminal test, the history update and the store. -/
def negaMax.searchMoves (D : Decls) (T : Clock) (selfN : NegaMax) (nodeType : NodeType)
    (cutNode : Bool) (ss : Nat) (node : negaMax.Node) (g : Globals) :
    Option (Leave × Globals) :=
  let wasInCheck := decide (g.position.checkers ≠ 0)
  let moves :=
    if nodeType = NodeType.Root then g.rootMoves
    else
      scoreMoves D g.position g.mainHistory (D.getPseudoLegalMoves g.position) node.ttMove
        (g.searchStack ss)
  let g :=
    if nodeType = NodeType.Root then
      { g with
        rootMoves := { g.rootMoves with
          scores := fun i =>
            if i < g.rootMoves.size then -D.VALUE_INFINITE else g.rootMoves.scores i } }
    else g
  match negaMax.loop D T selfN nodeType node.beta node.depth cutNode wasInCheck node.improving
      ss moves.size 0
      { moves := moves, alpha := node.alpha, bestValue := -D.VALUE_INFINITE,
        bestMove := MOVE_NONE, foundLegalMove := false, playedMoves := 0 } g with
  | none => none
  | some (l, g) =>
    if l.foundLegalMove = false then
      some (.plain (if g.position.checkers ≠ 0 then (g.ply : Int) - D.VALUE_MATE
        else VALUE_DRAW), g)
    else
      let g := negaMax.updateHistories D ss l.bestMove l.bestValue node.beta node.depth g
      some (.stored node.slot (negaMax.storeFlag nodeType l.bestValue node.beta l.bestMove)
        node.depth l.bestMove l.bestValue (g.searchStack ss).staticEval, g)

/-- The body of `negaMax<nodeType>(alpha, beta, depth, cutNode, ss)` with `selfN` and `selfQ`
for the calls of `negaMax` and `qsearch`: the way the function returns and the globals just
before the optional store. -/
def negaMax.body (D : Decls) (T : Clock) (selfN : NegaMax) (selfQ : QSearch)
    (nodeType : NodeType) (alpha beta : Value) (depth : Int) (cutNode : Bool) (ss : Nat)
    (g : Globals) : Option (Leave × Globals) :=
  match negaMax.enter D nodeType alpha beta ss g with
  | .leave value g => some (.plain value, g)
  | .proceed alpha beta g =>
    match negaMax.prune D T selfN selfQ nodeType alpha beta depth cutNode ss g with
    | none => none
    | some (.leave value g) => some (.plain value, g)
    | some (.moves node g) => negaMax.searchMoves D T selfN nodeType cutNode ss node g

/-- The function `negaMax<nodeType>(alpha, beta, depth, cutNode, ss)` with at most `fuel`
nested calls. -/
def negaMax (D : Decls) (T : Clock) : Nat → NegaMax
  | 0 => fun _ _ _ _ _ _ _ => none
  | fuel + 1 => fun nodeType alpha beta depth cutNode ss g =>
    (negaMax.body D T (negaMax D T fuel) (qsearch D T fuel) nodeType alpha beta depth cutNode
      ss g).map Leave.finish

/-! ## Soundness of a store -/

/-- A store is sound for the window `(alpha0, beta)`: a `FLAG_LOWER` value is at least `beta`,
a `FLAG_UPPER` value is at most `alpha0`, a `FLAG_EXACT` value lies strictly inside the window,
and the flag is one of the three. A return without a store is sound. -/
def Leave.Sound (alpha0 beta : Value) : Leave → Prop
  | .plain _ => True
  | .stored _ flag _ _ value _ =>
    (flag = TT.Flag.FLAG_LOWER → value ≥ beta) ∧ (flag = TT.Flag.FLAG_UPPER → value ≤ alpha0) ∧
      (flag = TT.Flag.FLAG_EXACT → alpha0 < value ∧ value < beta) ∧ flag ≠ TT.Flag.NO_FLAG

instance Leave.Sound.decidable (alpha0 beta : Value) (l : Leave) :
    Decidable (l.Sound alpha0 beta) := by
  cases l <;> unfold Leave.Sound <;> infer_instance

/-! ## A monitor for the zero-window discipline -/

/-- The function `N` behind a monitor of the zero-window discipline: a NonPV call whose window is
not `(alpha, alpha + 1)` is refused (`none`), every other call is passed on. -/
def NegaMax.guarded (N : NegaMax) : NegaMax := fun nodeType alpha beta =>
  if nodeType = NodeType.NonPV → beta = alpha + 1 then N nodeType alpha beta
  else fun _ _ _ _ => none

/-- The function `Q` behind a monitor of the zero-window discipline: a NonPV call whose window is
not `(alpha, alpha + 1)` is refused (`none`), every other call is passed on. -/
def QSearch.guarded (Q : QSearch) : QSearch := fun nodeType alpha beta =>
  if nodeType = NodeType.NonPV → beta = alpha + 1 then Q nodeType alpha beta
  else fun _ _ => none

/-- The function `qsearch` with every recursive call monitored. -/
def qsearch.checked (D : Decls) (T : Clock) : Nat → QSearch
  | 0 => fun _ _ _ _ _ => none
  | fuel + 1 => fun nodeType alpha beta ss g =>
    (qsearch.body D T (QSearch.guarded (qsearch.checked D T fuel)) nodeType alpha beta ss
      g).map Leave.finish

/-- The function `negaMax` with every call of `negaMax` and `qsearch` monitored. -/
def negaMax.checked (D : Decls) (T : Clock) : Nat → NegaMax
  | 0 => fun _ _ _ _ _ _ _ => none
  | fuel + 1 => fun nodeType alpha beta depth cutNode ss g =>
    (negaMax.body D T (NegaMax.guarded (negaMax.checked D T fuel))
      (QSearch.guarded (qsearch.checked D T fuel)) nodeType alpha beta depth cutNode ss
      g).map Leave.finish

/-! ## Concrete data for the examples -/

/-- A three-entry list used to exercise the selection: moves 10, 20, 30 with scores 1, 5, 3. -/
def sampleList : MoveList where
  moves := fun k => if k = 0 then 10 else if k = 1 then 20 else if k = 2 then 30 else 0
  scores := fun k => if k = 0 then 1 else if k = 1 then 5 else if k = 2 then 3 else 0
  size := 3

/-- Sample constants and helpers: a move `m` goes from square `m / 64 % 64` to square `m % 64`,
is quiet when its target square is empty, and the constants have the usual magnitudes. -/
def sampleDecls : Decls where
  MAX_PLY := 128
  SQUARE_NB := 64
  NO_PIECE := 0
  VALUE_NONE := 32002
  VALUE_INFINITE := 32001
  VALUE_MATE_IN_MAX_PLY := 31872
  PieceValue := fun p => if p = 1 then 100 else if p = 2 then 300 else 900
  getMoveSrc := fun m => m / 64 % 64
  getMoveDest := fun m => m % 64
  getMoveType := fun _ => .MT_NORMAL
  getPromoType := fun _ => 0
  isQuiet := fun pos m => pos.board (m % 64) == 0
  doMove := fun pos m acc =>
    ({ pos with sideToMove := 1 - pos.sideToMove, key := pos.key + m,
                halfMoveClock := pos.halfMoveClock + 1 }, m :: acc)
  doNullMove := fun pos => { pos with sideToMove := 1 - pos.sideToMove, key := pos.key + 1 }
  VALUE_MATE := 32000
  VALUE_TB_WIN_IN_MAX_PLY := 31744
  VALUE_TB_LOSS_IN_MAX_PLY := -31744
  getPseudoLegalMoves := fun _ => { moves := fun _ => 0, scores := fun _ => 0, size := 0 }
  getAggressiveMoves := fun _ => { moves := fun _ => 0, scores := fun _ => 0, size := 0 }
  isLegal := fun _ _ => true
  see_ge := fun _ _ _ => true
  hasNonPawns := fun _ _ => true
  evaluate := fun _ _ => 0
  lmrTable := fun _ _ => 1

/-- A sample position: an empty board apart from a piece of kind 2 on square 9. -/
def samplePosition : Position where
  sideToMove := 0
  board := fun sq => if sq = 9 then 2 else 0
  checkers := 0
  key := 77
  halfMoveClock := 6

/-- A sample search stack slot without killers. -/
def sampleInfo : SearchInfo where
  staticEval := 0
  playedMove := 0
  killers := fun _ => 0
  pv := fun _ => 0
  pvLength := 0

/-- A sample search state at ply 2, whose position was seen two plies ago. -/
def sampleGlobals : Globals where
  rootColor := 0
  lastBestMove := 0
  nodesSearched := 41
  selDepth := 0
  rootDepth := 1
  ply := 2
  accumulatorStack := fun _ => []
  posStack := fun i => if i = 0 then samplePosition else { samplePosition with key := 5 }
  position := samplePosition
  rootMoves := sampleList
  mainHistory := fun _ _ => 0
  searchStack := fun _ => sampleInfo
  searchState := .RUNNING
  seenPositions := [3, 4]
  tt := TT.resize 16 1

/-- A clock reading without a time limit. -/
def sampleTime : TimeReading where
  hasTimeLimit := false
  deadlineReached := false

/-- A root search that always reports score 25 with best move 7 and a pending stop. -/
def stoppedSearch : RootSearch where
  negaMax := fun _ _ _ _ =>
    { score := 25, pv0 := 7, selDepth := 1, nodesSearched := 20, stopPending := true }
  timeExceeded := fun _ _ => false

/-- Search limits asking for depth 5 without node or time limit. -/
def sampleLimits : SearchLimits where
  depth := 5
  nodes := 0
  hasTimeLimit := false

/-- Some content of the array `iterDeepening` before any iteration has written it. -/
def sampleIterDeepening : Nat → SearchLoopInfo :=
  fun _ => { score := 0, bestMove := 0, selDepth := 0 }

/-- A stored lower bound of depth 3 with value 100. -/
def lowerEntry : TT.Entry where
  key := 77
  move := 0
  value := 100
  staticEval := 0
  depth := 3
  flag := .FLAG_LOWER

/-- The sample state with the side to move in check. -/
def checkedGlobals : Globals :=
  { sampleGlobals with position := { samplePosition with checkers := 1 } }

/-- A root search that answers every window `(alpha, beta)` with the score `alpha + 5`, never
stops and counts no nodes. -/
def echoSearch : RootSearch where
  negaMax := fun _ alpha _ _ =>
    { score := alpha + 5, pv0 := 7, selDepth := 1, nodesSearched := 0, stopPending := false }
  timeExceeded := fun _ _ => false

/-- The driver state before the fourth iteration when the third one reported the score -31998,
mated in two plies. -/
def matedDriver : Driver where
  bestMove := 7
  iterDeepening := fun _ => { score := -31998, bestMove := 7, selDepth := 3 }
  searchStability := 0
  nodesSearched := 0
  stopPending := false
  calls := 3

/-- A root search that always reports the mate score 31900 without a pending stop. -/
def mateSearch : RootSearch where
  negaMax := fun _ _ _ _ =>
    { score := 31900, pv0 := 7, selDepth := 1, nodesSearched := 0, stopPending := false }
  timeExceeded := fun _ _ => false

/-- A game in which every position has the same 16 pseudo-legal moves, all of them legal. -/
def uniformDecls : Decls :=
  { sampleDecls with
    getPseudoLegalMoves := fun _ => { moves := fun i => i + 1, scores := fun _ => 0, size := 16 }
    isLegal := fun _ _ => true }

/-- A clock that never reports a time limit. -/
def sampleClock : Clock :=
  fun _ => sampleTime

/-- The sample state with a stop pending. -/
def stoppedGlobals : Globals :=
  { sampleGlobals with searchState := RunState.STOP_PENDING }

/-- The sample state in check with the half-move clock at 100. -/
def fiftyGlobals : Globals :=
  { sampleGlobals with position := { samplePosition with checkers := 1, halfMoveClock := 100 } }

/-- The sample state with an unrepeated position in check; the sample declarations generate no
move for it. -/
def matedGlobals : Globals :=
  { sampleGlobals with position := { samplePosition with checkers := 1, key := 78 } }

/-- The sample state with an unrepeated position not in check; the sample declarations generate
no move for it. -/
def stalemateGlobals : Globals :=
  { sampleGlobals with position := { samplePosition with key := 78 } }

/-- Sample declarations in which the null move is never legal and the position with key 78 has
the single pseudo-legal move 9. -/
def soundDecls : Decls :=
  { sampleDecls with
    isLegal := fun _ m => m != 0
    getPseudoLegalMoves := fun pos =>
      { moves := fun _ => 9, scores := fun _ => 0, size := if pos.key = 78 then 1 else 0 } }

/-- Sample declarations in which the position with key 1 has the single capture 65536, which
leads to the position with key 65537. -/
def collisionDecls : Decls :=
  { sampleDecls with
    getAggressiveMoves := fun pos =>
      { moves := fun _ => 65536, scores := fun _ => 0, size := if pos.key = 1 then 1 else 0 } }

/-- A lower bound 50 stored for the position with key 65537. -/
def aliasLower : TT.Entry where
  key := 65537
  move := 0
  value := 50
  staticEval := 0
  depth := 0
  flag := .FLAG_LOWER

/-- An upper bound -50 stored for the position with key 65537. -/
def aliasUpper : TT.Entry where
  key := 65537
  move := 0
  value := -50
  staticEval := 0
  depth := 0
  flag := .FLAG_UPPER

/-- The sample state on the position with key 1 and a table of 65536 entries whose slot 1 holds
`e`. -/
def collisionGlobals (e : TT.Entry) : Globals :=
  { sampleGlobals with
    position := { samplePosition with key := 1 }
    tt := { entries := fun i => if i = 1 then e else TT.Entry.cleared, entryCount := 65536 } }

/-! ## Invariants of the search state -/

/-- The constant `SsOffset` of `search.cpp`. -/
def SsOffset : Nat := 4

/-- The reset loop of `startSearch()` over `searchStack[i]` for `i < MAX_PLY + SsOffset`:
`staticEval = VALUE_NONE`, `pvLength = 0` and both killers `MOVE_NONE`. -/
def startSearch.resetStack (D : Decls) (searchStack : Nat → SearchInfo) : Nat → SearchInfo :=
  fun i =>
    if i < D.MAX_PLY + SsOffset then
      { searchStack i with
        staticEval := D.VALUE_NONE
        pvLength := 0
        killers := Function.update (Function.update (searchStack i).killers 0 MOVE_NONE) 1
          MOVE_NONE }
    else searchStack i

/-- The two killers of a slot are never the same real move: `killers[0] != killers[1]`, or both
are `MOVE_NONE`. -/
def SearchInfo.KillersDistinct (info : SearchInfo) : Prop :=
  info.killers 0 ≠ info.killers 1 ∨ (info.killers 0 = MOVE_NONE ∧ info.killers 1 = MOVE_NONE)

instance SearchInfo.KillersDistinct.decidable (info : SearchInfo) :
    Decidable info.KillersDistinct :=
  inferInstanceAs (Decidable
    (info.killers 0 ≠ info.killers 1 ∨ (info.killers 0 = MOVE_NONE ∧ info.killers 1 = MOVE_NONE)))

/-- What a call of the search keeps: `g2` has the ply and the position of `g`, the same
`posStack` below that ply, each search-stack slot whose killers were distinct in `g` has
distinct killers in `g2`, and when every entry of `mainHistory` lies in [-12000, 12000] in `g`
it does in `g2`. -/
def Globals.Kept (g g2 : Globals) : Prop :=
  g2.ply = g.ply ∧ g2.position = g.position ∧
    (∀ i, i < g.ply → g2.posStack i = g.posStack i) ∧
    (∀ j, (g.searchStack j).KillersDistinct → (g2.searchStack j).KillersDistinct) ∧
    ((∀ c i, -12000 ≤ g.mainHistory c i ∧ g.mainHistory c i ≤ 12000) →
      ∀ c i, -12000 ≤ g2.mainHistory c i ∧ g2.mainHistory c i ≤ 12000)

/-- The globals with which the move loop of `qsearch` ends. -/
def qsearch.LoopEnd.globals : qsearch.LoopEnd → Globals
  | .failHigh _ _ g => g
  | .done _ g => g

/-- The razoring block of `negaMax` as it stands in `negaMax.pruneQuiet`: the value to return, if
any, and the globals after the block. -/
def negaMax.razoring (selfQ : QSearch) (alpha : Value) (depth : Int) (ss : Nat) (eval : Value)
    (g : Globals) : Option (Option Value × Globals) :=
  if eval < alpha - 400 - 500 * depth then
    match selfQ NodeType.NonPV (alpha - 1) alpha ss g with
    | none => none
    | some (value, g2) => if value < alpha then some (some value, g2) else some (none, g2)
  else some (none, g)

/-- The null move pruning block of `negaMax` as it stands in `negaMax.pruneQuiet`: the value to
return, if any, and the globals after the block. -/
def negaMax.nullMove (D : Decls) (T : Clock) (selfN : NegaMax) (nodeType : NodeType)
    (beta : Value) (depth : Int) (cutNode : Bool) (ss : Nat) (eval : Value) (g : Globals) :
    Option (Option Value × Globals) :=
  if nodeType = NodeType.NonPV ∧ (g.searchStack (ss - 1)).playedMove ≠ MOVE_NONE ∧
      eval ≥ beta ∧ D.hasNonPawns g.position g.position.sideToMove = true ∧
      beta > D.VALUE_TB_LOSS_IN_MAX_PLY then
    let R := min ((eval - beta).tdiv 200) 3 + depth.tdiv 3 + 4
    match playNullMove D (T g.nodesSearched) ss g with
    | none => none
    | some g1 =>
      match selfN NodeType.NonPV (-beta) (-beta + 1) (depth - R) (!cutNode) (ss + 1) g1 with
      | none => none
      | some (childValue, g2) =>
        match cancelMove D g2 with
        | none => none
        | some g3 =>
          let nullValue := -childValue
          if nullValue ≥ beta ∧ |nullValue| < D.VALUE_TB_WIN_IN_MAX_PLY then
            some (some nullValue, g3)
          else some (none, g3)
  else some (none, g)

/-- A search stack slot with the killers 70 and 5. -/
def killerInfo : SearchInfo :=
  { sampleInfo with killers := fun i => if i = 0 then 70 else 5 }

/-- The history tables that the statements of `search.cpp` writing `mainHistory` can produce:
the table left by `clear()`, the table after the decay loop of `startSearch()`, and the table
after a call of `negaMax` or `qsearch` that returns (the update in `negaMax` is the only other
write). -/
inductive HistoryReachable (D : Decls) (T : Clock) : (Nat → Nat → Int) → Prop where
  /-- The table after `clear()`. -/
  | clear : HistoryReachable D T clearedHistory
  /-- The decay loop at the start of `startSearch()`. -/
  | decay (h : Nat → Nat → Int) :
      HistoryReachable D T h → HistoryReachable D T (startSearch.decayHistory h)
  /-- A call of `negaMax` that returns. -/
  | search (fuel : Nat) (nodeType : NodeType) (alpha beta : Value) (depth : Int)
      (cutNode : Bool) (ss : Nat) (g : Globals) (value : Value) (g2 : Globals) :
      HistoryReachable D T g.mainHistory →
      negaMax D T fuel nodeType alpha beta depth cutNode ss g = some (value, g2) →
      HistoryReachable D T g2.mainHistory
  /-- A call of `qsearch` that returns. -/
  | quiescence (fuel : Nat) (nodeType : NodeType) (alpha beta : Value) (ss : Nat)
      (g : Globals) (value : Value) (g2 : Globals) :
      HistoryReachable D T g.mainHistory →
      qsearch D T fuel nodeType alpha beta ss g = some (value, g2) →
      HistoryReachable D T g2.mainHistory

/-- The function `N` behind a monitor of the keys: a call on a position whose key is in `K` is
refused (`none`), every other call is passed on. -/
def NegaMax.avoiding (K : List Key) (N : NegaMax) : NegaMax :=
  fun nodeType alpha beta depth cutNode ss g =>
    if g.position.key ∈ K then none else N nodeType alpha beta depth cutNode ss g

/-- The function `Q` behind a monitor of the keys: a call on a position whose key is in `K` is
refused (`none`), every other call is passed on. -/
def QSearch.avoiding (K : List Key) (Q : QSearch) : QSearch :=
  fun nodeType alpha beta ss g =>
    if g.position.key ∈ K then none else Q nodeType alpha beta ss g

/-- The function `qsearch` with every call monitored, the first one included: it returns only
when no node of the search has a key in `K`. -/
def qsearch.avoided (D : Decls) (T : Clock) (K : List Key) : Nat → QSearch
  | 0 => fun _ _ _ _ _ => none
  | fuel + 1 =>
    QSearch.avoiding K (fun nodeType alpha beta ss g =>
      (qsearch.body D T (qsearch.avoided D T K fuel) nodeType alpha beta ss g).map Leave.finish)

/-- The function `negaMax` with every call of `negaMax` and `qsearch` monitored, the first one
included: it returns only when no node of the search has a key in `K`. -/
def negaMax.avoided (D : Decls) (T : Clock) (K : List Key) : Nat → NegaMax
  | 0 => fun _ _ _ _ _ _ _ => none
  | fuel + 1 =>
    NegaMax.avoiding K (fun nodeType alpha beta depth cutNode ss g =>
      (negaMax.body D T (negaMax.avoided D T K fuel) (qsearch.avoided D T K fuel) nodeType
        alpha beta depth cutNode ss g).map Leave.finish)

/-- The entry `e` of a table in which every entry holding a key of `K` is replaced by `c`. -/
def TT.Entry.scrub (e : TT.Entry) (K : List Key) (c : TT.Entry) : TT.Entry :=
  if e.key ∈ K then c else e

/-- The globals with every table entry holding a key of `K` replaced by `c`. Two states with the
same image differ only in table entries that hold keys of `K`. -/
def Globals.scrub (K : List Key) (c : TT.Entry) (g : Globals) : Globals :=
  { g with tt := { g.tt with entries := fun i => (g.tt.entries i).scrub K c } }

/-- The globals with the table slot `slot` holding `e`. -/
def Globals.withSlot (slot : Nat) (e : TT.Entry) (g : Globals) : Globals :=
  { g with tt := { g.tt with entries := Function.update g.tt.entries slot e } }

/-- A lower bound 100 of depth 3 stored for the position with key 78. -/
def cutoffEntry : TT.Entry :=
  { lowerEntry with key := 78 }

/-- The unrepeated sample state not in check with a table of 65536 entries whose slot 78 holds
`cutoffEntry`, the entry of its position. -/
def cutoffGlobals : Globals :=
  { stalemateGlobals with
    tt := { entries := fun i => if i = 78 then cutoffEntry else TT.Entry.cleared,
            entryCount := 65536 } }

/-- The state `cutoffGlobals` with the side to move in check. -/
def cutoffCheckGlobals : Globals :=
  { matedGlobals with tt := cutoffGlobals.tt }

/-- A lower bound 50 stored for the position with key 131073, which shares slot 1 of a table of
65536 entries with the keys 1 and 65537. -/
def strayLower : TT.Entry :=
  { aliasLower with key := 131073 }

/-- An upper bound -50 stored for the position with key 131073. -/
def strayUpper : TT.Entry :=
  { aliasUpper with key := 131073 }

/-- A lower bound 100 of depth 9 stored for the position with key 65614, which shares slot 78 of
a table of 65536 entries with the key 78. -/
def strayEntry : TT.Entry :=
  { lowerEntry with key := 65614, depth := 9 }

/-- The unrepeated sample state on an empty board, where every move is quiet. -/
def quietGlobals : Globals :=
  { stalemateGlobals with position := { samplePosition with key := 78, board := fun _ => 0 } }

/-- The result of the preamble of `negaMax` with the table of its state scrubbed. -/
def negaMax.Entered.scrub (K : List Key) (c : TT.Entry) : negaMax.Entered → negaMax.Entered
  | .leave value g => .leave value (g.scrub K c)
  | .proceed alpha beta g => .proceed alpha beta (g.scrub K c)

/-- The result of the statements before `moves_loop` with the table of its state scrubbed. -/
def negaMax.Pruned.scrub (K : List Key) (c : TT.Entry) : negaMax.Pruned → negaMax.Pruned
  | .leave value g => .leave value (g.scrub K c)
  | .moves node g => .moves node (g.scrub K c)

/-- The end of the move loop of `qsearch` with the table of its state scrubbed. -/
def qsearch.LoopEnd.scrub (K : List Key) (c : TT.Entry) : qsearch.LoopEnd → qsearch.LoopEnd
  | .failHigh bestMove bestValue g => .failHigh bestMove bestValue (g.scrub K c)
  | .done locals g => .done locals (g.scrub K c)

/-! ## Theorems -/

/-- Invariant of the scan of `nextBestMove`. -/
theorem nextBestMove.scan_spec (scores : Nat → Int) (s : Nat) :
    ∀ (n i b : Nat) (v : Int), s ≤ b → b < i → v = scores b →
      (∀ k, s ≤ k → k < i → scores k ≤ scores b) →
      (∀ k, s ≤ k → k < b → scores k < scores b) →
      let r := nextBestMove.scan scores n i b v
      s ≤ r.1 ∧ r.1 < i + n ∧ r.2 = scores r.1 ∧
        (∀ k, s ≤ k → k < i + n → scores k ≤ scores r.1) ∧
        (∀ k, s ≤ k → k < r.1 → scores k < scores r.1) := by
  intro n
  induction n with
  | zero =>
    intro i b v hsb hbi hv hmax hfirst
    simp only [nextBestMove.scan]
    exact ⟨hsb, by omega, hv, by simpa using hmax, hfirst⟩
  | succ n ih =>
    intro i b v hsb hbi hv hmax hfirst
    simp only [nextBestMove.scan]
    split
    · rename_i hgt
      have hgt' : scores b < scores i := by rw [← hv]; exact hgt
      have h := ih (i + 1) i (scores i) (by omega) (by omega) rfl
        (by
          intro k hk1 hk2
          rcases Nat.lt_or_ge k i with hlt | hge
          · exact le_of_lt (lt_of_le_of_lt (hmax k hk1 hlt) hgt')
          · have : k = i := by omega
            subst this; exact le_refl _)
        (by
          intro k hk1 hk2
          exact lt_of_le_of_lt (hmax k hk1 hk2) hgt')
      have e : i + 1 + n = i + (n + 1) := by omega
      rw [e] at h
      exact h
    · rename_i hgt
      have hle : scores i ≤ scores b := by rw [← hv]; exact not_lt.mp hgt
      have h := ih (i + 1) b v hsb (by omega) hv
        (by
          intro k hk1 hk2
          rcases Nat.lt_or_ge k i with hlt | hge
          · exact hmax k hk1 hlt
          · have : k = i := by omega
            subst this; exact hle)
        hfirst
      have e : i + 1 + n = i + (n + 1) := by omega
      rw [e] at h
      exact h

/-- The selected index lies in `[i, size)`, holds a maximal score of `[i, size)` and is the
first slot that does. -/
theorem nextBestMove.index_spec (ml : MoveList) (i : Nat) (hi : i < ml.size) :
    i ≤ nextBestMove.index ml i ∧ nextBestMove.index ml i < ml.size ∧
      (∀ k, i ≤ k → k < ml.size → ml.scores k ≤ ml.scores (nextBestMove.index ml i)) ∧
      (∀ k, i ≤ k → k < nextBestMove.index ml i →
        ml.scores k < ml.scores (nextBestMove.index ml i)) := by
  have h := nextBestMove.scan_spec ml.scores i (ml.size - (i + 1)) (i + 1) i (ml.scores i)
    (le_refl _) (by omega) rfl
    (by
      intro k hk1 hk2
      have : k = i := by omega
      subst this; exact le_refl _)
    (by intro k hk1 hk2; omega)
  have e : i + 1 + (ml.size - (i + 1)) = ml.size := by omega
  simp only [e] at h
  exact ⟨h.1, h.2.1, h.2.2.2.1, h.2.2.2.2⟩

/-- Claim C1: for a list of size n and an index i < n, `nextBestMove(list, i)` returns the move
stored at an index j with i ≤ j < n whose score is maximal over the slots [i, n), and j is
the smallest index of [i, n) holding that maximum. -/
theorem nextBestMove_returns_first_max (ml : MoveList) (i : Nat) (hi : i < ml.size) :
    (nextBestMove ml i).1 = ml.moves (nextBestMove.index ml i) ∧
      i ≤ nextBestMove.index ml i ∧ nextBestMove.index ml i < ml.size ∧
      (∀ k, i ≤ k → k < ml.size → ml.scores k ≤ ml.scores (nextBestMove.index ml i)) ∧
      (∀ k, i ≤ k → k < nextBestMove.index ml i →
        ml.scores k < ml.scores (nextBestMove.index ml i)) :=
  ⟨rfl, nextBestMove.index_spec ml i hi⟩

/-- Witness of C1 on the sample list: the scan from slot 0 selects slot 1 (score 5). -/
theorem nextBestMove_returns_first_max_witness :
    (0 < sampleList.size) ∧ (nextBestMove sampleList 0).1 = 20 ∧
      nextBestMove.index sampleList 0 = 1 :=
  ⟨by decide,
    (nextBestMove_returns_first_max sampleList 0 (by decide)).1.trans (by decide),
    by decide⟩

/-! ### The selection is half of a swap -/

/-- Writing slot `j` of an array and then listing a range that contains `j` moves the written
value in and the overwritten one out. -/
theorem perm_map_update_range' {β : Type} (f : Nat → β) (j : Nat) (v : β) :
    ∀ (m s : Nat), s ≤ j → j < s + m →
      List.Perm (f j :: (List.range' s m).map (Function.update f j v))
        (v :: (List.range' s m).map f) := by
  intro m
  induction m with
  | zero => intro s h1 h2; omega
  | succ m ih =>
    intro s h1 h2
    rw [List.range'_succ, List.map_cons, List.map_cons]
    rcases Nat.eq_or_lt_of_le h1 with heq | hlt
    · subst heq
      have hrest : (List.range' (s + 1) m).map (Function.update f s v) =
          (List.range' (s + 1) m).map f := by
        apply List.map_congr_left
        intro k hk
        have hk' := (List.mem_range'_1.mp hk).1
        exact Function.update_noteq (show k ≠ s by omega) v f
      rw [hrest, Function.update_same]
      exact List.Perm.swap v (f s) _
    · have hs : Function.update f j v s = f s :=
        Function.update_noteq (show s ≠ j by omega) v f
      rw [hs]
      have h := ih (s + 1) (by omega) (by omega)
      exact (List.Perm.swap (f s) (f j) _).trans ((h.cons (f s)).trans (List.Perm.swap v (f s) _))

/-- Listing a range that does not contain the written slot ignores the write. -/
theorem map_update_range'_of_lt {β : Type} (f : Nat → β) (j : Nat) (v : β) (s m : Nat)
    (h : j < s) :
    (List.range' s m).map (Function.update f j v) = (List.range' s m).map f := by
  apply List.map_congr_left
  intro k hk
  have hk' := (List.mem_range'_1.mp hk).1
  exact Function.update_noteq (show k ≠ j by omega) v f

/-- The pair map of the list after the call is the pair map before with one slot written. -/
theorem nextBestMove_pairs (ml : MoveList) (i : Nat) :
    (fun k => ((nextBestMove ml i).2.moves k, (nextBestMove ml i).2.scores k)) =
      Function.update (fun k => (ml.moves k, ml.scores k)) (nextBestMove.index ml i)
        (ml.moves i, ml.scores i) := by
  funext k
  by_cases hk : k = nextBestMove.index ml i
  · subst hk
    simp [nextBestMove]
  · simp [nextBestMove, Function.update_noteq hk]

/-- One call removes the selected pair from the slots `[i, size)`: the selected pair followed by
the slots `[i + 1, size)` after the call is a rearrangement of the slots `[i, size)` before. -/
theorem nextBestMove_slots_perm (ml : MoveList) (i : Nat) (hi : i < ml.size) :
    List.Perm
      ((ml.moves (nextBestMove.index ml i), ml.scores (nextBestMove.index ml i)) ::
        (nextBestMove ml i).2.slotsFrom (i + 1))
      (ml.slotsFrom i) := by
  obtain ⟨h1, h2, -, -⟩ := nextBestMove.index_spec ml i hi
  have hsz : (nextBestMove ml i).2.size = ml.size := rfl
  have hsplit : ml.size - i = (ml.size - (i + 1)) + 1 := by omega
  unfold MoveList.slotsFrom
  rw [hsz, nextBestMove_pairs]
  conv_rhs => rw [hsplit, List.range'_succ, List.map_cons]
  rcases Nat.eq_or_lt_of_le h1 with heq | hlt
  · rw [← heq, map_update_range'_of_lt _ _ _ _ _ (by omega)]
  · exact perm_map_update_range' (fun k => (ml.moves k, ml.scores k)) _ _ _ (i + 1)
      (by omega) (by omega)

/-- Membership in the slots `[i, size)`. -/
theorem MoveList.mem_slotsFrom (ml : MoveList) (i : Nat) (x : Move × Int) :
    x ∈ ml.slotsFrom i ↔ ∃ k, i ≤ k ∧ k < ml.size ∧ x = (ml.moves k, ml.scores k) := by
  unfold MoveList.slotsFrom
  rw [List.mem_map]
  constructor
  · rintro ⟨k, hk, rfl⟩
    have := List.mem_range'_1.mp hk
    exact ⟨k, this.1, by omega, rfl⟩
  · rintro ⟨k, h1, h2, rfl⟩
    exact ⟨k, List.mem_range'_1.mpr ⟨h1, by omega⟩, rfl⟩

/-- The move loop started at index `i` returns the slots `[i, size)` in non-increasing score
order. -/
theorem moveLoop.picks_spec :
    ∀ (n i : Nat) (ml : MoveList), i + n = ml.size →
      List.Perm (moveLoop.picks n i ml) (ml.slotsFrom i) ∧
        List.Pairwise (fun a b => a ≥ b) ((moveLoop.picks n i ml).map Prod.snd) := by
  intro n
  induction n with
  | zero =>
    intro i ml h
    have h0 : ml.size - i = 0 := by omega
    simp [moveLoop.picks, MoveList.slotsFrom, h0]
  | succ n ih =>
    intro i ml h
    have hi : i < ml.size := by omega
    obtain ⟨ihp, ihs⟩ := ih (i + 1) (nextBestMove ml i).2
      (by show i + 1 + n = ml.size; omega)
    have hstep := nextBestMove_slots_perm ml i hi
    obtain ⟨-, -, hmax, -⟩ := nextBestMove.index_spec ml i hi
    simp only [moveLoop.picks]
    refine ⟨((ihp.cons _).trans hstep), ?_⟩
    rw [List.map_cons, List.pairwise_cons]
    refine ⟨?_, ihs⟩
    intro b hb
    obtain ⟨x, hx, rfl⟩ := List.mem_map.mp hb
    have hx1 : x ∈ ml.slotsFrom i :=
      hstep.subset (List.mem_cons_of_mem _ (ihp.subset hx))
    obtain ⟨k, hk1, hk2, rfl⟩ := (ml.mem_slotsFrom i x).mp hx1
    exact hmax k hk1 hk2

/-- Claim C2 as stated fails: on the sample list (moves 10, 20, 30 with scores 1, 5, 3) the call
`nextBestMove(list, 0)` returns move 20, but slot 0 still holds move 10 with score 1 and the
three slots hold 10, 10, 30, which is not a rearrangement of 10, 20, 30. -/
theorem nextBestMove_swap_counterexample :
    (nextBestMove sampleList 0).1 = 20 ∧
      ¬ ((nextBestMove sampleList 0).2.moves 0 = (nextBestMove sampleList 0).1) ∧
      (List.range 3).map (nextBestMove sampleList 0).2.moves = [10, 10, 30] ∧
      ¬ List.Perm ((List.range 3).map (nextBestMove sampleList 0).2.moves)
        ((List.range 3).map sampleList.moves) := by
  decide

/-- Claim C2, amended: for i < n the call writes one slot only. The selected slot j receives the
move and score of slot i, every other slot (slot i included) and the size are unchanged, and
the returned pair followed by the slots (i, n) after the call is a rearrangement of the slots
[i, n) before the call. -/
theorem nextBestMove_overwrites_selected (ml : MoveList) (i : Nat) (hi : i < ml.size) :
    (nextBestMove ml i).2.moves (nextBestMove.index ml i) = ml.moves i ∧
      (nextBestMove ml i).2.scores (nextBestMove.index ml i) = ml.scores i ∧
      (nextBestMove ml i).2.moves i = ml.moves i ∧
      (nextBestMove ml i).2.scores i = ml.scores i ∧
      (∀ k, k ≠ nextBestMove.index ml i →
        (nextBestMove ml i).2.moves k = ml.moves k ∧
          (nextBestMove ml i).2.scores k = ml.scores k) ∧
      (nextBestMove ml i).2.size = ml.size ∧
      List.Perm
        (((nextBestMove ml i).1, ml.scores (nextBestMove.index ml i)) ::
          (nextBestMove ml i).2.slotsFrom (i + 1))
        (ml.slotsFrom i) := by
  have hother : ∀ k, k ≠ nextBestMove.index ml i →
      (nextBestMove ml i).2.moves k = ml.moves k ∧
        (nextBestMove ml i).2.scores k = ml.scores k := by
    intro k hk
    simp [nextBestMove, Function.update_noteq hk]
  refine ⟨by simp [nextBestMove], by simp [nextBestMove], ?_, ?_, hother, rfl,
    nextBestMove_slots_perm ml i hi⟩
  · by_cases h : i = nextBestMove.index ml i
    · simp [nextBestMove, ← h]
    · exact (hother i h).1
  · by_cases h : i = nextBestMove.index ml i
    · simp [nextBestMove, ← h]
    · exact (hother i h).2

/-- Witness of the amended C2 on the sample list, at index 0. -/
theorem nextBestMove_overwrites_selected_witness :
    (0 < sampleList.size) ∧ (nextBestMove sampleList 0).2.moves 0 = sampleList.moves 0 :=
  ⟨by decide, (nextBestMove_overwrites_selected sampleList 0 (by decide)).2.2.1⟩

/-- Claim C3: the successive calls `nextBestMove(list, 0)`, ..., `nextBestMove(list, n - 1)` of the
move loops return every (move, score) entry of the original list exactly once, so the returned
moves are a rearrangement of the original moves, and the scores of the returned moves are
non-increasing. -/
theorem moveLoop_perm_sorted (ml : MoveList) :
    List.Perm (moveLoop ml) (ml.slotsFrom 0) ∧
      List.Perm ((moveLoop ml).map Prod.fst) ((List.range ml.size).map ml.moves) ∧
      List.Pairwise (fun a b => a ≥ b) ((moveLoop ml).map Prod.snd) := by
  obtain ⟨hp, hs⟩ := moveLoop.picks_spec ml.size 0 ml (by omega)
  refine ⟨hp, ?_, hs⟩
  have h := hp.map Prod.fst
  have e : (ml.slotsFrom 0).map Prod.fst = (List.range ml.size).map ml.moves := by
    simp [MoveList.slotsFrom, List.range_eq_range', Function.comp_def]
  rw [e] at h
  exact h

/-! ### `scoreMoves` puts the transposition table move first -/

/-- Truncated division by 200 of a history entry in `[-12000, 12000]` lies in `[-60, 60]`. -/
theorem tdiv_200_bounds (x : Int) (h1 : -12000 ≤ x) (h2 : x ≤ 12000) :
    -60 ≤ x.tdiv 200 ∧ x.tdiv 200 ≤ 60 := by
  rcases le_or_lt 0 x with hx | hx
  · rw [Int.tdiv_eq_ediv hx (by decide)]
    omega
  · have e : x = -(-x) := by omega
    rw [e, Int.neg_tdiv, Int.tdiv_eq_ediv (by omega) (by decide)]
    omega

/-- The loop of `scoreMoves` rewrites the scores of the slots it visits and nothing else. -/
theorem scoreMoves.loop_spec (D : Decls) (position : Position) (mainHistory : Nat → Nat → Int)
    (ttMove killer0 killer1 : Move) :
    ∀ (n i : Nat) (ml : MoveList),
      (scoreMoves.loop D position mainHistory ttMove killer0 killer1 n i ml).moves = ml.moves ∧
      (scoreMoves.loop D position mainHistory ttMove killer0 killer1 n i ml).size = ml.size ∧
      ∀ k, (scoreMoves.loop D position mainHistory ttMove killer0 killer1 n i ml).scores k =
        if i ≤ k ∧ k < i + n then
          scoreMoves.score D position mainHistory ttMove killer0 killer1 (ml.moves k)
        else ml.scores k := by
  intro n
  induction n with
  | zero =>
    intro i ml
    refine ⟨rfl, rfl, ?_⟩
    intro k
    have hno : ¬ (i ≤ k ∧ k < i + 0) := by omega
    simp only [scoreMoves.loop]
    rw [if_neg hno]
  | succ n ih =>
    intro i ml
    obtain ⟨h1, h2, h3⟩ := ih (i + 1)
      { ml with
        scores := Function.update ml.scores i
          (scoreMoves.score D position mainHistory ttMove killer0 killer1 (ml.moves i)) }
    simp only [scoreMoves.loop]
    refine ⟨h1, h2, ?_⟩
    intro k
    rw [h3 k]
    by_cases hk : k = i
    · subst hk
      have a : ¬ (k + 1 ≤ k ∧ k < k + 1 + n) := by omega
      have b : k ≤ k ∧ k < k + (n + 1) := by omega
      simp [a, b]
    · by_cases hr : i + 1 ≤ k ∧ k < i + 1 + n
      · have b : i ≤ k ∧ k < i + (n + 1) := by omega
        simp [hr, b]
      · have b : ¬ (i ≤ k ∧ k < i + (n + 1)) := by omega
        simp [hr, b, Function.update_noteq hk]

/-- A move other than the transposition table move scores below `INT_MAX` when the history
entries lie in `[-12000, 12000]` and the piece values in `[-10^9, 10^9]`. -/
theorem scoreMoves.score_lt_INT_MAX (D : Decls) (position : Position)
    (mainHistory : Nat → Nat → Int) (ttMove killer0 killer1 m : Move)
    (hh : ∀ c i, -12000 ≤ mainHistory c i ∧ mainHistory c i ≤ 12000)
    (hp : ∀ p, -1000000000 ≤ D.PieceValue p ∧ D.PieceValue p ≤ 1000000000)
    (hm : m ≠ ttMove) :
    scoreMoves.score D position mainHistory ttMove killer0 killer1 m < INT_MAX := by
  have hq := tdiv_200_bounds _ (hh position.sideToMove (fromTo D m)).1
    (hh position.sideToMove (fromTo D m)).2
  have hc := hp (position.board (D.getMoveDest m))
  have hpr := hp (D.getPromoType m)
  simp only [scoreMoves.score, if_neg hm]
  generalize (mainHistory position.sideToMove (fromTo D m)).tdiv 200 = q at hq
  generalize D.PieceValue (position.board (D.getMoveDest m)) = c at hc
  generalize D.PieceValue (D.getPromoType m) = pr at hpr
  simp only [wrapInt, INT_MAX]
  cases D.getMoveType m <;> simp only <;> split_ifs <;> omega

/-- Claim C4: when the list contains ttMove, every mainHistory entry lies in [-12000, 12000]
and the piece values lie in [-10^9, 10^9], then after `scoreMoves(list, ttMove, ss)` every slot
holding ttMove has score INT_MAX, every other slot has a score strictly below INT_MAX, and
`nextBestMove(list, 0)` returns ttMove. The moves need not be pairwise distinct. -/
theorem scoreMoves_ttMove_first (D : Decls) (position : Position)
    (mainHistory : Nat → Nat → Int) (ml : MoveList) (ttMove : Move) (ss : SearchInfo)
    (hh : ∀ c i, -12000 ≤ mainHistory c i ∧ mainHistory c i ≤ 12000)
    (hp : ∀ p, -1000000000 ≤ D.PieceValue p ∧ D.PieceValue p ≤ 1000000000)
    (ht : ∃ t, t < ml.size ∧ ml.moves t = ttMove) :
    (scoreMoves D position mainHistory ml ttMove ss).moves = ml.moves ∧
      (scoreMoves D position mainHistory ml ttMove ss).size = ml.size ∧
      (∀ k, k < ml.size → ml.moves k = ttMove →
        (scoreMoves D position mainHistory ml ttMove ss).scores k = INT_MAX) ∧
      (∀ k, k < ml.size → ml.moves k ≠ ttMove →
        (scoreMoves D position mainHistory ml ttMove ss).scores k < INT_MAX) ∧
      (nextBestMove (scoreMoves D position mainHistory ml ttMove ss) 0).1 = ttMove := by
  obtain ⟨hmoves, hsize, hscores⟩ :=
    scoreMoves.loop_spec D position mainHistory ttMove (ss.killers 0) (ss.killers 1) ml.size 0 ml
  have htt : ∀ k, k < ml.size → ml.moves k = ttMove →
      (scoreMoves D position mainHistory ml ttMove ss).scores k = INT_MAX := by
    intro k hk hm
    have hr : 0 ≤ k ∧ k < 0 + ml.size := by omega
    show (scoreMoves.loop D position mainHistory ttMove (ss.killers 0) (ss.killers 1) ml.size 0
      ml).scores k = INT_MAX
    rw [hscores k, if_pos hr]
    simp [scoreMoves.score, hm]
  have hother : ∀ k, k < ml.size → ml.moves k ≠ ttMove →
      (scoreMoves D position mainHistory ml ttMove ss).scores k < INT_MAX := by
    intro k hk hm
    have hr : 0 ≤ k ∧ k < 0 + ml.size := by omega
    show (scoreMoves.loop D position mainHistory ttMove (ss.killers 0) (ss.killers 1) ml.size 0
      ml).scores k < INT_MAX
    rw [hscores k, if_pos hr]
    exact scoreMoves.score_lt_INT_MAX D position mainHistory ttMove _ _ _ hh hp hm
  refine ⟨hmoves, hsize, htt, hother, ?_⟩
  obtain ⟨t, ht1, ht2⟩ := ht
  have hpos : 0 < (scoreMoves D position mainHistory ml ttMove ss).size := by
    rw [show (scoreMoves D position mainHistory ml ttMove ss).size = ml.size from hsize]
    omega
  obtain ⟨-, hj, hmax, -⟩ :=
    nextBestMove.index_spec (scoreMoves D position mainHistory ml ttMove ss) 0 hpos
  rw [show (scoreMoves D position mainHistory ml ttMove ss).size = ml.size from hsize] at hj hmax
  have hge := hmax t (Nat.zero_le _) ht1
  rw [htt t ht1 ht2] at hge
  show (scoreMoves D position mainHistory ml ttMove ss).moves
    (nextBestMove.index (scoreMoves D position mainHistory ml ttMove ss) 0) = ttMove
  rw [show (scoreMoves D position mainHistory ml ttMove ss).moves = ml.moves from hmoves]
  by_contra hne
  have := hother _ hj hne
  omega

/-- Witness of C4: the sample list scored with transposition table move 30 on the sample
position yields move 30 first. -/
theorem scoreMoves_ttMove_first_witness :
    (∃ t, t < sampleList.size ∧ sampleList.moves t = 30) ∧
      (nextBestMove
        (scoreMoves sampleDecls samplePosition (fun _ _ => 0) sampleList 30 sampleInfo) 0).1 =
        30 :=
  ⟨⟨2, by decide, by decide⟩,
    (scoreMoves_ttMove_first sampleDecls samplePosition (fun _ _ => 0) sampleList 30 sampleInfo
      (by intro c i; show (-12000 : Int) ≤ 0 ∧ (0 : Int) ≤ 12000; decide)
      (by
        intro p
        simp only [sampleDecls]
        split_ifs <;> constructor <;> decide)
      ⟨2, by decide, by decide⟩).2.2.2.2⟩

/-! ### Make and unmake -/

/-- The bookkeeping at the start of `playMove` changes `nodesSearched`, the played move of `*ss`
and possibly `searchState`, nothing else. -/
theorem recordPlayed_eq (t : TimeReading) (move : Move) (ss : Nat) (g : Globals) :
    recordPlayed t move ss g =
      { g with
        nodesSearched := (g.nodesSearched + 1) % 2 ^ 64
        searchState := (recordPlayed t move ss g).searchState
        searchStack :=
          Function.update g.searchStack ss { g.searchStack ss with playedMove := move } } ∧
      ((recordPlayed t move ss g).searchState = g.searchState ∨
        (recordPlayed t move ss g).searchState = RunState.STOP_PENDING) := by
  simp only [recordPlayed, checkTime]
  split_ifs <;> exact ⟨rfl, by simp⟩

/-- Claim C5: when ply + 1 < MAX_PLY, `playMove(m, ss)` followed by `cancelMove()` succeeds and
leaves the position and ply as they were; the state after the pair is the state before with
nodesSearched incremented (as a 64-bit counter), ss->playedMove set to m, posStack[ply] holding
the position, the accumulator slot ply + 1 rewritten, and searchState either unchanged or
STOP_PENDING. The same holds for `playNullMove(ss)` followed by `cancelMove()`, which records
MOVE_NONE and copies the accumulator slot ply into slot ply + 1. -/
theorem playMove_cancelMove_restores (D : Decls) (t : TimeReading) (move : Move) (ss : Nat)
    (g : Globals) (h : g.ply + 1 < D.MAX_PLY) :
    (∃ g2 acc st, (playMove D t move ss g).bind (cancelMove D) = some g2 ∧
      g2.position = g.position ∧ g2.ply = g.ply ∧
      (st = g.searchState ∨ st = RunState.STOP_PENDING) ∧
      g2 = { g with
        nodesSearched := (g.nodesSearched + 1) % 2 ^ 64
        searchState := st
        searchStack :=
          Function.update g.searchStack ss { g.searchStack ss with playedMove := move }
        posStack := Function.update g.posStack g.ply g.position
        accumulatorStack := Function.update g.accumulatorStack (g.ply + 1) acc }) ∧
    (∃ g2 st, (playNullMove D t ss g).bind (cancelMove D) = some g2 ∧
      g2.position = g.position ∧ g2.ply = g.ply ∧
      (st = g.searchState ∨ st = RunState.STOP_PENDING) ∧
      g2 = { g with
        nodesSearched := (g.nodesSearched + 1) % 2 ^ 64
        searchState := st
        searchStack :=
          Function.update g.searchStack ss { g.searchStack ss with playedMove := MOVE_NONE }
        posStack := Function.update g.posStack g.ply g.position
        accumulatorStack :=
          Function.update g.accumulatorStack (g.ply + 1) (g.accumulatorStack g.ply) }) := by
  have hpop : g.ply < D.MAX_PLY := by omega
  constructor
  · obtain ⟨he, hst⟩ := recordPlayed_eq t move ss g
    generalize (recordPlayed t move ss g).searchState = st at he hst
    have key : (playMove D t move ss g).bind (cancelMove D) = some { g with
        nodesSearched := (g.nodesSearched + 1) % 2 ^ 64
        searchState := st
        searchStack :=
          Function.update g.searchStack ss { g.searchStack ss with playedMove := move }
        posStack := Function.update g.posStack g.ply g.position
        accumulatorStack := Function.update g.accumulatorStack (g.ply + 1)
          (D.doMove g.position move (g.accumulatorStack g.ply)).2 } := by
      simp [playMove, he, pushPosition, h, hpop, cancelMove, popPosition]
    exact ⟨_, _, st, key, rfl, rfl, hst, rfl⟩
  · obtain ⟨he, hst⟩ := recordPlayed_eq t MOVE_NONE ss g
    generalize (recordPlayed t MOVE_NONE ss g).searchState = st at he hst
    have key : (playNullMove D t ss g).bind (cancelMove D) = some { g with
        nodesSearched := (g.nodesSearched + 1) % 2 ^ 64
        searchState := st
        searchStack :=
          Function.update g.searchStack ss { g.searchStack ss with playedMove := MOVE_NONE }
        posStack := Function.update g.posStack g.ply g.position
        accumulatorStack :=
          Function.update g.accumulatorStack (g.ply + 1) (g.accumulatorStack g.ply) } := by
      simp [playNullMove, he, pushPosition, h, hpop, cancelMove, popPosition]
    exact ⟨_, st, key, rfl, rfl, hst, rfl⟩

/-- Witness of C5 on the sample state (ply 2, MAX_PLY 128): making and cancelling move 9 gives
back the sample position at ply 2 with one more node counted. -/
theorem playMove_cancelMove_restores_witness :
    (sampleGlobals.ply + 1 < sampleDecls.MAX_PLY) ∧
      ∃ g2, (playMove sampleDecls sampleTime 9 6 sampleGlobals).bind (cancelMove sampleDecls) =
          some g2 ∧
        g2.position = sampleGlobals.position ∧ g2.ply = 2 ∧ g2.nodesSearched = 42 :=
  ⟨by decide,
    match (playMove_cancelMove_restores sampleDecls sampleTime 9 6 sampleGlobals
      (by decide)).1 with
    | ⟨g2, _, _, h1, h2, h3, _, h5⟩ => ⟨g2, h1, h2, h3, by rw [h5]; rfl⟩⟩

/-! ### Repetition detection -/

/-- The stack loop finds a match exactly when one of the indices `i, i - 2, ...` it visits holds
the key. -/
theorem is2FoldRepetition.stackLoop_iff (key : Key) (posStack : Nat → Position) :
    ∀ (n : Nat) (i : Int),
      is2FoldRepetition.stackLoop key posStack n i = true ↔
        ∃ k : Nat, k < n ∧ 0 ≤ i - 2 * k ∧ key = (posStack (i - 2 * k).toNat).key := by
  intro n
  induction n with
  | zero =>
    intro i
    simp [is2FoldRepetition.stackLoop]
  | succ n ih =>
    intro i
    simp only [is2FoldRepetition.stackLoop]
    by_cases hi : i ≥ 0
    · rw [if_pos hi]
      by_cases hk : key = (posStack i.toNat).key
      · rw [if_pos hk]
        simp only [true_iff]
        exact ⟨0, by omega, by simpa using hi, by simpa using hk⟩
      · rw [if_neg hk, ih (i - 2)]
        constructor
        · rintro ⟨k, h1, h2, h3⟩
          refine ⟨k + 1, by omega, by push_cast; omega, ?_⟩
          have e : i - 2 * ((k + 1 : Nat) : Int) = i - 2 - 2 * (k : Int) := by push_cast; ring
          rw [e]; exact h3
        · rintro ⟨k, h1, h2, h3⟩
          rcases Nat.eq_zero_or_pos k with h0 | hpos
          · subst h0
            exact absurd (by simpa using h3) hk
          · obtain ⟨k', rfl⟩ : ∃ k', k = k' + 1 := ⟨k - 1, by omega⟩
            have e : i - 2 * ((k' + 1 : Nat) : Int) = i - 2 - 2 * (k' : Int) := by
              push_cast; ring
            rw [e] at h2 h3
            exact ⟨k', by omega, h2, h3⟩
    · rw [if_neg hi]
      simp only [Bool.false_eq_true, false_iff]
      rintro ⟨k, -, h2, -⟩
      omega

/-- The history loop finds a match exactly when one of the indices `i, i - 1, ...` it visits
holds the key. -/
theorem is2FoldRepetition.seenLoop_iff (key : Key) (seen : List Key) :
    ∀ (n : Nat) (i : Int),
      is2FoldRepetition.seenLoop key seen n i = true ↔
        ∃ k : Nat, k < n ∧ 0 ≤ i - k ∧ key = seen.getD (i - k).toNat 0 := by
  intro n
  induction n with
  | zero =>
    intro i
    simp [is2FoldRepetition.seenLoop]
  | succ n ih =>
    intro i
    simp only [is2FoldRepetition.seenLoop]
    by_cases hi : i ≥ 0
    · rw [if_pos hi]
      by_cases hk : key = seen.getD i.toNat 0
      · rw [if_pos hk]
        simp only [true_iff]
        exact ⟨0, by omega, by simpa using hi, by simpa using hk⟩
      · rw [if_neg hk, ih (i - 1)]
        constructor
        · rintro ⟨k, h1, h2, h3⟩
          refine ⟨k + 1, by omega, by push_cast; omega, ?_⟩
          have e : i - ((k + 1 : Nat) : Int) = i - 1 - (k : Int) := by push_cast; ring
          rw [e]; exact h3
        · rintro ⟨k, h1, h2, h3⟩
          rcases Nat.eq_zero_or_pos k with h0 | hpos
          · subst h0
            exact absurd (by simpa using h3) hk
          · obtain ⟨k', rfl⟩ : ∃ k', k = k' + 1 := ⟨k - 1, by omega⟩
            have e : i - ((k' + 1 : Nat) : Int) = i - 1 - (k' : Int) := by push_cast; ring
            rw [e] at h2 h3
            exact ⟨k', by omega, h2, h3⟩
    · rw [if_neg hi]
      simp only [Bool.false_eq_true, false_iff]
      rintro ⟨k, -, h2, -⟩
      omega

/-- Claim C6: `is2FoldRepetition()` returns true if and only if halfMoveClock >= 4 and either
(a) posStack[i].key equals the current key for some i among ply-2, ply-4, ... with i >= 0, or
(b) seenPositions[i] equals the current key for some i with 0 <= i <= len-2; it returns false
whenever halfMoveClock < 4. The length of seenPositions is taken to fit an `int`. -/
theorem is2FoldRepetition_iff (g : Globals) (hlen : g.seenPositions.length < 2 ^ 31) :
    (is2FoldRepetition g = true ↔
      g.position.halfMoveClock ≥ 4 ∧
        ((∃ k : Nat, 2 * k + 2 ≤ g.ply ∧
            (g.posStack (g.ply - 2 - 2 * k)).key = g.position.key) ∨
          (∃ i : Nat, i + 2 ≤ g.seenPositions.length ∧
            g.seenPositions.get? i = some g.position.key))) ∧
      (g.position.halfMoveClock < 4 → is2FoldRepetition g = false) := by
  have hstart : wrapInt (((g.seenPositions.length : Int) - 2) % 2 ^ 64) =
      (g.seenPositions.length : Int) - 2 := by
    unfold wrapInt
    have : (g.seenPositions.length : Int) < 2 ^ 31 := by exact_mod_cast hlen
    omega
  have hA : is2FoldRepetition.stackLoop g.position.key g.posStack g.ply ((g.ply : Int) - 2)
      = true ↔ ∃ k : Nat, 2 * k + 2 ≤ g.ply ∧
        (g.posStack (g.ply - 2 - 2 * k)).key = g.position.key := by
    rw [is2FoldRepetition.stackLoop_iff]
    constructor
    · rintro ⟨k, h1, h2, h3⟩
      have e : ((g.ply : Int) - 2 - 2 * (k : Int)).toNat = g.ply - 2 - 2 * k := by omega
      rw [e] at h3
      exact ⟨k, by omega, h3.symm⟩
    · rintro ⟨k, h1, h2⟩
      have e : ((g.ply : Int) - 2 - 2 * (k : Int)).toNat = g.ply - 2 - 2 * k := by omega
      exact ⟨k, by omega, by omega, by rw [e]; exact h2.symm⟩
  have hB : is2FoldRepetition.seenLoop g.position.key g.seenPositions g.seenPositions.length
      ((g.seenPositions.length : Int) - 2) = true ↔
        ∃ i : Nat, i + 2 ≤ g.seenPositions.length ∧
          g.seenPositions.get? i = some g.position.key := by
    rw [is2FoldRepetition.seenLoop_iff]
    constructor
    · rintro ⟨k, h1, h2, h3⟩
      have e : ((g.seenPositions.length : Int) - 2 - (k : Int)).toNat =
          g.seenPositions.length - 2 - k := by omega
      rw [e] at h3
      refine ⟨g.seenPositions.length - 2 - k, by omega, ?_⟩
      have hlt : g.seenPositions.length - 2 - k < g.seenPositions.length := by omega
      rw [List.getD_eq_getElem _ _ hlt] at h3
      rw [List.get?_eq_getElem?, List.getElem?_eq_getElem hlt, h3]
    · rintro ⟨i, h1, h2⟩
      have hlt : i < g.seenPositions.length := by omega
      refine ⟨g.seenPositions.length - 2 - i, by omega, by omega, ?_⟩
      have e : ((g.seenPositions.length : Int) - 2 -
          ((g.seenPositions.length - 2 - i : Nat) : Int)).toNat = i := by omega
      rw [e, List.getD_eq_getElem _ _ hlt]
      rw [List.get?_eq_getElem?, List.getElem?_eq_getElem hlt] at h2
      exact (Option.some.inj h2).symm
  constructor
  · unfold is2FoldRepetition
    rw [hstart]
    by_cases hc : g.position.halfMoveClock < 4
    · rw [if_pos hc]
      simp only [Bool.false_eq_true, false_iff]
      rintro ⟨h, -⟩
      omega
    · rw [if_neg hc]
      have hc' : g.position.halfMoveClock ≥ 4 := by omega
      by_cases h1 : is2FoldRepetition.stackLoop g.position.key g.posStack g.ply
          ((g.ply : Int) - 2) = true
      · rw [if_pos h1]
        simp only [true_iff]
        exact ⟨hc', Or.inl (hA.mp h1)⟩
      · rw [if_neg h1]
        by_cases h2 : is2FoldRepetition.seenLoop g.position.key g.seenPositions
            g.seenPositions.length ((g.seenPositions.length : Int) - 2) = true
        · rw [if_pos h2]
          simp only [true_iff]
          exact ⟨hc', Or.inr (hB.mp h2)⟩
        · rw [if_neg h2]
          simp only [Bool.false_eq_true, false_iff]
          rintro ⟨-, h | h⟩
          · exact h1 (hA.mpr h)
          · exact h2 (hB.mpr h)
  · intro hc
    unfold is2FoldRepetition
    rw [if_pos hc]

/-- Witness of C6 on the sample state: at ply 2 the key of posStack[0] is the current key and
the half-move clock is 6, so the repetition is reported. -/
theorem is2FoldRepetition_iff_witness :
    (sampleGlobals.seenPositions.length < 2 ^ 31) ∧ is2FoldRepetition sampleGlobals = true :=
  ⟨by decide,
    (is2FoldRepetition_iff sampleGlobals (by decide)).1.mpr
      ⟨by decide, Or.inl ⟨0, by decide, by decide⟩⟩⟩

/-! ### The driver and `lastBestMove` -/

/-- The result of the aspiration loop is the result of one of its root searches. -/
theorem startSearch.aspiration_result (D : Decls) (R : RootSearch) (limits : SearchLimits)
    (rootDepth : Int) :
    ∀ (fuel : Nat) (w : startSearch.Window) (calls : Nat) (r : RootResult) (calls2 : Nat),
      startSearch.aspiration D R limits rootDepth fuel w calls = some (r, calls2) →
        ∃ c a b dp, r = R.negaMax c a b dp := by
  intro fuel
  induction fuel with
  | zero =>
    intro w calls r calls2 h
    simp [startSearch.aspiration] at h
  | succ fuel ih =>
    intro w calls r calls2 h
    simp only [startSearch.aspiration] at h
    split at h
    · exact ⟨_, _, _, _, (Prod.mk.inj (Option.some.inj h)).1.symm⟩
    · exact ih _ _ _ _ h

/-- The result of the search of one iteration is the result of one of its root searches. -/
theorem startSearch.searchIteration_result (D : Decls) (R : RootSearch)
    (limits : SearchLimits) (fuel : Nat) (rootDepth : Int) (d : Driver) (r : RootResult)
    (calls : Nat)
    (h : startSearch.searchIteration D R limits fuel rootDepth d = some (r, calls)) :
    ∃ c a b dp, r = R.negaMax c a b dp := by
  unfold startSearch.searchIteration at h
  split_ifs at h
  · exact startSearch.aspiration_result D R limits rootDepth _ _ _ _ _ h
  · exact ⟨_, _, _, _, (Prod.mk.inj (Option.some.inj h)).1.symm⟩

/-- Across the driver loop the local `bestMove` either keeps its initial content or is the
`pv[0]` left by a root search after which no stop was pending. -/
theorem startSearch.iterate_bestMove (D : Decls) (R : RootSearch) (limits : SearchLimits)
    (fuel : Nat) (bestMove0 : Move) :
    ∀ (n : Nat) (rootDepth : Int) (d d2 : Driver),
      (d.bestMove = bestMove0 ∨
        ∃ c a b dp, (R.negaMax c a b dp).stopPending = false ∧
          d.bestMove = (R.negaMax c a b dp).pv0) →
      startSearch.iterate D R limits fuel n rootDepth d = some d2 →
      (d2.bestMove = bestMove0 ∨
        ∃ c a b dp, (R.negaMax c a b dp).stopPending = false ∧
          d2.bestMove = (R.negaMax c a b dp).pv0) := by
  intro n
  induction n with
  | zero =>
    intro rootDepth d d2 hd h
    simp only [startSearch.iterate] at h
    cases Option.some.inj h
    exact hd
  | succ n ih =>
    intro rootDepth d d2 hd h
    simp only [startSearch.iterate] at h
    by_cases hnodes : limits.nodes ≠ 0 ∧ d.nodesSearched ≥ limits.nodes
    · rw [if_pos hnodes] at h
      cases Option.some.inj h
      exact hd
    · rw [if_neg hnodes] at h
      cases hs : startSearch.searchIteration D R limits fuel rootDepth d with
      | none => rw [hs] at h; simp at h
      | some rc =>
        obtain ⟨r, calls⟩ := rc
        obtain ⟨c, a, b, dp, hr⟩ :=
          startSearch.searchIteration_result D R limits fuel rootDepth d r calls hs
        rw [hs] at h
        simp only at h
        by_cases hstop : r.stopPending = true
        · rw [if_pos hstop] at h
          cases Option.some.inj h
          exact hd
        · rw [if_neg hstop] at h
          have hrec : ∃ c a b dp, (R.negaMax c a b dp).stopPending = false ∧
              r.pv0 = (R.negaMax c a b dp).pv0 :=
            ⟨c, a, b, dp, by rw [← hr]; simpa using hstop, by rw [hr]⟩
          split_ifs at h
          all_goals first
            | exact ih _ _ _ (Or.inr hrec) h
            | (cases Option.some.inj h; exact Or.inr hrec)

/-- Whenever the driver reaches `bestMoveDecided`, the move written to `lastBestMove` is either
the initial content of the local `bestMove` or the `pv[0]` of a root search that returned
without a pending stop: a cancelled root search never supplies it. -/
theorem startSearch.lastBestMove_source (D : Decls) (R : RootSearch) (limits : SearchLimits)
    (fuel : Nat) (bestMove0 : Move) (iterDeepening0 : Nat → SearchLoopInfo) (m : Move)
    (h : startSearch D R limits fuel bestMove0 iterDeepening0 = some m) :
    m = bestMove0 ∨
      ∃ c a b dp, (R.negaMax c a b dp).stopPending = false ∧ m = (R.negaMax c a b dp).pv0 := by
  unfold startSearch at h
  simp only [Option.map_eq_some'] at h
  obtain ⟨d2, h1, h2⟩ := h
  rw [← h2]
  exact startSearch.iterate_bestMove D R _ fuel bestMove0 _ _ _ d2 (Or.inl rfl) h1

/-- Claim C7 fails on the code when the stop arrives in the first iteration: the loop is left at
`rootDepth = 1` before any assignment to the local `bestMove`, which the source declares without
a value, so `lastBestMove` receives whatever that local held and not a move recorded by a
completed iteration. -/
theorem startSearch_stop_in_first_iteration (D : Decls) (R : RootSearch)
    (limits : SearchLimits) (fuel : Nat) (bestMove0 : Move)
    (iterDeepening0 : Nat → SearchLoopInfo)
    (hdepth : 1 ≤ (if limits.depth = 0 then (D.MAX_PLY : Int) else limits.depth))
    (hstop : (R.negaMax 0 (-D.VALUE_INFINITE) D.VALUE_INFINITE 1).stopPending = true) :
    startSearch D R limits fuel bestMove0 iterDeepening0 = some bestMove0 := by
  unfold startSearch
  generalize (if limits.depth = 0 then (D.MAX_PLY : Int) else limits.depth) = depth at hdepth
  obtain ⟨n, hn⟩ : ∃ n, depth.toNat = n + 1 := ⟨depth.toNat - 1, by omega⟩
  simp [hn, startSearch.iterate, startSearch.searchIteration, hstop]

/-- Witness of the C7 failure: with a stop pending after the first root search, which had
recorded move 7, the driver reports the unassigned local (here 12345). -/
theorem startSearch_stop_in_first_iteration_witness :
    startSearch sampleDecls stoppedSearch sampleLimits 10 12345 sampleIterDeepening =
      some 12345 :=
  startSearch_stop_in_first_iteration sampleDecls stoppedSearch sampleLimits 10 12345
    sampleIterDeepening (by decide) rfl

/-! ### The transposition table -/

/-- Claim C8 as stated fails for `resize(0)`: the table has no entry, the modulus of `probe` is
zero and no slot is returned. The entry count is zero again when the byte count wraps to zero,
as for 2^44 MiB. -/
theorem probe_resize_zero_counterexample :
    (TT.resize 16 0).entryCount = 0 ∧ (TT.resize 16 (2 ^ 44)).entryCount = 0 ∧
      ¬ ∃ slot, TT.probe (TT.resize 16 0) 5 = some slot := by
  refine ⟨by decide, by decide, ?_⟩
  rintro ⟨slot, h⟩
  have hn : TT.probe (TT.resize 16 0) 5 = none := by decide
  rw [hn] at h
  exact Option.noConfusion h

/-- Claim C8, amended: for 1 <= MiB < 2^44 and 0 < sizeof(Entry) <= 2^20, every table whose
entryCount is the one set by `resize(MiB)` has entryCount = MiB * 2^20 / sizeof(Entry) > 0, and
for every key `probe(key)` returns the slot at index key mod entryCount, which is below
entryCount, with hit equal to `matches(key)` of that slot; any two tables with that entryCount
(whatever was stored in between) give the same slot index for the same key. -/
theorem probe_valid_after_resize (sizeofEntry megaBytes : Nat) (t : TT.Table) (key : Key)
    (hs : 0 < sizeofEntry) (hs2 : sizeofEntry ≤ 2 ^ 20)
    (hm : 1 ≤ megaBytes) (hm2 : megaBytes < 2 ^ 44)
    (ht : t.entryCount = (TT.resize sizeofEntry megaBytes).entryCount) :
    t.entryCount = megaBytes * 2 ^ 20 / sizeofEntry ∧ 0 < t.entryCount ∧
      key % t.entryCount < t.entryCount ∧
      TT.probe t key =
        some (key % t.entryCount, (t.entries (key % t.entryCount)).matches key) ∧
      ∀ t2 : TT.Table, t2.entryCount = t.entryCount →
        (TT.probe t2 key).map Prod.fst = (TT.probe t key).map Prod.fst := by
  have hbytes : (megaBytes * 1024 * 1024) % 2 ^ 64 = megaBytes * 2 ^ 20 := by
    have e : megaBytes * 1024 * 1024 = megaBytes * 2 ^ 20 := by ring
    rw [e]
    apply Nat.mod_eq_of_lt
    calc megaBytes * 2 ^ 20 < 2 ^ 44 * 2 ^ 20 := by
          exact Nat.mul_lt_mul_of_pos_right hm2 (by decide)
      _ = 2 ^ 64 := by norm_num
  have hcount : t.entryCount = megaBytes * 2 ^ 20 / sizeofEntry := by
    rw [ht]
    simp only [TT.resize, hbytes]
  have hpos : 0 < t.entryCount := by
    rw [hcount]
    apply Nat.div_pos _ hs
    calc sizeofEntry ≤ 2 ^ 20 := hs2
      _ = 1 * 2 ^ 20 := by norm_num
      _ ≤ megaBytes * 2 ^ 20 := Nat.mul_le_mul_right _ hm
  have hne : t.entryCount ≠ 0 := by omega
  refine ⟨hcount, hpos, Nat.mod_lt _ hpos, ?_, ?_⟩
  · simp [TT.probe, hne]
  · intro t2 h2
    have hne2 : t2.entryCount ≠ 0 := by omega
    simp [TT.probe, hne, hne2, h2]

/-- Witness of the amended C8: a table of 1 MiB with 16-byte entries has 65536 entries and key
70000 probes slot 4464. -/
theorem probe_valid_after_resize_witness :
    (0 < 16) ∧ (16 ≤ 2 ^ 20) ∧ (1 ≤ 1) ∧ (1 < 2 ^ 44) ∧
      (TT.resize 16 1).entryCount = 1 * 2 ^ 20 / 16 ∧
      70000 % (TT.resize 16 1).entryCount < (TT.resize 16 1).entryCount :=
  ⟨by decide, by decide, by decide, by decide,
    (probe_valid_after_resize 16 1 (TT.resize 16 1) 70000 (by decide) (by decide) (by decide)
      (by decide) rfl).1,
    (probe_valid_after_resize 16 1 (TT.resize 16 1) 70000 (by decide) (by decide) (by decide)
      (by decide) rfl).2.2.1⟩

/-! ### Transposition table cutoff and evaluation refinement -/

/-- On a hit at a NonPV node, an entry whose stored depth is at least the depth after the check
extension and whose flag passes the test against `beta` makes the statements after the probe
end in the transposition table cutoff. -/
theorem negaMax.afterProbe_cutoff (D : Decls) (g : Globals) (ttEntry : TT.Entry)
    (alpha beta : Value) (depth : Int)
    (hdepth : ttEntry.depth ≥ (if g.position.checkers ≠ 0 then max 1 (depth + 1) else depth))
    (hflag : ttEntry.flag.bits &&& (flagForTT (decide (ttEntry.value ≥ beta))).bits ≠ 0) :
    negaMax.afterProbe D NodeType.NonPV g ttEntry true alpha beta depth =
      negaMax.AfterProbe.ttCutoff ttEntry.value := by
  unfold negaMax.afterProbe
  simp only [if_true]
  rw [if_pos]
  exact ⟨by decide, hdepth, hflag⟩

/-- Truncated division by 5 keeps a value inside `[-12000, 12000]`. -/
theorem tdiv_5_bounds (x : Int) (h1 : -12000 ≤ x) (h2 : x ≤ 12000) :
    -12000 ≤ x.tdiv 5 ∧ x.tdiv 5 ≤ 12000 := by
  rcases le_or_lt 0 x with hx | hx
  · rw [Int.tdiv_eq_ediv hx (by decide)]
    omega
  · have e : x = -(-x) := by omega
    rw [e, Int.neg_tdiv, Int.tdiv_eq_ediv (by omega) (by decide)]
    omega

/-- The helper `myClamp` returns a value of `[lo, hi]` when `lo <= hi`. -/
theorem myClamp_bounds (v lo hi : Int) (h : lo ≤ hi) :
    lo ≤ myClamp v lo hi ∧ myClamp v lo hi ≤ hi := by
  unfold myClamp
  split_ifs <;> omega

/-- The history update of `negaMax` keeps every entry of `mainHistory` in [-12000, 12000], for
every depth, best move and score: the written entry is clamped. -/
theorem negaMax.updateHistories_bounded (D : Decls) (g : Globals) (ss : Nat) (bestMove : Move)
    (bestValue beta : Value) (depth : Int)
    (hb : ∀ c i, -12000 ≤ g.mainHistory c i ∧ g.mainHistory c i ≤ 12000) :
    ∀ c i,
      -12000 ≤ (negaMax.updateHistories D ss bestMove bestValue beta depth g).mainHistory c i ∧
      (negaMax.updateHistories D ss bestMove bestValue beta depth g).mainHistory c i
        ≤ 12000 := by
  intro c i
  unfold negaMax.updateHistories
  by_cases hq : bestMove ≠ MOVE_NONE ∧ D.isQuiet g.position bestMove = true
  · rw [if_pos hq]
    have key : ∀ v : Int, -12000 ≤ Function.update g.mainHistory g.position.sideToMove
          (Function.update (g.mainHistory g.position.sideToMove) (fromTo D bestMove)
            (myClamp v (-12000) 12000)) c i ∧
        Function.update g.mainHistory g.position.sideToMove
          (Function.update (g.mainHistory g.position.sideToMove) (fromTo D bestMove)
            (myClamp v (-12000) 12000)) c i ≤ 12000 := by
      intro v
      by_cases hc : c = g.position.sideToMove
      · subst hc
        rw [Function.update_same]
        by_cases hi : i = fromTo D bestMove
        · subst hi
          rw [Function.update_same]
          exact myClamp_bounds v _ _ (by decide)
        · rw [Function.update_noteq hi]
          exact hb _ _
      · rw [Function.update_noteq hc]
        exact hb _ _
    simp only
    split_ifs <;> exact key _
  · rw [if_neg hq]
    exact hb c i

/-- For 1 <= d <= 32764 no `int` of `stat_bonus(d)` overflows and the result is
min(2*d*d + 16*d, 1000). -/
theorem stat_bonus_eq (d : Int) (h1 : 1 ≤ d) (h2 : d ≤ 32764) :
    stat_bonus d = min (2 * d * d + 16 * d) 1000 := by
  unfold stat_bonus
  have hsq : d * d ≤ 32764 * 32764 := by nlinarith
  have hsq0 : 0 ≤ d * d := by nlinarith
  have e1 : wrapInt (2 * d) = 2 * d := by unfold wrapInt; omega
  have e2 : wrapInt (2 * d * d) = 2 * d * d := by
    unfold wrapInt
    have : 2 * d * d = 2 * (d * d) := by ring
    rw [this]
    generalize d * d = q at hsq hsq0
    omega
  have e3 : wrapInt (16 * d) = 16 * d := by unfold wrapInt; omega
  have e4 : wrapInt (2 * d * d + 16 * d) = 2 * d * d + 16 * d := by
    unfold wrapInt
    have : 2 * d * d = 2 * (d * d) := by ring
    rw [this]
    generalize d * d = q at hsq hsq0
    omega
  rw [e1, e2, e3, e4]

/-! ### The aspiration loop -/

/-- Truncated division by 2, by the sign of the dividend. -/
theorem tdiv_two_eq (x : Int) : x.tdiv 2 = if 0 ≤ x then x / 2 else -((-x) / 2) := by
  split_ifs with hx
  · exact Int.tdiv_eq_ediv hx (by decide)
  · have e : x = -(-x) := by omega
    rw [e, Int.neg_tdiv, Int.tdiv_eq_ediv (by omega) (by decide)]
    simp

/-- Truncated division by 3 of a non-negative number. -/
theorem tdiv_three_eq (x : Int) (hx : 0 ≤ x) : x.tdiv 3 = x / 3 :=
  Int.tdiv_eq_ediv hx (by decide)

/-- Every widening step keeps a window of the value range inside the value range, whatever the
score, as long as the window size has not overflowed. -/
theorem startSearch.nextWindow_inRange (D : Decls) (limits : SearchLimits)
    (w w2 : startSearch.Window) (r : RootResult)
    (hpos : 0 < D.VALUE_INFINITE) (hmax : D.VALUE_INFINITE ≤ 16777216)
    (hsize : 10 ≤ w.windowSize ∧ w.windowSize ≤ 1073741824)
    (hw : w.InRange D) (h : startSearch.nextWindow D limits w r = some w2) :
    w2.InRange D := by
  obtain ⟨h1, h2, h3⟩ := hw
  unfold startSearch.Window.InRange
  unfold startSearch.nextWindow at h
  simp only at h
  split_ifs at h
  all_goals
    have e := Option.some.inj h
    subst e
    simp only [wrapInt, tdiv_two_eq]
    unfold Value at *
    omega

/-- A value of the `int` range is not changed by the reduction to 32 bits. -/
theorem wrapInt_eq (x : Int) (h1 : -2147483648 ≤ x) (h2 : x ≤ 2147483647) : wrapInt x = x := by
  unfold wrapInt
  omega

/-- The window that opens the aspiration loop after a score strictly inside the value range
satisfies the termination invariant. -/
theorem startSearch.firstWindow_bounded (D : Decls) (score : Value)
    (hmin : 10 ≤ D.VALUE_INFINITE) (hmax : D.VALUE_INFINITE ≤ 16777216)
    (h1 : -D.VALUE_INFINITE < score) (h2 : score < D.VALUE_INFINITE) :
    (startSearch.firstWindow score).Bounded D := by
  unfold startSearch.Window.Bounded startSearch.firstWindow
  simp only [wrapInt]
  unfold Value at *
  omega

/-- A pass that does not leave the loop keeps the termination invariant and enlarges the window
size by at least 3, provided the score lies strictly inside the value range. -/
theorem startSearch.nextWindow_bounded (D : Decls) (limits : SearchLimits)
    (w w2 : startSearch.Window) (r : RootResult)
    (hmin : 10 ≤ D.VALUE_INFINITE) (hmax : D.VALUE_INFINITE ≤ 16777216)
    (h1 : -D.VALUE_INFINITE < r.score) (h2 : r.score < D.VALUE_INFINITE)
    (hw : w.Bounded D) (h : startSearch.nextWindow D limits w r = some w2) :
    w2.Bounded D ∧ w.windowSize + 3 ≤ w2.windowSize := by
  unfold startSearch.Window.Bounded at hw ⊢
  obtain ⟨b1, b2, b3, b4, b5, b6, b7, b8, b9⟩ := hw
  have hdiv := tdiv_three_eq w.windowSize (by omega)
  unfold startSearch.nextWindow at h
  simp only at h
  split_ifs at h
  all_goals
    have e := Option.some.inj h
    subst e
    unfold Value at *
    simp (disch := omega) only [wrapInt_eq, tdiv_two_eq, hdiv]
    omega

/-- The aspiration loop is left after at most `n` root searches when the invariant holds and the
window size is within `3 * n` of its bound. -/
theorem startSearch.aspiration_leaves (D : Decls) (R : RootSearch) (limits : SearchLimits)
    (rootDepth : Int) (hmin : 10 ≤ D.VALUE_INFINITE) (hmax : D.VALUE_INFINITE ≤ 16777216)
    (hscore : ∀ c a b dp, -D.VALUE_INFINITE < (R.negaMax c a b dp).score ∧
      (R.negaMax c a b dp).score < D.VALUE_INFINITE) :
    ∀ (n fuel : Nat) (w : startSearch.Window) (calls : Nat), w.Bounded D →
      8 * (D.VALUE_INFINITE + 10) - w.windowSize < 3 * (n : Int) → n ≤ fuel →
      ∃ r calls2, startSearch.aspiration D R limits rootDepth fuel w calls = some (r, calls2) ∧
        calls2 ≤ calls + n := by
  intro n
  induction n with
  | zero =>
    intro fuel w calls hw hm _
    have := hw.2.2.2.2.2.2.2.2
    unfold Value at *
    omega
  | succ n ih =>
    intro fuel w calls hw hm hfuel
    obtain ⟨fuel2, rfl⟩ : ∃ f, fuel = f + 1 := ⟨fuel - 1, by omega⟩
    simp only [startSearch.aspiration]
    cases hnext : startSearch.nextWindow D limits w
        (R.negaMax calls w.alpha w.beta (max 1 (wrapInt (rootDepth - w.failedHighCnt)))) with
    | none => exact ⟨_, _, rfl, by omega⟩
    | some w2 =>
      obtain ⟨hs1, hs2⟩ := hscore calls w.alpha w.beta
        (max 1 (wrapInt (rootDepth - w.failedHighCnt)))
      obtain ⟨hb, hgrow⟩ := startSearch.nextWindow_bounded D limits w w2 _ hmin hmax hs1 hs2 hw
        hnext
      obtain ⟨r, calls2, hr, hc⟩ := ih fuel2 w2 (calls + 1) hb
        (by push_cast at hm ⊢; unfold Value at *; omega) (by omega)
      exact ⟨r, calls2, hr, by omega⟩

/-- Claim C13 fails on the code for a mated score: after a previous iteration with score -31998
(mated in two plies, |score| <= VALUE_MATE = 32000) the aspiration loop opens with
alpha = -32008, below -VALUE_INFINITE = -32001, and hands that window to the root search (which
here answers alpha + 5 = -32003). The first window is the only unclamped one: the two widening
steps clamp to the value range. -/
theorem startSearch_first_window_below_range :
    |(-31998 : Int)| ≤ sampleDecls.VALUE_MATE ∧
      (startSearch.firstWindow (-31998)).alpha = -32008 ∧
      (startSearch.firstWindow (-31998)).alpha < -sampleDecls.VALUE_INFINITE ∧
      ¬ (startSearch.firstWindow (-31998)).InRange sampleDecls ∧
      (startSearch.searchIteration sampleDecls echoSearch sampleLimits 1 4 matedDriver).map
        (fun x => x.1.score) = some (-32003) := by
  refine ⟨by decide, by decide, by decide, ?_, by decide⟩
  unfold startSearch.Window.InRange
  decide

/-- Claim C20: with 10 <= VALUE_INFINITE <= 2^24, a previous-iteration score and root-search
scores that all lie strictly between -VALUE_INFINITE and VALUE_INFINITE, the aspiration loop is
left after at most 3 * VALUE_INFINITE + 30 root searches, whatever the scores (mate scores
included), the stop flag and the node limit; no `int` of the loop overflows on the way. -/
theorem aspiration_terminates (D : Decls) (R : RootSearch) (limits : SearchLimits)
    (rootDepth : Int) (score : Value) (calls fuel : Nat)
    (hmin : 10 ≤ D.VALUE_INFINITE) (hmax : D.VALUE_INFINITE ≤ 16777216)
    (h1 : -D.VALUE_INFINITE < score) (h2 : score < D.VALUE_INFINITE)
    (hscore : ∀ c a b dp, -D.VALUE_INFINITE < (R.negaMax c a b dp).score ∧
      (R.negaMax c a b dp).score < D.VALUE_INFINITE)
    (hfuel : (3 * D.VALUE_INFINITE + 30).toNat ≤ fuel) :
    ∃ r calls2,
      startSearch.aspiration D R limits rootDepth fuel (startSearch.firstWindow score) calls =
        some (r, calls2) ∧
      calls2 ≤ calls + (3 * D.VALUE_INFINITE + 30).toNat := by
  apply startSearch.aspiration_leaves D R limits rootDepth hmin hmax hscore
    (3 * D.VALUE_INFINITE + 30).toNat fuel _ calls
    (startSearch.firstWindow_bounded D score hmin hmax h1 h2) _ hfuel
  have e : ((3 * D.VALUE_INFINITE + 30).toNat : Int) = 3 * D.VALUE_INFINITE + 30 := by
    unfold Value at *
    omega
  rw [e]
  show 8 * (D.VALUE_INFINITE + 10) - (10 : Int) < 3 * (3 * D.VALUE_INFINITE + 30)
  unfold Value at *
  omega

/-- Witness of C20: after a previous score 0, a root search that keeps reporting the mate score
31900 lets the aspiration loop leave within the bound. -/
theorem aspiration_terminates_witness :
    ∃ r calls2,
      startSearch.aspiration sampleDecls mateSearch sampleLimits 5 100000
          (startSearch.firstWindow 0) 0 = some (r, calls2) ∧
        calls2 ≤ 0 + (3 * sampleDecls.VALUE_INFINITE + 30).toNat :=
  aspiration_terminates sampleDecls mateSearch sampleLimits 5 0 0 100000 (by decide) (by decide)
    (by decide) (by decide)
    (by
      intro c a b dp
      show (-32001 : Int) < 31900 ∧ (31900 : Int) < 32001
      decide)
    (by decide)

/-! ### Perft -/

/-- Reducing a summand to 32 bits before an `int` addition does not change the reduced sum. -/
theorem wrapInt_add_wrapInt (x y : Int) : wrapInt (x + wrapInt y) = wrapInt (x + y) := by
  unfold wrapInt
  omega

/-- The reduction to 32 bits is idempotent. -/
theorem wrapInt_wrapInt (x : Int) : wrapInt (wrapInt x) = wrapInt x := by
  unfold wrapInt
  omega

/-- The sum of `legalSequences` is its part over all generated moves. -/
theorem legalSequences_succ (D : Decls) (depth : Nat) (position : Position) :
    legalSequences D (depth + 1) position =
      legalSequences.part D depth position 0 (D.getPseudoLegalMoves position).size := by
  simp [legalSequences, legalSequences.part, List.range_eq_range']

/-- The part of the sum over `[i, i + k + 1)` splits off the move with index `i`. -/
theorem legalSequences.part_succ (D : Decls) (depth : Nat) (position : Position) (i k : Nat) :
    legalSequences.part D depth position i (k + 1) =
      (if D.isLegal position ((D.getPseudoLegalMoves position).moves i) = false then 0
        else legalSequences D depth
          (D.doMove position ((D.getPseudoLegalMoves position).moves i) []).1) +
      legalSequences.part D depth position (i + 1) k := by
  unfold legalSequences.part
  rw [List.range'_succ, List.filter_cons]
  cases h : D.isLegal position ((D.getPseudoLegalMoves position).moves i) <;> simp

/-- The counting loop of `perft(1)` adds the number of legal moves it visits. -/
theorem perft.count_spec (D : Decls) (position : Position) :
    ∀ (k i : Nat) (n : Int), wrapInt n = n →
      perft.count D position (D.getPseudoLegalMoves position) k i n =
        wrapInt (n + legalSequences.part D 0 position i k) := by
  intro k
  induction k with
  | zero =>
    intro i n hn
    simp [perft.count, legalSequences.part, hn]
  | succ k ih =>
    intro i n hn
    rw [legalSequences.part_succ]
    simp only [perft.count]
    cases h : D.isLegal position ((D.getPseudoLegalMoves position).moves i)
    · simp only [if_true]
      rw [ih (i + 1) n hn]
      simp
    · simp only [Bool.true_eq_false, if_false]
      rw [ih (i + 1) _ (wrapInt_wrapInt _)]
      simp only [legalSequences]
      push_cast
      unfold wrapInt
      omega

/-- The main loop of `perft` at a position `position` and ply `p` with a free stack slot, when
the recursive call counts `legalSequences D depth` (reduced to 32 bits) and gives back the
position, the ply and the lower part of `posStack`: the loop adds the counts of the legal moves
it visits and gives back the same. -/
theorem perft_loop_spec (D : Decls) (child : Globals → Option (Int × Globals)) (depth : Nat)
    (position : Position) (p : Nat) (hp : p + 1 < D.MAX_PLY)
    (hpure : ∀ pos m a b, (D.doMove pos m a).1 = (D.doMove pos m b).1)
    (hchild : ∀ g2 : Globals, g2.ply = p + 1 →
      ∃ g3, child g2 = some (wrapInt (legalSequences D depth g2.position), g3) ∧
        g3.position = g2.position ∧ g3.ply = g2.ply ∧
        ∀ j, j < g2.ply → g3.posStack j = g2.posStack j) :
    ∀ (k i : Nat) (n : Int) (g : Globals), g.position = position → g.ply = p →
      wrapInt n = n →
      ∃ g', perft.loop D child (D.getPseudoLegalMoves position) k i n g =
          some (wrapInt (n + legalSequences.part D depth position i k), g') ∧
        g'.position = position ∧ g'.ply = p ∧ ∀ j, j < p → g'.posStack j = g.posStack j := by
  intro k
  induction k with
  | zero =>
    intro i n g hpos hply hn
    exact ⟨g, by simp [perft.loop, legalSequences.part, hn], hpos, hply, fun _ _ => rfl⟩
  | succ k ih =>
    intro i n g hpos hply hn
    rw [legalSequences.part_succ]
    simp only [perft.loop, hpos]
    cases h : D.isLegal position ((D.getPseudoLegalMoves position).moves i)
    · simp only [if_true]
      obtain ⟨g', h1, h2, h3, h4⟩ := ih (i + 1) n g hpos hply hn
      exact ⟨g', by rw [h1]; simp, h2, h3, h4⟩
    · simp only [Bool.true_eq_false, if_false]
      have hpush : g.ply + 1 < D.MAX_PLY := by omega
      simp only [pushPosition, if_pos hpush]
      obtain ⟨g3, hc, hc1, hc2, hc3⟩ := hchild
        { g with
          posStack := Function.update g.posStack g.ply g.position
          accumulatorStack := Function.update
            (Function.update g.accumulatorStack (g.ply + 1) (g.accumulatorStack g.ply)) 0
            (D.doMove g.position ((D.getPseudoLegalMoves position).moves i)
              (Function.update g.accumulatorStack (g.ply + 1) (g.accumulatorStack g.ply) 0)).2
          ply := g.ply + 1
          position := (D.doMove g.position ((D.getPseudoLegalMoves position).moves i)
            (Function.update g.accumulatorStack (g.ply + 1) (g.accumulatorStack g.ply) 0)).1 }
        (by simp [hply])
      simp only at hc hc1 hc2 hc3
      rw [hc]
      simp only
      have hpop : 0 < g3.ply ∧ g3.ply - 1 < D.MAX_PLY := by rw [hc2]; omega
      simp only [popPosition, if_pos hpop]
      have hslot : g3.posStack (g3.ply - 1) = position := by
        rw [hc3 (g3.ply - 1) (by rw [hc2]; omega), hc2]
        simp [hpos]
      obtain ⟨g', h1, h2, h3, h4⟩ := ih (i + 1)
        (wrapInt (n + wrapInt (legalSequences D depth
          (D.doMove g.position ((D.getPseudoLegalMoves position).moves i)
            (Function.update g.accumulatorStack (g.ply + 1) (g.accumulatorStack g.ply) 0)).1)))
        { g3 with ply := g3.ply - 1, position := g3.posStack (g3.ply - 1) }
        hslot (by simp [hc2, hply]) (wrapInt_wrapInt _)
      refine ⟨g', ?_, h2, h3, ?_⟩
      · rw [h1]
        congr 2
        rw [hpure g.position _ _ [], hpos]
        push_cast
        unfold wrapInt
        omega
      · intro j hj
        rw [h4 j hj]
        simp only
        rw [hc3 j (by omega)]
        exact Function.update_noteq (by omega) _ _

/-- The function `perft` with enough fuel and stack room counts the sequences of legal moves,
reduced to 32 bits, and gives back the position, the ply and the lower part of `posStack`. -/
theorem perft.go_spec (D : Decls)
    (hpure : ∀ pos m a b, (D.doMove pos m a).1 = (D.doMove pos m b).1) :
    ∀ (d fuel : Nat) (g : Globals), d + 1 ≤ fuel → g.ply + (d + 1) ≤ D.MAX_PLY →
      ∃ g', perft.go D fuel ((d : Int) + 1) g =
          some (wrapInt (legalSequences D (d + 1) g.position), g') ∧
        g'.position = g.position ∧ g'.ply = g.ply ∧
        ∀ j, j < g.ply → g'.posStack j = g.posStack j := by
  intro d
  induction d with
  | zero =>
    intro fuel g hfuel _
    obtain ⟨fuel2, rfl⟩ : ∃ f, fuel = f + 1 := ⟨fuel - 1, by omega⟩
    refine ⟨g, ?_, rfl, rfl, fun _ _ => rfl⟩
    simp only [perft.go, Nat.cast_zero, zero_add, if_true]
    rw [perft.count_spec D g.position _ _ 0 (by decide), legalSequences_succ]
    simp
  | succ d ih =>
    intro fuel g hfuel hroom
    obtain ⟨fuel2, rfl⟩ : ∃ f, fuel = f + 1 := ⟨fuel - 1, by omega⟩
    have hne : ¬ (((d + 1 : Nat) : Int) + 1 = 1) := by omega
    have hsub : ((d + 1 : Nat) : Int) + 1 - 1 = (d : Int) + 1 := by push_cast; ring
    simp only [perft.go, if_neg hne, hsub]
    obtain ⟨g', h1, h2, h3, h4⟩ := perft_loop_spec D (perft.go D fuel2 ((d : Int) + 1)) (d + 1)
      g.position g.ply (by omega) hpure
      (fun g2 hg2 => ih fuel2 g2 (by omega) (by omega))
      (D.getPseudoLegalMoves g.position).size 0 0 g rfl rfl (by decide)
    refine ⟨g', ?_, h2, h3, h4⟩
    rw [h1, legalSequences_succ]
    simp

/-- In the uniform game every position starts 16 ^ depth sequences of legal moves. -/
theorem legalSequences_uniform :
    ∀ (depth : Nat) (position : Position),
      legalSequences uniformDecls depth position = 16 ^ depth := by
  intro depth
  induction depth with
  | zero => intro position; rfl
  | succ depth ih =>
    intro position
    simp only [legalSequences, ih]
    simp [uniformDecls]
    ring

/-- Claim C17 as stated fails when the count leaves the range of `int`: in the uniform game with
16 legal moves in every position there are 16^8 = 4294967296 sequences of 8 legal moves, more
than `INT_MAX`, and `perft(8)` returns 0. -/
theorem perft_overflow_counterexample :
    legalSequences uniformDecls 8 sampleGlobals.position = 4294967296 ∧
      (perft uniformDecls 8 sampleGlobals).map Prod.fst = some 0 := by
  refine ⟨legalSequences_uniform 8 _, ?_⟩
  obtain ⟨g', h, -⟩ := perft.go_spec uniformDecls (fun _ _ _ _ => rfl) 7
    (uniformDecls.MAX_PLY + 1) sampleGlobals (by decide) (by decide)
  have e : perft uniformDecls 8 sampleGlobals =
      perft.go uniformDecls (uniformDecls.MAX_PLY + 1) ((7 : Nat) + 1 : Int) sampleGlobals := rfl
  rw [e, h, legalSequences_uniform]
  rfl

/-- Claim C17, amended: when the position result of `doMove` does not depend on the accumulator
it is handed, for every depth >= 1 with ply + depth <= MAX_PLY (a free `posStack` slot for every
nested call) `perft(depth)` returns, with the position and the ply as before the call; the
returned `int` is the number of sequences of `depth` consecutive legal moves reduced to 32 bits,
hence that number whenever it is at most `INT_MAX`. -/
theorem perft_counts_sequences (D : Decls) (depth : Nat) (g : Globals)
    (hpure : ∀ pos m a b, (D.doMove pos m a).1 = (D.doMove pos m b).1)
    (hdepth : 1 ≤ depth) (hroom : g.ply + depth ≤ D.MAX_PLY) :
    ∃ n g', perft D (depth : Int) g = some (n, g') ∧
      g'.position = g.position ∧ g'.ply = g.ply ∧
      n = wrapInt (legalSequences D depth g.position) ∧
      ((legalSequences D depth g.position : Int) ≤ INT_MAX →
        n = legalSequences D depth g.position) := by
  obtain ⟨d, rfl⟩ : ∃ d, depth = d + 1 := ⟨depth - 1, by omega⟩
  obtain ⟨g', h1, h2, h3, -⟩ := perft.go_spec D hpure d (D.MAX_PLY + 1) g (by omega) hroom
  refine ⟨_, g', ?_, h2, h3, rfl, ?_⟩
  · unfold perft
    rw [← h1]
    push_cast
    rfl
  · intro hle
    unfold INT_MAX at hle
    unfold wrapInt
    omega

/-- Witness of the amended C17: in the uniform game `perft(2)` from the sample state returns
256 and restores ply 2. -/
theorem perft_counts_sequences_witness :
    ∃ n g', perft uniformDecls ((2 : Nat) : Int) sampleGlobals = some (n, g') ∧
      g'.position = sampleGlobals.position ∧ g'.ply = sampleGlobals.ply ∧
      n = wrapInt (legalSequences uniformDecls 2 sampleGlobals.position) ∧
      ((legalSequences uniformDecls 2 sampleGlobals.position : Int) ≤ INT_MAX →
        n = legalSequences uniformDecls 2 sampleGlobals.position) :=
  perft_counts_sequences uniformDecls 2 sampleGlobals (fun _ _ _ _ => rfl) (by decide)
    (by decide)

/-! ### Early returns of the search -/

/-- The draw value is -1, 0 or 1. -/
theorem makeDrawValue_range (g : Globals) :
    makeDrawValue g = -1 ∨ makeDrawValue g = 0 ∨ makeDrawValue g = 1 := by
  show ((g.nodesSearched % 3 : Nat) : Int) - 1 = (-1 : Int) ∨
    ((g.nodesSearched % 3 : Nat) : Int) - 1 = (0 : Int) ∨
    ((g.nodesSearched % 3 : Nat) : Int) - 1 = (1 : Int)
  omega

/-- Claim C16: if searchState is STOP_PENDING when `negaMax` is entered, then for every node
type, window and depth it returns (nodesSearched mod 3) - 1 at once; the globals are unchanged at
a NonPV node, and at a PV or root node only ss->pvLength (set to ply) and selDepth (raised to
ply) are written: position, ply, nodesSearched, the transposition table, mainHistory, the
killers and rootMoves are as before. -/
theorem negaMax_stop_pending (D : Decls) (T : Clock) (fuel : Nat) (nodeType : NodeType)
    (alpha beta : Value) (depth : Int) (cutNode : Bool) (ss : Nat) (g : Globals)
    (h : g.searchState = RunState.STOP_PENDING) :
    negaMax D T (fuel + 1) nodeType alpha beta depth cutNode ss g =
      some (((g.nodesSearched % 3 : Nat) : Int) - 1,
        if nodeType ≠ NodeType.NonPV then
          { g with
            searchStack := Function.update g.searchStack ss
              { g.searchStack ss with pvLength := (g.ply : Int) }
            selDepth := if (g.ply : Int) > g.selDepth then (g.ply : Int) else g.selDepth }
        else g) := by
  simp only [negaMax, negaMax.body, negaMax.enter]
  by_cases hn : nodeType ≠ NodeType.NonPV
  · simp [hn, h, makeDrawValue, Leave.finish]
  · simp [hn, h, makeDrawValue, Leave.finish]

/-- Witness of C16: a PV call on the sample state with a stop pending returns 41 mod 3 - 1 = 1. -/
theorem negaMax_stop_pending_witness :
    (negaMax sampleDecls sampleClock 1 NodeType.PV (-50) 50 3 false 4 stoppedGlobals).map
      Prod.fst = some 1 := by
  rw [negaMax_stop_pending sampleDecls sampleClock 0 NodeType.PV (-50) 50 3 false 4
    stoppedGlobals rfl]
  decide

/-- Claim C14: on a position with halfMoveClock >= 100 every `qsearch` call returns
(nodesSearched mod 3) - 1 with all globals unchanged, and every non-root `negaMax` call returns
the same value with position, ply, nodesSearched, both stacks of positions and accumulators,
mainHistory, rootMoves and the transposition table unchanged (no move is played, no entry is
written), whatever the window, the depth and the rest of the position; the value is -1, 0
or 1. -/
theorem fifty_move_draw (D : Decls) (T : Clock) (fuel : Nat) (nodeType : NodeType)
    (alpha beta : Value) (depth : Int) (cutNode : Bool) (ss : Nat) (g : Globals)
    (h : g.position.halfMoveClock ≥ 100) :
    qsearch D T (fuel + 1) nodeType alpha beta ss g =
        some (((g.nodesSearched % 3 : Nat) : Int) - 1, g) ∧
      (nodeType ≠ NodeType.Root →
        ∃ g', negaMax D T (fuel + 1) nodeType alpha beta depth cutNode ss g =
            some (((g.nodesSearched % 3 : Nat) : Int) - 1, g') ∧
          g'.position = g.position ∧ g'.ply = g.ply ∧ g'.nodesSearched = g.nodesSearched ∧
          g'.tt = g.tt ∧ g'.posStack = g.posStack ∧
          g'.accumulatorStack = g.accumulatorStack ∧ g'.mainHistory = g.mainHistory ∧
          g'.rootMoves = g.rootMoves) ∧
      (((g.nodesSearched % 3 : Nat) : Int) - 1 = -1 ∨
        ((g.nodesSearched % 3 : Nat) : Int) - 1 = 0 ∨
        ((g.nodesSearched % 3 : Nat) : Int) - 1 = 1) := by
  refine ⟨?_, ?_, by omega⟩
  · simp [qsearch, qsearch.body, h, makeDrawValue, Leave.finish]
  · intro hroot
    simp only [negaMax, negaMax.body, negaMax.enter]
    by_cases hn : nodeType ≠ NodeType.NonPV <;>
      by_cases hs : g.searchState = RunState.STOP_PENDING <;>
      simp [hn, hs, hroot, h, makeDrawValue, Leave.finish]

/-- Witness of C14: in check with the half-move clock at 100, a NonPV `qsearch` call on the
sample state returns 41 mod 3 - 1 = 1. -/
theorem fifty_move_draw_witness :
    (fiftyGlobals.position.halfMoveClock ≥ 100) ∧
      (qsearch sampleDecls sampleClock 1 NodeType.NonPV 10 11 4 fiftyGlobals).map Prod.fst =
        some 1 :=
  ⟨by decide, by
    rw [(fifty_move_draw sampleDecls sampleClock 0 NodeType.NonPV 10 11 0 false 4 fiftyGlobals
      (by decide)).1]
    decide⟩

/-! ### Nodes without a legal move -/

/-- A property of all the moves of a list holds for the move returned by `nextBestMove` and for
all the moves of the list after the call. -/
theorem nextBestMove_forall (P : Move → Prop) (ml : MoveList) (i : Nat) (hi : i < ml.size)
    (h : ∀ k, k < ml.size → P (ml.moves k)) :
    P (nextBestMove ml i).1 ∧ (nextBestMove ml i).2.size = ml.size ∧
      ∀ k, k < ml.size → P ((nextBestMove ml i).2.moves k) := by
  obtain ⟨-, hlt, -, -⟩ := nextBestMove.index_spec ml i hi
  refine ⟨h _ hlt, rfl, ?_⟩
  intro k hk
  by_cases hki : k = nextBestMove.index ml i
  · subst hki
    simp only [nextBestMove, Function.update_same]
    exact h i hi
  · simp only [nextBestMove, Function.update_noteq hki]
    exact h k hk

/-- The function `scoreMoves` changes neither the moves nor the size of the list. -/
theorem scoreMoves_moves (D : Decls) (position : Position) (mainHistory : Nat → Nat → Int)
    (ml : MoveList) (ttMove : Move) (ss : SearchInfo) :
    (scoreMoves D position mainHistory ml ttMove ss).moves = ml.moves ∧
      (scoreMoves D position mainHistory ml ttMove ss).size = ml.size :=
  ⟨(scoreMoves.loop_spec D position mainHistory ttMove (ss.killers 0) (ss.killers 1) ml.size 0
      ml).1,
    (scoreMoves.loop_spec D position mainHistory ttMove (ss.killers 0) (ss.killers 1) ml.size 0
      ml).2.1⟩

/-- When no move of the list is legal the move loop of `qsearch` runs to its end without a
search: the globals and all locals but the list are as before. -/
theorem qsearch_loop_no_legal (D : Decls) (T : Clock) (self : QSearch) (nodeType : NodeType)
    (beta : Value) (generateAllMoves : Bool) (ss : Nat) (g : Globals) :
    ∀ (n i : Nat) (l : qsearch.Locals), i + n = l.moves.size →
      (∀ k, k < l.moves.size → D.isLegal g.position (l.moves.moves k) = false) →
      ∃ ml, qsearch.loop D T self nodeType beta generateAllMoves ss n i l g =
        some (.done { l with moves := ml } g) := by
  intro n
  induction n with
  | zero =>
    intro i l _ _
    exact ⟨l.moves, rfl⟩
  | succ n ih =>
    intro i l hsize hill
    obtain ⟨h1, h2, h3⟩ := nextBestMove_forall
      (fun m => D.isLegal g.position m = false) l.moves i (by omega) hill
    simp only [qsearch.loop, h1, if_true]
    obtain ⟨ml, hml⟩ := ih (i + 1) { l with moves := (nextBestMove l.moves i).2 }
      (by simp only [h2]; omega) (by simpa only [h2] using h3)
    exact ⟨ml, hml⟩

/-- When no move of the list is legal the move loop of `negaMax` runs to its end without a
search: the globals and all locals but the list are as before. -/
theorem negaMax_loop_no_legal (D : Decls) (T : Clock) (selfN : NegaMax) (nodeType : NodeType)
    (beta : Value) (depth : Int) (cutNode wasInCheck improving : Bool) (ss : Nat)
    (g : Globals) :
    ∀ (n i : Nat) (l : negaMax.Locals), i + n = l.moves.size →
      (∀ k, k < l.moves.size → D.isLegal g.position (l.moves.moves k) = false) →
      ∃ ml, negaMax.loop D T selfN nodeType beta depth cutNode wasInCheck improving ss n i l g =
        some ({ l with moves := ml }, g) := by
  intro n
  induction n with
  | zero =>
    intro i l _ _
    exact ⟨l.moves, rfl⟩
  | succ n ih =>
    intro i l hsize hill
    obtain ⟨h1, h2, h3⟩ := nextBestMove_forall
      (fun m => D.isLegal g.position m = false) l.moves i (by omega) hill
    simp only [negaMax.loop, h1, if_true]
    obtain ⟨ml, hml⟩ := ih (i + 1) { l with moves := (nextBestMove l.moves i).2 }
      (by simp only [h2]; omega) (by simpa only [h2] using h3)
    exact ⟨ml, hml⟩

/-- The statements of `negaMax` from `moves_loop` on, at a node without a legal move: the
function returns `ply - VALUE_MATE` in check and `VALUE_DRAW` otherwise, without a store. The
list searched is `rootMoves` at the root and the scored pseudo-legal moves elsewhere. -/
theorem negaMax.searchMoves_no_legal (D : Decls) (T : Clock) (selfN : NegaMax)
    (nodeType : NodeType) (cutNode : Bool) (ss : Nat) (node : negaMax.Node) (g : Globals)
    (hill : ∀ k,
      k < (if nodeType = NodeType.Root then g.rootMoves
        else D.getPseudoLegalMoves g.position).size →
      D.isLegal g.position ((if nodeType = NodeType.Root then g.rootMoves
        else D.getPseudoLegalMoves g.position).moves k) = false) :
    ∃ g', negaMax.searchMoves D T selfN nodeType cutNode ss node g =
        some (.plain (if g.position.checkers ≠ 0 then (g.ply : Int) - D.VALUE_MATE
          else VALUE_DRAW), g') ∧
      g'.tt = g.tt ∧ g'.position = g.position ∧ g'.ply = g.ply ∧
      g'.nodesSearched = g.nodesSearched ∧ g'.mainHistory = g.mainHistory := by
  unfold negaMax.searchMoves
  by_cases hr : nodeType = NodeType.Root
  · simp only [hr, if_true] at hill ⊢
    obtain ⟨ml, hml⟩ := negaMax_loop_no_legal D T selfN NodeType.Root node.beta node.depth
      cutNode (decide (g.position.checkers ≠ 0)) node.improving ss
      { g with
        rootMoves := { g.rootMoves with
          scores := fun i =>
            if i < g.rootMoves.size then -D.VALUE_INFINITE else g.rootMoves.scores i } }
      g.rootMoves.size 0
      { moves := g.rootMoves, alpha := node.alpha, bestValue := -D.VALUE_INFINITE,
        bestMove := MOVE_NONE, foundLegalMove := false, playedMoves := 0 }
      (by simp) hill
    rw [hml]
    exact ⟨_, rfl, rfl, rfl, rfl, rfl, rfl⟩
  · simp only [hr, if_false] at hill ⊢
    obtain ⟨hm, hs⟩ := scoreMoves_moves D g.position g.mainHistory
      (D.getPseudoLegalMoves g.position) node.ttMove (g.searchStack ss)
    obtain ⟨ml, hml⟩ := negaMax_loop_no_legal D T selfN nodeType node.beta node.depth
      cutNode (decide (g.position.checkers ≠ 0)) node.improving ss g
      (scoreMoves D g.position g.mainHistory (D.getPseudoLegalMoves g.position) node.ttMove
        (g.searchStack ss)).size 0
      { moves := scoreMoves D g.position g.mainHistory (D.getPseudoLegalMoves g.position)
          node.ttMove (g.searchStack ss),
        alpha := node.alpha, bestValue := -D.VALUE_INFINITE,
        bestMove := MOVE_NONE, foundLegalMove := false, playedMoves := 0 }
      (by simp) (by simpa only [hm, hs] using hill)
    rw [hml]
    exact ⟨_, rfl, rfl, rfl, rfl, rfl, rfl⟩

/-- When the preamble of `negaMax` reaches the TT probe it has changed only the search stack
and `selDepth`; the window is the one it was given at the root and the one left by
mate-distance pruning elsewhere, and that window is not empty. -/
theorem negaMax.enter_proceed (D : Decls) (nodeType : NodeType) (alpha beta a b : Value)
    (ss : Nat) (g g1 : Globals)
    (h : negaMax.enter D nodeType alpha beta ss g = .proceed a b g1) :
    g1.position = g.position ∧ g1.ply = g.ply ∧ g1.tt = g.tt ∧ g1.rootMoves = g.rootMoves ∧
      g1.nodesSearched = g.nodesSearched ∧ g1.mainHistory = g.mainHistory ∧
      g1.posStack = g.posStack ∧ g1.accumulatorStack = g.accumulatorStack ∧
      (nodeType = NodeType.Root → a = alpha ∧ b = beta) ∧
      (nodeType ≠ NodeType.Root →
        a = max alpha ((g.ply : Int) - D.VALUE_MATE) ∧
        b = min beta (D.VALUE_MATE - (g.ply : Int) - 1) ∧ a < b) := by
  unfold negaMax.enter at h
  simp only at h
  split_ifs at h
  all_goals
    injection h with h1 h2 h3
    subst h1 h2 h3
    refine ⟨rfl, rfl, rfl, rfl, rfl, rfl, rfl, rfl, ?_, ?_⟩ <;> intro hroot <;> simp_all <;>
      (unfold Value at *; omega)

/-- In check the statements after the probe either take the TT cutoff or go on to the search
with a depth of at least 1: the quiescence drop is not taken. -/
theorem negaMax.afterProbe_in_check (D : Decls) (nodeType : NodeType) (g : Globals)
    (ttEntry : TT.Entry) (ttHit : Bool) (alpha beta : Value) (depth : Int)
    (hcheck : g.position.checkers ≠ 0)
    (hcut : ∀ v, negaMax.afterProbe D nodeType g ttEntry ttHit alpha beta depth ≠ .ttCutoff v) :
    ∃ d f v m, negaMax.afterProbe D nodeType g ttEntry ttHit alpha beta depth =
      .search d f v m := by
  unfold negaMax.afterProbe at hcut ⊢
  simp only [hcheck, ne_eq, not_false_eq_true, if_true] at hcut ⊢
  have hd : ¬ max 1 (depth + 1) ≤ 0 := by omega
  split_ifs at hcut ⊢
  all_goals first
    | exact absurd rfl (hcut _)
    | exact ⟨_, _, _, _, rfl⟩

/-- Claim C15: in check with no legal move, `negaMax` (past the stop test, the draw tests,
mate-distance pruning and the TT cutoff) and `qsearch` (past the fifty-move test and the TT
cutoff) return `ply - VALUE_MATE` and leave the transposition table as it was; not in check with
no legal move, a `negaMax` call that reaches `moves_loop` returns `VALUE_DRAW` and writes no
entry after that point. The list searched is `rootMoves` at the root and the pseudo-legal moves
elsewhere. -/
theorem no_legal_move_value (D : Decls) (T : Clock) (fuel : Nat) (nodeType : NodeType)
    (alpha beta : Value) (depth : Int) (cutNode : Bool) (ss : Nat) (g : Globals) :
    (∀ (a b : Value) (g1 : Globals) (slot : Nat) (ttHit : Bool),
      negaMax.enter D nodeType alpha beta ss g = .proceed a b g1 →
      TT.probe g.tt g.position.key = some (slot, ttHit) →
      (∀ v, negaMax.afterProbe D nodeType g1 (g.tt.entries slot) ttHit a b depth ≠
        .ttCutoff v) →
      g.position.checkers ≠ 0 →
      (∀ k,
        k < (if nodeType = NodeType.Root then g.rootMoves
          else D.getPseudoLegalMoves g.position).size →
        D.isLegal g.position ((if nodeType = NodeType.Root then g.rootMoves
          else D.getPseudoLegalMoves g.position).moves k) = false) →
      ∃ g2, negaMax D T (fuel + 1) nodeType alpha beta depth cutNode ss g =
          some ((g.ply : Int) - D.VALUE_MATE, g2) ∧ g2.tt = g.tt) ∧
    (∀ (slot : Nat) (ttHit : Bool),
      g.position.halfMoveClock < 100 →
      TT.probe g.tt g.position.key = some (slot, ttHit) →
      ¬ (nodeType = NodeType.NonPV ∧
        (if ttHit then (g.tt.entries slot).flag else TT.Flag.NO_FLAG).bits &&&
          (flagForTT (decide ((if ttHit then (g.tt.entries slot).value else D.VALUE_NONE) ≥
            beta))).bits ≠ 0) →
      g.position.checkers ≠ 0 →
      (∀ k, k < (D.getPseudoLegalMoves g.position).size →
        D.isLegal g.position ((D.getPseudoLegalMoves g.position).moves k) = false) →
      qsearch D T (fuel + 1) nodeType alpha beta ss g =
        some ((g.ply : Int) - D.VALUE_MATE, g)) ∧
    (∀ (a b : Value) (g1 g2 : Globals) (node : negaMax.Node),
      negaMax.enter D nodeType alpha beta ss g = .proceed a b g1 →
      negaMax.prune D T (negaMax D T fuel) (qsearch D T fuel) nodeType a b depth cutNode ss g1 =
        some (.moves node g2) →
      g2.position.checkers = 0 →
      (∀ k,
        k < (if nodeType = NodeType.Root then g2.rootMoves
          else D.getPseudoLegalMoves g2.position).size →
        D.isLegal g2.position ((if nodeType = NodeType.Root then g2.rootMoves
          else D.getPseudoLegalMoves g2.position).moves k) = false) →
      ∃ g3, negaMax D T (fuel + 1) nodeType alpha beta depth cutNode ss g =
          some (VALUE_DRAW, g3) ∧ g3.tt = g2.tt) := by
  refine ⟨?_, ?_, ?_⟩
  · intro a b g1 slot ttHit henter hprobe hcut hcheck hill
    obtain ⟨hpos, hply, htt, hrm, -⟩ := negaMax.enter_proceed D nodeType alpha beta a b ss g g1
      henter
    have hc1 : g1.position.checkers ≠ 0 := by rw [hpos]; exact hcheck
    obtain ⟨d, f, v, m, hs⟩ := negaMax.afterProbe_in_check D nodeType g1 (g.tt.entries slot)
      ttHit a b depth hc1 hcut
    have hprune : ∃ node g3,
        negaMax.prune D T (negaMax D T fuel) (qsearch D T fuel) nodeType a b depth cutNode ss
          g1 = some (.moves node g3) ∧
        g3.position = g.position ∧ g3.rootMoves = g.rootMoves ∧ g3.tt = g.tt ∧
        g3.ply = g.ply := by
      unfold negaMax.prune
      rw [htt, hpos, hprobe]
      simp only [hs, hcheck, ne_eq, not_false_eq_true, if_true]
      exact ⟨_, _, rfl, rfl, hrm, rfl, hply⟩
    obtain ⟨node, g3, hprune, hp3, hr3, ht3, hl3⟩ := hprune
    obtain ⟨g2, hsm, htt2, hpos2, hply2, -⟩ := negaMax.searchMoves_no_legal D T
      (negaMax D T fuel) nodeType cutNode ss node g3 (by rw [hp3, hr3]; exact hill)
    have hc3 : g3.position.checkers ≠ 0 := by rw [hp3]; exact hcheck
    refine ⟨g2, ?_, by rw [htt2, ht3]⟩
    simp only [hc3, ne_eq, not_false_eq_true, if_true, hl3] at hsm
    simp only [negaMax, negaMax.body, henter, hprune, hsm, Option.map, Leave.finish]
  · intro slot ttHit hclock hprobe hcut hcheck hill
    obtain ⟨hm, hs⟩ := scoreMoves_moves D g.position g.mainHistory
      (D.getPseudoLegalMoves g.position)
      (if ttHit then (g.tt.entries slot).move else MOVE_NONE) (g.searchStack ss)
    obtain ⟨ml, hml⟩ := qsearch_loop_no_legal D T (qsearch D T fuel) nodeType beta
      (decide (g.position.checkers ≠ 0)) ss g
      (scoreMoves D g.position g.mainHistory (D.getPseudoLegalMoves g.position)
        (if ttHit then (g.tt.entries slot).move else MOVE_NONE) (g.searchStack ss)).size 0
      { moves := scoreMoves D g.position g.mainHistory (D.getPseudoLegalMoves g.position)
          (if ttHit then (g.tt.entries slot).move else MOVE_NONE) (g.searchStack ss),
        alpha := alpha, bestValue := -D.VALUE_INFINITE, bestMove := MOVE_NONE,
        foundLegalMoves := false }
      (by simp) (by simpa only [hm, hs] using hill)
    have hclock2 : ¬ g.position.halfMoveClock ≥ 100 := by omega
    simp only [qsearch, qsearch.body, hclock2, if_false, hprobe, hcut]
    simp only [hcheck, ne_eq, not_false_eq_true, not_true_eq_false, false_and, true_and,
      if_true, if_false] at hml ⊢
    rw [hml]
    simp only [hcheck, not_false_eq_true, and_self, if_true, Option.map, Leave.finish]
  · intro a b g1 g2 node henter hprune hcheck hill
    obtain ⟨g3, hsm, htt3, -⟩ := negaMax.searchMoves_no_legal D T (negaMax D T fuel) nodeType
      cutNode ss node g2 hill
    refine ⟨g3, ?_, htt3⟩
    simp only [hcheck, ne_eq, not_true_eq_false, if_false] at hsm
    simp only [negaMax, negaMax.body, henter, hprune, hsm, Option.map, Leave.finish]

/-- Witness of C15: at ply 2 with `VALUE_MATE = 32000` and no move generated, a NonPV `negaMax`
call and a NonPV `qsearch` call on the state in check return -31998, and a PV `negaMax` call on
the state not in check returns 0. -/
theorem no_legal_move_value_witness :
    (∃ g2, negaMax sampleDecls sampleClock 1 NodeType.NonPV (-50) (-49) 3 false 4 matedGlobals =
        some (-31998, g2) ∧ g2.tt = matedGlobals.tt) ∧
      qsearch sampleDecls sampleClock 1 NodeType.NonPV (-50) (-49) 4 matedGlobals =
        some (-31998, matedGlobals) ∧
      (∃ g3, negaMax sampleDecls sampleClock 1 NodeType.PV (-50) 50 3 false 4 stalemateGlobals =
        some (0, g3)) :=
  ⟨(no_legal_move_value sampleDecls sampleClock 0 NodeType.NonPV (-50) (-49) 3 false 4
      matedGlobals).1 _ _ _ 78 false rfl rfl (fun v h => by cases h) (by decide)
      (fun k hk => absurd hk (Nat.not_lt_zero k)),
    (no_legal_move_value sampleDecls sampleClock 0 NodeType.NonPV (-50) (-49) 3 false 4
      matedGlobals).2.1 78 false (by decide) rfl (by decide) (by decide)
      (fun k hk => absurd hk (Nat.not_lt_zero k)),
    by
      have h := (no_legal_move_value sampleDecls sampleClock 0 NodeType.PV (-50) 50 3 false 4
        stalemateGlobals).2.2
      obtain ⟨g3, h3, -⟩ := h _ _ _ _ _ (by rfl) (by rfl) (by rfl)
        (fun k hk => absurd hk (Nat.not_lt_zero k))
      exact ⟨g3, h3⟩⟩

/-! ### Soundness of the stores -/

/-- What the tests at the end of the loop body of `negaMax` say about the searched value. -/
theorem negaMax_improve_spec (value bestValue alpha beta : Value) :
    (negaMax.improve value bestValue alpha beta = .nothing → value ≤ bestValue) ∧
    (negaMax.improve value bestValue alpha beta = .newBest →
      bestValue < value ∧ value ≤ alpha) ∧
    (negaMax.improve value bestValue alpha beta = .failHigh →
      bestValue < value ∧ alpha < value ∧ beta ≤ value) ∧
    (negaMax.improve value bestValue alpha beta = .raiseAlpha →
      bestValue < value ∧ alpha < value ∧ value < beta) := by
  unfold negaMax.improve
  unfold Value at *
  split_ifs <;> simp <;> omega

/-- What the tests at the end of the loop body of `qsearch` say about the searched value. -/
theorem qsearch_improve_spec (nodeType : NodeType) (value bestValue alpha beta : Value) :
    (qsearch.improve nodeType value bestValue alpha beta = .nothing → value ≤ bestValue) ∧
    (qsearch.improve nodeType value bestValue alpha beta = .newBest →
      bestValue < value ∧ value ≤ alpha) ∧
    (qsearch.improve nodeType value bestValue alpha beta = .failHigh →
      bestValue < value ∧ alpha < value ∧ (nodeType = NodeType.NonPV ∨ beta ≤ value)) ∧
    (qsearch.improve nodeType value bestValue alpha beta = .raiseAlpha →
      bestValue < value ∧ alpha < value ∧ value < beta ∧ nodeType ≠ NodeType.NonPV) := by
  unfold qsearch.improve
  unfold Value at *
  split_ifs with h1 h2 h3
  · simp only [reduceCtorEq, false_implies, true_and, and_true, true_implies]
    rcases h3 with h3 | h3
    · exact ⟨h1, h2, Or.inl h3⟩
    · exact ⟨h1, h2, Or.inr h3⟩
  · simp only [reduceCtorEq, false_implies, true_and, and_true, true_implies]
    rw [not_or] at h3
    exact ⟨h1, h2, by omega, h3.1⟩
  · simp only [reduceCtorEq, false_implies, true_and, and_true, true_implies]
    exact ⟨h1, by omega⟩
  · simp only [reduceCtorEq, false_implies, true_and, and_true, true_implies]
    omega

/-- Invariant of the move loop of `negaMax` for the window `(a, b)`: when the loop is left
either the invariant holds or the best value is at least `b`. -/
theorem negaMax_loop_window (D : Decls) (T : Clock) (selfN : NegaMax) (nodeType : NodeType)
    (a b : Value) (depth : Int) (cutNode wasInCheck improving : Bool) (ss : Nat)
    (hzero : nodeType = NodeType.NonPV → b = a + 1)
    (hnull : ∀ pos, D.isLegal pos MOVE_NONE = false) :
    ∀ (n i : Nat) (l : negaMax.Locals) (g : Globals) (l2 : negaMax.Locals) (g2 : Globals),
      (a ≤ l.alpha ∧ l.alpha < b ∧ l.bestValue ≤ l.alpha ∧
        (l.bestMove = MOVE_NONE → l.alpha = a) ∧
        (l.bestMove ≠ MOVE_NONE → a < l.bestValue ∧ nodeType ≠ NodeType.NonPV)) →
      negaMax.loop D T selfN nodeType b depth cutNode wasInCheck improving ss n i l g =
        some (l2, g2) →
      (a ≤ l2.alpha ∧ l2.alpha < b ∧ l2.bestValue ≤ l2.alpha ∧
        (l2.bestMove = MOVE_NONE → l2.alpha = a) ∧
        (l2.bestMove ≠ MOVE_NONE → a < l2.bestValue ∧ nodeType ≠ NodeType.NonPV)) ∨
      b ≤ l2.bestValue := by
  intro n
  induction n with
  | zero =>
    intro i l g l2 g2 hinv h
    simp only [negaMax.loop, Option.some.injEq, Prod.mk.injEq] at h
    obtain ⟨rfl, rfl⟩ := h
    exact Or.inl hinv
  | succ n ih =>
    intro i l g l2 g2 hinv h
    simp only [negaMax.loop] at h
    by_cases hl : D.isLegal g.position (nextBestMove l.moves i).1 = false
    · rw [if_pos hl] at h
      refine ih _ _ _ _ _ ?_ h
      exact hinv
    rw [if_neg hl] at h
    have hmove : (nextBestMove l.moves i).1 ≠ MOVE_NONE := by
      intro e
      rw [e] at hl
      exact hl (hnull _)
    split at h
    · refine ih _ _ _ _ _ ?_ h
      exact hinv
    split at h
    · cases h
    split at h
    · cases h
    split at h
    · cases h
    rename_i _ g1 hplay _ value g2x hsearch _ g3 hcancel
    obtain ⟨s1, s2, s3, s4⟩ := negaMax_improve_spec value l.bestValue l.alpha b
    obtain ⟨i1, i2, i3, i4, i5⟩ := hinv
    split at h
    · refine ih _ _ _ _ _ ?_ h
      exact ⟨i1, i2, i3, i4, i5⟩
    · rename_i himp
      have hv := s2 himp
      refine ih _ _ _ _ _ ?_ h
      refine ⟨i1, i2, hv.2, i4, ?_⟩
      intro hb
      have := i5 hb
      exact ⟨by show a < value; unfold Value at *; omega, this.2⟩
    · rename_i himp
      have hv := s3 himp
      simp only [Option.some.injEq, Prod.mk.injEq] at h
      obtain ⟨rfl, rfl⟩ := h
      exact Or.inr hv.2.2
    · rename_i himp
      have hv := s4 himp
      have hpv : nodeType ≠ NodeType.NonPV := by
        intro e
        have hb := hzero e
        by_cases hm : l.bestMove = MOVE_NONE
        · have := i4 hm
          unfold Value at *
          omega
        · exact (i5 hm).2 e
      refine ih _ _ _ _ _ ?_ h
      refine ⟨?_, hv.2.2, le_refl _, ?_, ?_⟩
      · show a ≤ value
        unfold Value at *
        omega
      · intro e
        exact absurd e hmove
      · intro _
        exact ⟨by show a < value; unfold Value at *; omega, hpv⟩

/-- Invariant of the move loop of `qsearch` for the window `(a, b)`. -/
theorem qsearch_loop_window (D : Decls) (T : Clock) (self : QSearch) (nodeType : NodeType)
    (a b : Value) (generateAllMoves : Bool) (ss : Nat)
    (hzero : nodeType = NodeType.NonPV → b = a + 1) :
    ∀ (n i : Nat) (l : qsearch.Locals) (g : Globals) (res : qsearch.LoopEnd),
      (a ≤ l.alpha ∧ l.alpha < b ∧ l.bestValue ≤ l.alpha ∧
        (a < l.alpha → l.bestValue = l.alpha) ∧
        (nodeType = NodeType.NonPV → l.alpha = a)) →
      qsearch.loop D T self nodeType b generateAllMoves ss n i l g = some res →
      match res with
      | .failHigh _ v _ => b ≤ v
      | .done l2 _ =>
        a ≤ l2.alpha ∧ l2.alpha < b ∧ l2.bestValue ≤ l2.alpha ∧
          (a < l2.alpha → l2.bestValue = l2.alpha) ∧
          (nodeType = NodeType.NonPV → l2.alpha = a) := by
  intro n
  induction n with
  | zero =>
    intro i l g res hinv h
    simp only [qsearch.loop, Option.some.injEq] at h
    subst h
    exact hinv
  | succ n ih =>
    intro i l g res hinv h
    simp only [qsearch.loop] at h
    split at h
    · refine ih _ _ _ _ ?_ h
      exact hinv
    split at h
    · refine ih _ _ _ _ ?_ h
      exact hinv
    split at h
    · cases h
    split at h
    · cases h
    split at h
    · cases h
    rename_i _ g1 hplay _ value g2x hsearch _ g3 hcancel
    obtain ⟨s1, s2, s3, s4⟩ := qsearch_improve_spec nodeType (-value) l.bestValue l.alpha b
    obtain ⟨i1, i2, i3, i4, i5⟩ := hinv
    split at h
    · refine ih _ _ _ _ ?_ h
      exact ⟨i1, i2, i3, i4, i5⟩
    · rename_i himp
      have hv := s2 himp
      refine ih _ _ _ _ ?_ h
      refine ⟨i1, i2, hv.2, ?_, i5⟩
      intro hb
      have := i4 hb
      exfalso
      unfold Value at *
      omega
    · rename_i himp
      have hv := s3 himp
      simp only [Option.some.injEq] at h
      subst h
      show b ≤ -value
      rcases hv.2.2 with e | e
      · have h1 := hzero e
        have h2 := i5 e
        unfold Value at *
        omega
      · exact e
    · rename_i himp
      have hv := s4 himp
      refine ih _ _ _ _ ?_ h
      refine ⟨?_, hv.2.2.1, le_refl _, fun _ => rfl, fun e => absurd e hv.2.2.2⟩
      show a ≤ -value
      unfold Value at *
      omega

/-- The statements before `moves_loop` at a node not in check leave the window as it is. -/
theorem negaMax.pruneQuiet_window (D : Decls) (T : Clock) (selfN : NegaMax) (selfQ : QSearch)
    (nodeType : NodeType) (a b : Value) (depth : Int) (cutNode : Bool) (ss : Nat)
    (slot : Nat) (ttHit : Bool) (ttMove : Move) (g g2 : Globals) (node : negaMax.Node)
    (h : negaMax.pruneQuiet D T selfN selfQ nodeType a b depth cutNode ss slot ttHit ttMove g =
      some (.moves node g2)) :
    node.alpha = a ∧ node.beta = b := by
  unfold negaMax.pruneQuiet at h
  simp only at h
  repeat' split at h
  all_goals first
    | (cases h; done)
    | (simp only [Option.some.injEq, negaMax.Pruned.moves.injEq] at h
       obtain ⟨rfl, -⟩ := h
       exact ⟨rfl, rfl⟩)

/-- The statements from the probe to `moves_loop` leave the window as it is. -/
theorem negaMax.prune_window (D : Decls) (T : Clock) (selfN : NegaMax) (selfQ : QSearch)
    (nodeType : NodeType) (a b : Value) (depth : Int) (cutNode : Bool) (ss : Nat)
    (g g2 : Globals) (node : negaMax.Node)
    (h : negaMax.prune D T selfN selfQ nodeType a b depth cutNode ss g =
      some (.moves node g2)) :
    node.alpha = a ∧ node.beta = b := by
  unfold negaMax.prune at h
  split at h
  · cases h
  split at h
  · cases h
  · split at h <;> cases h
  · split at h
    · simp only [Option.some.injEq, negaMax.Pruned.moves.injEq] at h
      obtain ⟨rfl, -⟩ := h
      exact ⟨rfl, rfl⟩
    · exact negaMax.pruneQuiet_window D T selfN selfQ nodeType a b _ cutNode ss _ _ _ g g2 node h

/-- Soundness of a store, unfolded. -/
theorem Leave.sound_stored (alpha0 beta : Value) (slot : Nat) (flag : TT.Flag) (depth : Int)
    (move : Move) (value staticEval : Value) :
    (Leave.stored slot flag depth move value staticEval).Sound alpha0 beta ↔
      ((flag = TT.Flag.FLAG_LOWER → value ≥ beta) ∧ (flag = TT.Flag.FLAG_UPPER → value ≤ alpha0) ∧
        (flag = TT.Flag.FLAG_EXACT → alpha0 < value ∧ value < beta) ∧
        flag ≠ TT.Flag.NO_FLAG) :=
  Iff.rfl

/-- The flag of the final store of `negaMax` as three equivalences. -/
theorem negaMax.storeFlag_spec (nodeType : NodeType) (bestValue beta : Value) (bestMove : Move) :
    (negaMax.storeFlag nodeType bestValue beta bestMove = TT.Flag.FLAG_LOWER ↔
      bestValue ≥ beta) ∧
    (negaMax.storeFlag nodeType bestValue beta bestMove = TT.Flag.FLAG_EXACT ↔
      bestValue < beta ∧ nodeType ≠ NodeType.NonPV ∧ bestMove ≠ MOVE_NONE) ∧
    (negaMax.storeFlag nodeType bestValue beta bestMove = TT.Flag.FLAG_UPPER ↔
      bestValue < beta ∧ ¬ (nodeType ≠ NodeType.NonPV ∧ bestMove ≠ MOVE_NONE)) ∧
    negaMax.storeFlag nodeType bestValue beta bestMove ≠ TT.Flag.NO_FLAG := by
  unfold negaMax.storeFlag
  split_ifs with h1 h2
  · simp only [reduceCtorEq, true_iff, false_iff, ne_eq, not_false_eq_true, and_true]
    exact ⟨h1, fun h => absurd h.1 (not_lt.mpr h1), fun h => absurd h.1 (not_lt.mpr h1)⟩
  · simp only [reduceCtorEq, true_iff, false_iff, ne_eq, not_false_eq_true, and_true]
    exact ⟨h1, ⟨not_le.mp h1, h2⟩, fun h => h.2 h2⟩
  · simp only [reduceCtorEq, true_iff, false_iff, ne_eq, not_false_eq_true, and_true]
    exact ⟨h1, fun h => h2 h.2, not_le.mp h1, h2⟩

/-- The store at the end of `negaMax` is sound for the window held at `moves_loop`, and its
flag is the one of `negaMax.storeFlag`. -/
theorem negaMax.searchMoves_sound (D : Decls) (T : Clock) (selfN : NegaMax)
    (nodeType : NodeType) (cutNode : Bool) (ss : Nat) (node : negaMax.Node) (g g2 : Globals)
    (leave : Leave)
    (hwin : node.alpha < node.beta)
    (hzero : nodeType = NodeType.NonPV → node.beta = node.alpha + 1)
    (hrange : -D.VALUE_INFINITE ≤ node.alpha)
    (hnull : ∀ pos, D.isLegal pos MOVE_NONE = false)
    (h : negaMax.searchMoves D T selfN nodeType cutNode ss node g = some (leave, g2)) :
    leave.Sound node.alpha node.beta ∧
      ∀ slot flag d move value ev, leave = .stored slot flag d move value ev →
        flag = negaMax.storeFlag nodeType value node.beta move := by
  unfold negaMax.searchMoves at h
  simp only at h
  split at h
  · cases h
  rename_i l g3 hloop
  have hinv := negaMax_loop_window D T selfN nodeType node.alpha node.beta node.depth cutNode _
    node.improving ss hzero hnull _ _ _ _ _ _
    ⟨le_refl _, hwin, hrange, fun _ => rfl, fun hb => absurd rfl hb⟩ hloop
  split at h
  · simp only [Option.some.injEq, Prod.mk.injEq] at h
    obtain ⟨rfl, -⟩ := h
    exact ⟨trivial, fun _ _ _ _ _ _ e => by cases e⟩
  · simp only [Option.some.injEq, Prod.mk.injEq] at h
    obtain ⟨rfl, -⟩ := h
    refine ⟨?_, ?_⟩
    · obtain ⟨f1, f2, f3, f4⟩ := negaMax.storeFlag_spec nodeType l.bestValue node.beta l.bestMove
      rw [Leave.sound_stored]
      refine ⟨fun e => f1.mp e, fun e => ?_, fun e => ?_, f4⟩
      · have hu := f3.mp e
        rcases hinv with ⟨i1, i2, i3, i4, i5⟩ | hb
        · by_cases hm : l.bestMove = MOVE_NONE
          · have := i4 hm
            unfold Value at *
            omega
          · exact absurd ⟨(i5 hm).2, hm⟩ hu.2
        · exact absurd hu.1 (not_lt.mpr hb)
      · have hu := f2.mp e
        rcases hinv with ⟨i1, i2, i3, i4, i5⟩ | hb
        · exact ⟨(i5 hu.2.2).1, hu.1⟩
        · exact absurd hu.1 (not_lt.mpr hb)
    · intro slot flag d move value ev e
      simp only [Leave.stored.injEq] at e
      obtain ⟨-, rfl, -, rfl, rfl, -⟩ := e
      rfl

/-- The locals of `qsearch` before its move loop satisfy the loop invariant. -/
theorem qsearch.start_window (nodeType : NodeType) (a b standPat inf : Int) (inCheck : Prop)
    [Decidable inCheck] (hwin : a < b) (hzero : nodeType = NodeType.NonPV → b = a + 1)
    (hrange : -inf ≤ a) (hstand : ¬ (¬ inCheck ∧ standPat ≥ b)) :
    a ≤ (if ¬ inCheck ∧ (if inCheck then -inf else standPat) > a then
        (if inCheck then -inf else standPat) else a) ∧
      (if ¬ inCheck ∧ (if inCheck then -inf else standPat) > a then
        (if inCheck then -inf else standPat) else a) < b ∧
      (if inCheck then -inf else standPat) ≤
        (if ¬ inCheck ∧ (if inCheck then -inf else standPat) > a then
          (if inCheck then -inf else standPat) else a) ∧
      (a < (if ¬ inCheck ∧ (if inCheck then -inf else standPat) > a then
          (if inCheck then -inf else standPat) else a) →
        (if inCheck then -inf else standPat) =
          (if ¬ inCheck ∧ (if inCheck then -inf else standPat) > a then
            (if inCheck then -inf else standPat) else a)) ∧
      (nodeType = NodeType.NonPV →
        (if ¬ inCheck ∧ (if inCheck then -inf else standPat) > a then
          (if inCheck then -inf else standPat) else a) = a) := by
  by_cases hc : inCheck
  · rw [if_pos hc, if_neg (fun h => h.1 hc)]
    exact ⟨le_refl _, hwin, hrange, fun h => absurd h (lt_irrefl _), fun _ => rfl⟩
  · rw [if_neg hc]
    have hs : standPat < b := by
      by_contra hge
      exact hstand ⟨hc, not_lt.mp hge⟩
    simp only [hc, not_false_eq_true, true_and]
    by_cases hz : nodeType = NodeType.NonPV
    · have hb := hzero hz
      split_ifs <;> refine ⟨?_, ?_, ?_, ?_, ?_⟩ <;> intros <;> omega
    · split_ifs <;> refine ⟨?_, ?_, ?_, ?_, ?_⟩ <;> intros <;> first | omega | contradiction

/-- Every way `qsearch` returns is sound for its window. -/
theorem qsearch.body_sound (D : Decls) (T : Clock) (self : QSearch) (nodeType : NodeType)
    (a b : Value) (ss : Nat) (g g2 : Globals) (leave : Leave)
    (hwin : a < b) (hzero : nodeType = NodeType.NonPV → b = a + 1)
    (hrange : -D.VALUE_INFINITE ≤ a)
    (h : qsearch.body D T self nodeType a b ss g = some (leave, g2)) :
    leave.Sound a b := by
  unfold qsearch.body at h
  simp only at h
  split at h
  · simp only [Option.some.injEq, Prod.mk.injEq] at h
    obtain ⟨rfl, -⟩ := h
    exact trivial
  split at h
  · cases h
  rename_i slot ttHit hprobe
  by_cases hcut : nodeType = NodeType.NonPV ∧
      (if ttHit = true then (g.tt.entries slot).flag else TT.Flag.NO_FLAG).bits &&&
        (flagForTT (decide ((if ttHit = true then (g.tt.entries slot).value
          else D.VALUE_NONE) ≥ b))).bits ≠ 0
  · rw [if_pos hcut] at h
    simp only [Option.some.injEq, Prod.mk.injEq] at h
    obtain ⟨rfl, -⟩ := h
    exact trivial
  rw [if_neg hcut] at h
  by_cases hstand : ¬ g.position.checkers ≠ 0 ∧
      qsearch.standPat D (g.tt.entries slot) ttHit
        (D.evaluate g.position (g.accumulatorStack g.ply)) ≥ b
  · rw [if_pos hstand] at h
    simp only [Option.some.injEq, Prod.mk.injEq] at h
    obtain ⟨rfl, -⟩ := h
    exact trivial
  rw [if_neg hstand] at h
  have hstart := qsearch.start_window nodeType a b
    (qsearch.standPat D (g.tt.entries slot) ttHit
      (D.evaluate g.position (g.accumulatorStack g.ply)))
    D.VALUE_INFINITE (g.position.checkers ≠ 0) hwin hzero hrange hstand
  split at h
  · cases h
  · rename_i hloop
    simp only [Option.some.injEq, Prod.mk.injEq] at h
    obtain ⟨rfl, -⟩ := h
    have hinv := qsearch_loop_window D T self nodeType a b _ ss hzero _ _ _ _ _ hstart hloop
    rw [Leave.sound_stored]
    simp only [reduceCtorEq, false_implies, true_implies, ne_eq, not_false_eq_true, and_true,
      true_and]
    exact hinv
  · rename_i l g3 hloop
    have hinv := qsearch_loop_window D T self nodeType a b _ ss hzero _ _ _ _ _ hstart hloop
    simp only at hinv
    obtain ⟨i1, i2, i3, i4, i5⟩ := hinv
    by_cases hm : g3.position.checkers ≠ 0 ∧ l.foundLegalMoves = false
    · rw [if_pos hm] at h
      simp only [Option.some.injEq, Prod.mk.injEq] at h
      obtain ⟨rfl, -⟩ := h
      exact trivial
    · rw [if_neg hm] at h
      simp only [Option.some.injEq, Prod.mk.injEq] at h
      obtain ⟨rfl, -⟩ := h
      rw [Leave.sound_stored]
      by_cases hgt : l.alpha > a
      · rw [if_pos hgt]
        simp only [reduceCtorEq, false_implies, true_implies, ne_eq, not_false_eq_true,
          and_true, true_and]
        have := i4 hgt
        unfold Value at *
        omega
      · rw [if_neg hgt]
        simp only [reduceCtorEq, false_implies, true_implies, ne_eq, not_false_eq_true,
          and_true, true_and]
        unfold Value at *
        omega

/-- Claim C11: with a window `(a, b)` after mate-distance pruning such that `a < b`,
`b = a + 1` at NonPV nodes and `-VALUE_INFINITE <= a`, and a null move that is never legal,
every store of `qsearch` and of `negaMax` is sound: a LOWER value is at least `b`, an UPPER
value at most `a`, an EXACT value strictly between them; and in `negaMax` the flag is LOWER iff
the stored value is at least `b`, EXACT iff it is below `b` at a PV node with a best move, and
UPPER iff it is below `b` otherwise. -/
theorem tt_store_sound (D : Decls) (T : Clock) (fuel : Nat) (nodeType : NodeType) (a b : Value)
    (hwin : a < b) (hzero : nodeType = NodeType.NonPV → b = a + 1)
    (hrange : -D.VALUE_INFINITE ≤ a) (hnull : ∀ pos, D.isLegal pos MOVE_NONE = false) :
    (∀ (ss : Nat) (g : Globals) (leave : Leave),
      (qsearch.body D T (qsearch D T fuel) nodeType a b ss g).map Prod.fst = some leave →
      leave.Sound a b) ∧
    (∀ (alpha beta : Value) (depth : Int) (cutNode : Bool) (ss : Nat) (g g1 : Globals)
      (leave : Leave),
      negaMax.enter D nodeType alpha beta ss g = .proceed a b g1 →
      (negaMax.body D T (negaMax D T fuel) (qsearch D T fuel) nodeType alpha beta depth cutNode
        ss g).map Prod.fst = some leave →
      leave.Sound a b ∧
        ∀ slot flag d move value ev, leave = .stored slot flag d move value ev →
          (flag = TT.Flag.FLAG_LOWER ↔ value ≥ b) ∧
          (flag = TT.Flag.FLAG_EXACT ↔
            value < b ∧ nodeType ≠ NodeType.NonPV ∧ move ≠ MOVE_NONE) ∧
          (flag = TT.Flag.FLAG_UPPER ↔
            value < b ∧ ¬ (nodeType ≠ NodeType.NonPV ∧ move ≠ MOVE_NONE))) := by
  refine ⟨?_, ?_⟩
  · intro ss g leave h
    obtain ⟨⟨leave2, g2⟩, hbody, rfl⟩ := Option.map_eq_some'.mp h
    exact qsearch.body_sound D T _ nodeType a b ss g g2 leave2 hwin hzero hrange hbody
  · intro alpha beta depth cutNode ss g g1 leave henter hmap
    obtain ⟨⟨leave2, g2⟩, h, rfl⟩ := Option.map_eq_some'.mp hmap
    clear hmap
    unfold negaMax.body at h
    rw [henter] at h
    simp only at h
    split at h
    · cases h
    · simp only [Option.some.injEq, Prod.mk.injEq] at h
      obtain ⟨rfl, -⟩ := h
      exact ⟨trivial, fun _ _ _ _ _ _ e => by cases e⟩
    · rename_i node g3 hprune
      obtain ⟨ha, hb⟩ := negaMax.prune_window D T _ _ nodeType a b depth cutNode ss g1 g3 node
        hprune
      obtain ⟨h1, h2⟩ := negaMax.searchMoves_sound D T _ nodeType cutNode ss node g3 g2 leave2
        (by rw [ha, hb]; exact hwin) (by rw [ha, hb]; exact hzero) (by rw [ha]; exact hrange)
        hnull h
      rw [ha, hb] at h1
      refine ⟨h1, ?_⟩
      intro slot flag d move value ev e
      have hf := h2 slot flag d move value ev e
      rw [hb] at hf
      obtain ⟨f1, f2, f3, -⟩ := negaMax.storeFlag_spec nodeType value b move
      rw [hf]
      exact ⟨f1, f2, f3⟩

/-- Witness of C11: at ply 2 with the window (-50, 50), a PV `qsearch` on the quiet sample state
stores its stand-pat value 0 with `FLAG_EXACT`, and a PV `negaMax` of depth 1 whose single move
is answered by 0 stores 0 with `FLAG_EXACT` and best move 9. -/
theorem tt_store_sound_witness :
    (Leave.stored 78 TT.Flag.FLAG_EXACT 0 0 0 0).Sound (-50) 50 ∧
      (Leave.stored 78 TT.Flag.FLAG_EXACT 1 9 0 0).Sound (-50) 50 :=
  ⟨(tt_store_sound soundDecls sampleClock 1 NodeType.PV (-50) 50 (by decide)
      (fun h => by cases h) (by decide) (fun _ => rfl)).1 4 stalemateGlobals _ (by decide!),
    ((tt_store_sound soundDecls sampleClock 2 NodeType.PV (-50) 50 (by decide)
      (fun h => by cases h) (by decide) (fun _ => rfl)).2 (-50) 50 1 false 4 stalemateGlobals
      _ _ (by rfl) (by decide!)).1⟩

/-! ### The zero-window discipline of NonPV nodes -/

/-- The monitor passes a NonPV call with a window of width one. -/
theorem NegaMax_guarded_nonPV (N : NegaMax) (a b : Value) (h : b = a + 1) :
    NegaMax.guarded N NodeType.NonPV a b = N NodeType.NonPV a b := by
  unfold NegaMax.guarded
  rw [if_pos (fun _ => h)]

/-- The monitor passes every PV call. -/
theorem NegaMax.guarded_PV (N : NegaMax) (a b : Value) :
    NegaMax.guarded N NodeType.PV a b = N NodeType.PV a b := by
  unfold NegaMax.guarded
  rw [if_pos (fun h => by cases h)]

/-- The monitor passes a NonPV call with a window of width one. -/
theorem QSearch_guarded_nonPV (Q : QSearch) (a b : Value) (h : b = a + 1) :
    QSearch.guarded Q NodeType.NonPV a b = Q NodeType.NonPV a b := by
  unfold QSearch.guarded
  rw [if_pos (fun _ => h)]

/-- The monitor passes every call whose window passes the test. -/
theorem QSearch.guarded_pass (Q : QSearch) (nodeType : NodeType) (a b : Value)
    (h : nodeType = NodeType.NonPV → b = a + 1) :
    QSearch.guarded Q nodeType a b = Q nodeType a b := by
  unfold QSearch.guarded
  rw [if_pos h]

/-- The searches of one move make only calls that the monitor passes. -/
theorem negaMax.searchMove_guarded (D : Decls) (N : NegaMax) (nodeType : NodeType)
    (alpha beta : Value) (depth : Int) (cutNode wasInCheck improving : Bool)
    (playedMoves : Int) (ss : Nat) (g : Globals) :
    negaMax.searchMove D (NegaMax.guarded N) nodeType alpha beta depth cutNode wasInCheck
        improving playedMoves ss g =
      negaMax.searchMove D N nodeType alpha beta depth cutNode wasInCheck improving playedMoves
        ss g := by
  unfold negaMax.searchMove
  rw [NegaMax_guarded_nonPV N (-alpha - 1) (-alpha) (by ring), NegaMax.guarded_PV]

/-- The move loop of `negaMax` makes only calls that the monitor passes. -/
theorem negaMax_loop_guarded (D : Decls) (T : Clock) (N : NegaMax) (nodeType : NodeType)
    (beta : Value) (depth : Int) (cutNode wasInCheck improving : Bool) (ss : Nat) :
    ∀ (n i : Nat) (l : negaMax.Locals) (g : Globals),
      negaMax.loop D T (NegaMax.guarded N) nodeType beta depth cutNode wasInCheck improving ss
          n i l g =
        negaMax.loop D T N nodeType beta depth cutNode wasInCheck improving ss n i l g := by
  intro n
  induction n with
  | zero => intro i l g; rfl
  | succ n ih =>
    intro i l g
    simp only [negaMax.loop, negaMax.searchMove_guarded, ih]

/-- The statements of `negaMax` from `moves_loop` on make only calls that the monitor passes. -/
theorem negaMax.searchMoves_guarded (D : Decls) (T : Clock) (N : NegaMax) (nodeType : NodeType)
    (cutNode : Bool) (ss : Nat) (node : negaMax.Node) (g : Globals) :
    negaMax.searchMoves D T (NegaMax.guarded N) nodeType cutNode ss node g =
      negaMax.searchMoves D T N nodeType cutNode ss node g := by
  simp only [negaMax.searchMoves, negaMax_loop_guarded]

/-- The pruning statements of `negaMax` make only calls that the monitor passes. -/
theorem negaMax.pruneQuiet_guarded (D : Decls) (T : Clock) (N : NegaMax) (Q : QSearch)
    (nodeType : NodeType) (alpha beta : Value) (depth : Int) (cutNode : Bool) (ss : Nat)
    (slot : Nat) (ttHit : Bool) (ttMove : Move) (g : Globals) :
    negaMax.pruneQuiet D T (NegaMax.guarded N) (QSearch.guarded Q) nodeType alpha beta depth
        cutNode ss slot ttHit ttMove g =
      negaMax.pruneQuiet D T N Q nodeType alpha beta depth cutNode ss slot ttHit ttMove g := by
  unfold negaMax.pruneQuiet
  rw [QSearch_guarded_nonPV Q (alpha - 1) alpha (by ring),
    NegaMax_guarded_nonPV N (-beta) (-beta + 1) rfl]

/-- The quiescence drop hands the window of the node to `qsearch`. -/
theorem negaMax.afterProbe_quiescence (D : Decls) (nodeType : NodeType) (g : Globals)
    (ttEntry : TT.Entry) (ttHit : Bool) (alpha beta : Value) (depth : Int) (a b : Value)
    (h : negaMax.afterProbe D nodeType g ttEntry ttHit alpha beta depth = .quiescence a b) :
    a = alpha ∧ b = beta := by
  unfold negaMax.afterProbe at h
  simp only at h
  split_ifs at h
  all_goals
    simp only [negaMax.AfterProbe.quiescence.injEq] at h
    exact ⟨h.1.symm, h.2.symm⟩

/-- The statements of `negaMax` from the probe to `moves_loop` make only calls that the monitor
passes, when the window of the node passes the test. -/
theorem negaMax.prune_guarded (D : Decls) (T : Clock) (N : NegaMax) (Q : QSearch)
    (nodeType : NodeType) (alpha beta : Value) (depth : Int) (cutNode : Bool) (ss : Nat)
    (g : Globals) (hzero : nodeType = NodeType.NonPV → beta = alpha + 1) :
    negaMax.prune D T (NegaMax.guarded N) (QSearch.guarded Q) nodeType alpha beta depth cutNode
        ss g =
      negaMax.prune D T N Q nodeType alpha beta depth cutNode ss g := by
  have hq : QSearch.guarded Q
      (if nodeType ≠ NodeType.NonPV then NodeType.PV else NodeType.NonPV) alpha beta =
      Q (if nodeType ≠ NodeType.NonPV then NodeType.PV else NodeType.NonPV) alpha beta := by
    apply QSearch.guarded_pass
    intro h
    by_cases hn : nodeType = NodeType.NonPV
    · exact hzero hn
    · rw [if_pos hn] at h
      cases h
  unfold negaMax.prune
  simp only [negaMax.pruneQuiet_guarded]
  split
  · rfl
  split
  · rfl
  · rename_i a b heq
    obtain ⟨rfl, rfl⟩ := negaMax.afterProbe_quiescence D nodeType g _ _ alpha beta depth a b heq
    rw [hq]
  · rfl

/-- Mate-distance pruning keeps a window that passes the test: at a NonPV node with
`beta = alpha + 1` it returns or leaves the window as it is. -/
theorem negaMax.enter_zero_window (D : Decls) (nodeType : NodeType) (alpha beta a b : Value)
    (ss : Nat) (g g1 : Globals) (hzero : nodeType = NodeType.NonPV → beta = alpha + 1)
    (h : negaMax.enter D nodeType alpha beta ss g = .proceed a b g1) :
    nodeType = NodeType.NonPV → a = alpha ∧ b = beta := by
  intro hn
  have hb := hzero hn
  obtain ⟨-, -, -, -, -, -, -, -, -, hm⟩ := negaMax.enter_proceed D nodeType alpha beta a b ss g
    g1 h
  obtain ⟨h1, h2, h3⟩ := hm (by rw [hn]; decide)
  unfold Value at *
  omega

/-- The body of `negaMax` makes only calls that the monitor passes, when its own window passes
the test. -/
theorem negaMax_body_guarded (D : Decls) (T : Clock) (N : NegaMax) (Q : QSearch)
    (nodeType : NodeType) (alpha beta : Value) (depth : Int) (cutNode : Bool) (ss : Nat)
    (g : Globals) (hzero : nodeType = NodeType.NonPV → beta = alpha + 1) :
    negaMax.body D T (NegaMax.guarded N) (QSearch.guarded Q) nodeType alpha beta depth cutNode
        ss g =
      negaMax.body D T N Q nodeType alpha beta depth cutNode ss g := by
  unfold negaMax.body
  split
  · rfl
  · rename_i a b g1 henter
    have hw : nodeType = NodeType.NonPV → b = a + 1 := by
      intro hn
      obtain ⟨h1, h2⟩ := negaMax.enter_zero_window D nodeType alpha beta a b ss g g1 hzero
        henter hn
      rw [h1, h2]
      exact hzero hn
    simp only [negaMax.prune_guarded D T N Q nodeType a b depth cutNode ss g1 hw,
      negaMax.searchMoves_guarded]

/-- The move loop of `qsearch` makes only calls that the monitor passes, when `alpha` and `beta`
pass the test. -/
theorem qsearch_loop_guarded (D : Decls) (T : Clock) (Q : QSearch) (nodeType : NodeType)
    (beta : Value) (generateAllMoves : Bool) (ss : Nat) :
    ∀ (n i : Nat) (l : qsearch.Locals) (g : Globals),
      (nodeType = NodeType.NonPV → beta = l.alpha + 1) →
      qsearch.loop D T (QSearch.guarded Q) nodeType beta generateAllMoves ss n i l g =
        qsearch.loop D T Q nodeType beta generateAllMoves ss n i l g := by
  intro n
  induction n with
  | zero => intro i l g _; rfl
  | succ n ih =>
    intro i l g hzero
    have hq : QSearch.guarded Q nodeType (-beta) (-l.alpha) = Q nodeType (-beta) (-l.alpha) := by
      apply QSearch.guarded_pass
      intro hn
      have := hzero hn
      unfold Value at *
      omega
    simp only [qsearch.loop, hq]
    split
    · exact ih _ _ _ hzero
    split
    · exact ih _ _ _ hzero
    split
    · rfl
    split
    · rfl
    split
    · rfl
    split
    · exact ih _ _ _ hzero
    · exact ih _ _ _ hzero
    · rfl
    · rename_i himp
      refine ih _ _ _ ?_
      intro hn
      exact absurd hn
        ((qsearch_improve_spec nodeType _ l.bestValue l.alpha beta).2.2.2 himp).2.2.2

/-- The body of `qsearch` makes only calls that the monitor passes, when its own window passes
the test. -/
theorem qsearch_body_guarded (D : Decls) (T : Clock) (Q : QSearch) (nodeType : NodeType)
    (alpha beta : Value) (ss : Nat) (g : Globals)
    (hzero : nodeType = NodeType.NonPV → beta = alpha + 1) :
    qsearch.body D T (QSearch.guarded Q) nodeType alpha beta ss g =
      qsearch.body D T Q nodeType alpha beta ss g := by
  unfold qsearch.body
  by_cases h1 : g.position.halfMoveClock ≥ 100
  · rw [if_pos h1, if_pos h1]
  rw [if_neg h1, if_neg h1]
  cases TT.probe g.tt g.position.key with
  | none => rfl
  | some p =>
  obtain ⟨slot, ttHit⟩ := p
  simp only
  by_cases hcut : nodeType = NodeType.NonPV ∧
      (if ttHit = true then (g.tt.entries slot).flag else TT.Flag.NO_FLAG).bits &&&
        (flagForTT (decide ((if ttHit = true then (g.tt.entries slot).value
          else D.VALUE_NONE) ≥ beta))).bits ≠ 0
  · rw [if_pos hcut, if_pos hcut]
  rw [if_neg hcut, if_neg hcut]
  by_cases hstand : ¬ g.position.checkers ≠ 0 ∧
      qsearch.standPat D (g.tt.entries slot) ttHit
        (D.evaluate g.position (g.accumulatorStack g.ply)) ≥ beta
  · rw [if_pos hstand, if_pos hstand]
  rw [if_neg hstand, if_neg hstand]
  rw [qsearch_loop_guarded D T Q nodeType beta _ ss _ _ _ _ ?_]
  intro hn
  have hb := hzero hn
  show beta = (if _ then _ else _) + 1
  by_cases hc : g.position.checkers ≠ 0
  · rw [if_neg (fun h => h.1 hc)]
    exact hb
  · have hs : qsearch.standPat D (g.tt.entries slot) ttHit
        (D.evaluate g.position (g.accumulatorStack g.ply)) < beta := by
      by_contra hge
      exact hstand ⟨hc, not_lt.mp hge⟩
    rw [if_neg hc]
    split_ifs with h1
    · have := h1.2
      unfold Value at *
      omega
    · exact hb

/-- The monitored functions agree with `qsearch` and `negaMax` on every call whose window passes
the test. -/
theorem negaMax.checked_eq (D : Decls) (T : Clock) :
    ∀ fuel : Nat,
      (∀ nodeType alpha beta ss g, (nodeType = NodeType.NonPV → beta = alpha + 1) →
        qsearch.checked D T fuel nodeType alpha beta ss g =
          qsearch D T fuel nodeType alpha beta ss g) ∧
      (∀ nodeType alpha beta depth cutNode ss g,
        (nodeType = NodeType.NonPV → beta = alpha + 1) →
        negaMax.checked D T fuel nodeType alpha beta depth cutNode ss g =
          negaMax D T fuel nodeType alpha beta depth cutNode ss g) := by
  intro fuel
  induction fuel with
  | zero => exact ⟨fun _ _ _ _ _ _ => rfl, fun _ _ _ _ _ _ _ _ => rfl⟩
  | succ fuel ih =>
    have hQ : QSearch.guarded (qsearch.checked D T fuel) =
        QSearch.guarded (qsearch D T fuel) := by
      funext nodeType alpha beta
      unfold QSearch.guarded
      split_ifs with h
      · funext ss g
        exact ih.1 nodeType alpha beta ss g h
      · rfl
    have hN : NegaMax.guarded (negaMax.checked D T fuel) =
        NegaMax.guarded (negaMax D T fuel) := by
      funext nodeType alpha beta
      unfold NegaMax.guarded
      split_ifs with h
      · funext depth cutNode ss g
        exact ih.2 nodeType alpha beta depth cutNode ss g h
      · rfl
    refine ⟨?_, ?_⟩
    · intro nodeType alpha beta ss g hzero
      simp only [qsearch.checked, qsearch, hQ,
        qsearch_body_guarded D T _ nodeType alpha beta ss g hzero]
    · intro nodeType alpha beta depth cutNode ss g hzero
      simp only [negaMax.checked, negaMax, hQ, hN,
        negaMax_body_guarded D T _ _ nodeType alpha beta depth cutNode ss g hzero]

/-- In a NonPV node with `beta = alpha + 1` the move loop of `negaMax` never changes `alpha`. -/
theorem negaMax_loop_alpha_nonPV (D : Decls) (T : Clock) (N : NegaMax) (beta : Value)
    (depth : Int) (cutNode wasInCheck improving : Bool) (ss : Nat) :
    ∀ (n i : Nat) (l : negaMax.Locals) (g : Globals) (l2 : negaMax.Locals) (g2 : Globals),
      beta = l.alpha + 1 →
      negaMax.loop D T N NodeType.NonPV beta depth cutNode wasInCheck improving ss n i l g =
        some (l2, g2) →
      l2.alpha = l.alpha := by
  intro n
  induction n with
  | zero =>
    intro i l g l2 g2 _ h
    simp only [negaMax.loop, Option.some.injEq, Prod.mk.injEq] at h
    rw [← h.1]
  | succ n ih =>
    intro i l g l2 g2 hb h
    simp only [negaMax.loop] at h
    split at h
    · exact (ih _ _ _ _ _ (by exact hb) h :)
    split at h
    · exact (ih _ _ _ _ _ (by exact hb) h :)
    split at h
    · cases h
    split at h
    · cases h
    split at h
    · cases h
    rename_i _ g1 hplay _ value g2x hsearch _ g3 hcancel
    split at h
    · exact (ih _ _ _ _ _ (by exact hb) h :)
    · exact (ih _ _ _ _ _ (by exact hb) h :)
    · simp only [Option.some.injEq, Prod.mk.injEq] at h
      rw [← h.1]
    · rename_i himp
      have hv := (negaMax_improve_spec value l.bestValue l.alpha beta).2.2.2 himp
      exfalso
      unfold Value at *
      omega

/-- In a NonPV node with `beta = alpha + 1` the move loop of `qsearch` never changes `alpha`. -/
theorem qsearch_loop_alpha_nonPV (D : Decls) (T : Clock) (Q : QSearch) (beta : Value)
    (generateAllMoves : Bool) (ss : Nat) :
    ∀ (n i : Nat) (l : qsearch.Locals) (g : Globals) (l2 : qsearch.Locals) (g2 : Globals),
      qsearch.loop D T Q NodeType.NonPV beta generateAllMoves ss n i l g =
        some (.done l2 g2) →
      l2.alpha = l.alpha := by
  intro n
  induction n with
  | zero =>
    intro i l g l2 g2 h
    simp only [qsearch.loop, Option.some.injEq, qsearch.LoopEnd.done.injEq] at h
    rw [← h.1]
  | succ n ih =>
    intro i l g l2 g2 h
    simp only [qsearch.loop] at h
    split at h
    · exact (ih _ _ _ _ _ h :)
    split at h
    · exact (ih _ _ _ _ _ h :)
    split at h
    · cases h
    split at h
    · cases h
    split at h
    · cases h
    rename_i _ g1 hplay _ value g2x hsearch _ g3 hcancel
    split at h
    · exact (ih _ _ _ _ _ h :)
    · exact (ih _ _ _ _ _ h :)
    · cases h
    · rename_i himp
      exact absurd rfl
        ((qsearch_improve_spec NodeType.NonPV _ l.bestValue l.alpha beta).2.2.2 himp).2.2.2

/-- Claim C19: started from a call whose window passes the test `NonPV -> beta = alpha + 1`
(every Root or PV call does), `negaMax` and `qsearch` return what their monitored versions
return, in which a NonPV call with another window is refused: no such call is made. At a NonPV
node with `beta = alpha + 1` mate-distance pruning returns or leaves the window as it is, a
value above `alpha` is at least `beta`, the tests after a searched move never take the branch
that raises `alpha` and calls `updatePV`, and both move loops end with `alpha` unchanged. -/
theorem nonPV_zero_window (D : Decls) (T : Clock) :
    (∀ fuel nodeType alpha beta depth cutNode ss g,
      (nodeType = NodeType.NonPV → beta = alpha + 1) →
      negaMax D T fuel nodeType alpha beta depth cutNode ss g =
        negaMax.checked D T fuel nodeType alpha beta depth cutNode ss g) ∧
    (∀ fuel nodeType alpha beta ss g, (nodeType = NodeType.NonPV → beta = alpha + 1) →
      qsearch D T fuel nodeType alpha beta ss g =
        qsearch.checked D T fuel nodeType alpha beta ss g) ∧
    (∀ (alpha a b : Value) (ss : Nat) (g g1 : Globals),
      negaMax.enter D NodeType.NonPV alpha (alpha + 1) ss g = .proceed a b g1 →
      a = alpha ∧ b = alpha + 1) ∧
    (∀ value bestValue alpha : Value,
      (value > alpha → value ≥ alpha + 1) ∧
      negaMax.improve value bestValue alpha (alpha + 1) ≠ .raiseAlpha ∧
      qsearch.improve NodeType.NonPV value bestValue alpha (alpha + 1) ≠ .raiseAlpha) ∧
    (∀ (N : NegaMax) (depth : Int) (cutNode wasInCheck improving : Bool) (ss n i : Nat)
      (l l2 : negaMax.Locals) (g g2 : Globals),
      negaMax.loop D T N NodeType.NonPV (l.alpha + 1) depth cutNode wasInCheck improving ss n i
        l g = some (l2, g2) →
      l2.alpha = l.alpha) ∧
    (∀ (Q : QSearch) (generateAllMoves : Bool) (ss n i : Nat) (l l2 : qsearch.Locals)
      (g g2 : Globals),
      qsearch.loop D T Q NodeType.NonPV (l.alpha + 1) generateAllMoves ss n i l g =
        some (.done l2 g2) →
      l2.alpha = l.alpha) := by
  refine ⟨?_, ?_, ?_, ?_, ?_, ?_⟩
  · intro fuel nodeType alpha beta depth cutNode ss g h
    exact ((negaMax.checked_eq D T fuel).2 nodeType alpha beta depth cutNode ss g h).symm
  · intro fuel nodeType alpha beta ss g h
    exact ((negaMax.checked_eq D T fuel).1 nodeType alpha beta ss g h).symm
  · intro alpha a b ss g g1 h
    exact negaMax.enter_zero_window D NodeType.NonPV alpha (alpha + 1) a b ss g g1
      (fun _ => rfl) h rfl
  · intro value bestValue alpha
    refine ⟨fun h => ?_, fun h => ?_, fun h => ?_⟩
    · unfold Value at *
      omega
    · have hv := (negaMax_improve_spec value bestValue alpha (alpha + 1)).2.2.2 h
      unfold Value at *
      omega
    · exact ((qsearch_improve_spec NodeType.NonPV value bestValue alpha (alpha + 1)).2.2.2
        h).2.2.2 rfl
  · intro N depth cutNode wasInCheck improving ss n i l l2 g g2 h
    exact negaMax_loop_alpha_nonPV D T N (l.alpha + 1) depth cutNode wasInCheck improving ss n i
      l g l2 g2 rfl h
  · intro Q generateAllMoves ss n i l l2 g g2 h
    exact qsearch_loop_alpha_nonPV D T Q (l.alpha + 1) generateAllMoves ss n i l g l2 g2 h

/-- Witness of C19: the NonPV call of depth 1 with the window (-1, 0) on the quiet sample state
searches its single move with the window (0, 1), drops into `qsearch` with that window and
fails high with the value 0; the monitored run returns the same value. -/
theorem nonPV_zero_window_witness :
    (negaMax soundDecls sampleClock 3 NodeType.NonPV (-1) 0 1 false 4 stalemateGlobals).map
      Prod.fst = some 0 := by
  rw [(nonPV_zero_window soundDecls sampleClock).1 3 NodeType.NonPV (-1) 0 1 false 4
    stalemateGlobals (fun _ => by decide)]
  decide!

/-! ### A probe that misses -/

/-- The flag `NO_FLAG` passes no flag test. -/
theorem TT.Flag.no_flag_bits (f : TT.Flag) : TT.Flag.NO_FLAG.bits &&& f.bits = 0 := by
  cases f <;> rfl

/-- On a miss the statements of `negaMax` after the probe do not read the slot: there is no
cutoff, and the quiescence drop and the search go on with `NO_FLAG`, `VALUE_NONE` and no TT move
(the first root move at the root). -/
theorem negaMax.afterProbe_miss (D : Decls) (nodeType : NodeType) (g : Globals) (e : TT.Entry)
    (alpha beta : Value) (depth : Int) :
    negaMax.afterProbe D nodeType g e false alpha beta depth =
      (if (if g.position.checkers ≠ 0 then max 1 (depth + 1) else depth) ≤ 0 then
        .quiescence alpha beta
      else
        .search (if g.position.checkers ≠ 0 then max 1 (depth + 1) else depth) TT.Flag.NO_FLAG
          D.VALUE_NONE (if nodeType = NodeType.Root then g.rootMoves.moves 0 else MOVE_NONE)) := by
  unfold negaMax.afterProbe
  simp only [Bool.false_eq_true, if_false, TT.Flag.no_flag_bits, ne_eq, not_true_eq_false,
    and_false]
  rfl

/-- On a miss the static evaluation of `negaMax` is the value of `Eval::evaluate()`. -/
theorem negaMax.staticEval_miss (D : Decls) (e : TT.Entry) (ev : Value) :
    negaMax.staticEval D e false ev = ev := by
  unfold negaMax.staticEval
  simp only [Bool.false_eq_true, if_false, TT.Flag.no_flag_bits, ne_eq, not_true_eq_false]

/-- On a miss the stand-pat value of `qsearch` is the value of `Eval::evaluate()`. -/
theorem qsearch.standPat_miss (D : Decls) (e : TT.Entry) (ev : Value) :
    qsearch.standPat D e false ev = ev := by
  unfold qsearch.standPat
  simp only [Bool.false_eq_true, if_false, TT.Flag.no_flag_bits, ne_eq, not_true_eq_false]

/-! ### What a call of the search keeps -/

/-- Every state keeps itself. -/
theorem Globals.Kept.refl (g : Globals) : g.Kept g :=
  ⟨rfl, rfl, fun _ _ => rfl, fun _ h => h, fun h => h⟩

/-- Keeping composes. -/
theorem Globals.Kept.trans (g g1 g2 : Globals) (h1 : g.Kept g1) (h2 : g1.Kept g2) :
    g.Kept g2 := by
  obtain ⟨a1, a2, a3, a4, a5⟩ := h1
  obtain ⟨b1, b2, b3, b4, b5⟩ := h2
  refine ⟨by rw [b1, a1], by rw [b2, a2], ?_, fun j h => b4 j (a4 j h), fun h => b5 (a5 h)⟩
  intro i hi
  rw [b3 i (by omega), a3 i hi]

/-- A state that differs only outside ply, position, `posStack`, `mainHistory` and the killers
is kept. -/
theorem Globals.Kept.of_eq (g g2 : Globals) (h1 : g2.ply = g.ply)
    (h2 : g2.position = g.position) (h3 : g2.posStack = g.posStack)
    (h5 : g2.mainHistory = g.mainHistory)
    (h4 : ∀ j, (g2.searchStack j).killers = (g.searchStack j).killers) : g.Kept g2 := by
  refine ⟨h1, h2, fun i _ => by rw [h3], ?_, ?_⟩
  · intro j hj
    unfold SearchInfo.KillersDistinct at hj ⊢
    rw [h4 j]
    exact hj
  · intro h
    rw [h5]
    exact h

/-- Writing a slot with the killers it had leaves the killers of every slot as they were. -/
theorem killers_update (s : Nat → SearchInfo) (k : Nat) (x : SearchInfo)
    (hx : x.killers = (s k).killers) (j : Nat) :
    (Function.update s k x j).killers = (s j).killers := by
  by_cases hj : j = k
  · subst hj
    rw [Function.update_same, hx]
  · rw [Function.update_noteq hj]

/-- The bookkeeping of `playMove` and `playNullMove` touches no killer. -/
theorem recordPlayed_killers (t : TimeReading) (move : Move) (ss : Nat) (g : Globals) :
    (recordPlayed t move ss g).ply = g.ply ∧ (recordPlayed t move ss g).position = g.position ∧
      (recordPlayed t move ss g).posStack = g.posStack ∧
      ∀ j, ((recordPlayed t move ss g).searchStack j).killers = (g.searchStack j).killers := by
  rw [(recordPlayed_eq t move ss g).1]
  refine ⟨rfl, rfl, rfl, fun j => ?_⟩
  show (Function.update g.searchStack ss _ j).killers = _
  exact killers_update g.searchStack ss _ (by rfl) j

/-- The bookkeeping of `playMove` and `playNullMove` leaves `mainHistory` as it is. -/
theorem recordPlayed_mainHistory (t : TimeReading) (move : Move) (ss : Nat) (g : Globals) :
    (recordPlayed t move ss g).mainHistory = g.mainHistory := by
  rw [(recordPlayed_eq t move ss g).1]

/-- The function `playMove` leaves `mainHistory` as it is. -/
theorem playMove_mainHistory (D : Decls) (t : TimeReading) (move : Move) (ss : Nat)
    (g g1 : Globals) (h : playMove D t move ss g = some g1) :
    g1.mainHistory = g.mainHistory := by
  unfold playMove pushPosition at h
  split_ifs at h with hp
  simp only [Option.some.injEq] at h
  subst h
  exact recordPlayed_mainHistory t move ss g

/-- The function `playNullMove` leaves `mainHistory` as it is. -/
theorem playNullMove_mainHistory (D : Decls) (t : TimeReading) (ss : Nat) (g g1 : Globals)
    (h : playNullMove D t ss g = some g1) : g1.mainHistory = g.mainHistory := by
  unfold playNullMove pushPosition at h
  split_ifs at h with hp
  simp only [Option.some.injEq] at h
  subst h
  exact recordPlayed_mainHistory t MOVE_NONE ss g

/-- After `playMove` the ply is one more, `posStack[ply]` holds the position left, and the
stack below and the killers are as before. -/
theorem playMove_pushes (D : Decls) (t : TimeReading) (move : Move) (ss : Nat) (g g1 : Globals)
    (h : playMove D t move ss g = some g1) :
    g1.ply = g.ply + 1 ∧ g1.posStack g.ply = g.position ∧
      (∀ i, i < g.ply → g1.posStack i = g.posStack i) ∧
      ∀ j, (g1.searchStack j).killers = (g.searchStack j).killers := by
  obtain ⟨r1, r2, r3, r4⟩ := recordPlayed_killers t move ss g
  unfold playMove pushPosition at h
  split_ifs at h with hp
  simp only [Option.some.injEq] at h
  subst h
  refine ⟨?_, ?_, ?_, r4⟩
  · show (recordPlayed t move ss g).ply + 1 = g.ply + 1
    rw [r1]
  · show Function.update (recordPlayed t move ss g).posStack (recordPlayed t move ss g).ply
      (recordPlayed t move ss g).position g.ply = g.position
    rw [← r1, Function.update_same, r2]
  · intro i hi
    show Function.update (recordPlayed t move ss g).posStack (recordPlayed t move ss g).ply
      (recordPlayed t move ss g).position i = g.posStack i
    rw [Function.update_noteq (show i ≠ (recordPlayed t move ss g).ply by omega), r3]

/-- After `playNullMove` the ply is one more, `posStack[ply]` holds the position left, and the
stack below and the killers are as before. -/
theorem playNullMove_pushes (D : Decls) (t : TimeReading) (ss : Nat) (g g1 : Globals)
    (h : playNullMove D t ss g = some g1) :
    g1.ply = g.ply + 1 ∧ g1.posStack g.ply = g.position ∧
      (∀ i, i < g.ply → g1.posStack i = g.posStack i) ∧
      ∀ j, (g1.searchStack j).killers = (g.searchStack j).killers := by
  obtain ⟨r1, r2, r3, r4⟩ := recordPlayed_killers t MOVE_NONE ss g
  unfold playNullMove pushPosition at h
  split_ifs at h with hp
  simp only [Option.some.injEq] at h
  subst h
  refine ⟨?_, ?_, ?_, r4⟩
  · show (recordPlayed t MOVE_NONE ss g).ply + 1 = g.ply + 1
    rw [r1]
  · show Function.update (recordPlayed t MOVE_NONE ss g).posStack (recordPlayed t MOVE_NONE ss g).ply
      (recordPlayed t MOVE_NONE ss g).position g.ply = g.position
    rw [← r1, Function.update_same, r2]
  · intro i hi
    show Function.update (recordPlayed t MOVE_NONE ss g).posStack (recordPlayed t MOVE_NONE ss g).ply
      (recordPlayed t MOVE_NONE ss g).position i = g.posStack i
    rw [Function.update_noteq (show i ≠ (recordPlayed t MOVE_NONE ss g).ply by omega), r3]

/-- A move that is made, searched by a call that keeps its state, and cancelled keeps the
state: `cancelMove` finds the position under the one the search was given. -/
theorem Globals.Kept.cancel (D : Decls) (g g1 g2 g3 : Globals)
    (hpush : g1.ply = g.ply + 1 ∧ g1.posStack g.ply = g.position ∧
      (∀ i, i < g.ply → g1.posStack i = g.posStack i) ∧
      ∀ j, (g1.searchStack j).killers = (g.searchStack j).killers)
    (hhist : g1.mainHistory = g.mainHistory)
    (hchild : g1.Kept g2) (hcancel : cancelMove D g2 = some g3) : g.Kept g3 := by
  obtain ⟨p1, p2, p3, p4⟩ := hpush
  obtain ⟨c1, c2, c3, c4, c5⟩ := hchild
  unfold cancelMove popPosition at hcancel
  split_ifs at hcancel with hp
  simp only [Option.some.injEq] at hcancel
  subst hcancel
  have e : g2.ply - 1 = g.ply := by omega
  refine ⟨?_, ?_, ?_, ?_, ?_⟩
  · exact e
  · show g2.posStack (g2.ply - 1) = g.position
    rw [e, c3 g.ply (by omega), p2]
  · intro i hi
    show g2.posStack i = g.posStack i
    rw [c3 i (by omega), p3 i hi]
  · intro j hj
    apply c4 j
    unfold SearchInfo.KillersDistinct at hj ⊢
    rw [p4 j]
    exact hj
  · intro h
    exact c5 (by rw [hhist]; exact h)

/-- The store after a return changes the table only. -/
theorem Leave.finish_kept (leave : Leave) (g : Globals) : g.Kept (Leave.finish (leave, g)).2 := by
  cases leave with
  | plain value => exact Globals.Kept.refl g
  | stored slot flag depth move value staticEval =>
    exact Globals.Kept.of_eq _ _ rfl rfl rfl rfl (fun _ => rfl)

/-- The move loop of `qsearch` keeps the state when the recursive call does. -/
theorem qsearch_loop_kept (D : Decls) (T : Clock) (self : QSearch) (nodeType : NodeType)
    (beta : Value) (generateAllMoves : Bool) (ss : Nat)
    (hself : ∀ nt a b s g v g2, self nt a b s g = some (v, g2) → g.Kept g2) :
    ∀ (n i : Nat) (l : qsearch.Locals) (g : Globals) (res : qsearch.LoopEnd),
      qsearch.loop D T self nodeType beta generateAllMoves ss n i l g = some res →
      g.Kept res.globals := by
  intro n
  induction n with
  | zero =>
    intro i l g res h
    simp only [qsearch.loop, Option.some.injEq] at h
    subst h
    exact Globals.Kept.refl g
  | succ n ih =>
    intro i l g res h
    simp only [qsearch.loop] at h
    split at h
    · exact ih _ _ _ _ h
    split at h
    · exact ih _ _ _ _ h
    split at h
    · cases h
    split at h
    · cases h
    split at h
    · cases h
    rename_i _ g1 hplay _ value g2 hsearch _ g3 hcancel
    have hk : g.Kept g3 := Globals.Kept.cancel D g g1 g2 g3
      (playMove_pushes D _ _ ss g g1 hplay) (playMove_mainHistory D _ _ ss g g1 hplay)
      (hself _ _ _ _ _ _ _ hsearch) hcancel
    split at h
    · exact Globals.Kept.trans g g3 _ hk (ih _ _ _ _ h)
    · exact Globals.Kept.trans g g3 _ hk (ih _ _ _ _ h)
    · simp only [Option.some.injEq] at h
      subst h
      exact hk
    · exact Globals.Kept.trans g g3 _ hk (ih _ _ _ _ h)

/-- The body of `qsearch` keeps the state when the recursive call does. -/
theorem qsearch_body_kept (D : Decls) (T : Clock) (self : QSearch) (nodeType : NodeType)
    (alpha beta : Value) (ss : Nat) (g g2 : Globals) (leave : Leave)
    (hself : ∀ nt a b s g v g2, self nt a b s g = some (v, g2) → g.Kept g2)
    (h : qsearch.body D T self nodeType alpha beta ss g = some (leave, g2)) : g.Kept g2 := by
  unfold qsearch.body at h
  simp only at h
  repeat' split at h
  all_goals first
    | (cases h; done)
    | (simp only [Option.some.injEq, Prod.mk.injEq] at h
       obtain ⟨-, rfl⟩ := h
       first
         | exact Globals.Kept.refl _
         | exact qsearch_loop_kept D T self nodeType beta _ ss hself _ _ _ _ _ (by assumption))

/-- The searches of one move keep the state when the calls of `negaMax` do. -/
theorem negaMax_searchMove_kept (D : Decls) (N : NegaMax) (nodeType : NodeType)
    (alpha beta : Value) (depth : Int) (cutNode wasInCheck improving : Bool)
    (playedMoves : Int) (ss : Nat) (g g2 : Globals) (v : Value)
    (hN : ∀ nt a b d c s g v g2, N nt a b d c s g = some (v, g2) → g.Kept g2)
    (h : negaMax.searchMove D N nodeType alpha beta depth cutNode wasInCheck improving
      playedMoves ss g = some (v, g2)) : g.Kept g2 := by
  unfold negaMax.searchMove at h
  simp only at h
  split at h
  · cases h
  rename_i value need gA hred
  have hA : g.Kept gA := by
    by_cases c : wasInCheck = false ∧ depth ≥ 3 ∧
        playedMoves > 1 + 2 * (if nodeType ≠ NodeType.NonPV then 1 else 0)
    · rw [if_pos c] at hred
      generalize hcall : N NodeType.NonPV _ _ _ _ _ _ = r at hred
      cases r with
      | none => cases hred
      | some p =>
        simp only [Option.some.injEq, Prod.mk.injEq] at hred
        obtain ⟨-, -, rfl⟩ := hred
        exact hN _ _ _ _ _ _ _ _ _ hcall
    · rw [if_neg c] at hred
      simp only [Option.some.injEq, Prod.mk.injEq] at hred
      obtain ⟨-, -, rfl⟩ := hred
      exact Globals.Kept.refl g
  split at h
  · cases h
  rename_i value2 gC hfull
  have hC : gA.Kept gC := by
    by_cases c : need = true
    · rw [if_pos c] at hfull
      generalize hcall : N NodeType.NonPV _ _ _ _ _ _ = r at hfull
      cases r with
      | none => cases hfull
      | some p =>
        simp only [Option.some.injEq, Prod.mk.injEq] at hfull
        obtain ⟨-, rfl⟩ := hfull
        exact hN _ _ _ _ _ _ _ _ _ hcall
    · rw [if_neg c] at hfull
      simp only [Option.some.injEq, Prod.mk.injEq] at hfull
      obtain ⟨-, rfl⟩ := hfull
      exact Globals.Kept.refl gA
  have hAC := Globals.Kept.trans g gA gC hA hC
  by_cases c : nodeType ≠ NodeType.NonPV ∧ (playedMoves = 0 ∨ value2 > alpha)
  · rw [if_pos c] at h
    generalize hcall : N NodeType.PV _ _ _ _ _ _ = r at h
    cases r with
    | none => cases h
    | some p =>
      simp only [Option.some.injEq, Prod.mk.injEq] at h
      obtain ⟨-, rfl⟩ := h
      exact Globals.Kept.trans g gC _ hAC (hN _ _ _ _ _ _ _ _ _ hcall)
  · rw [if_neg c] at h
    simp only [Option.some.injEq, Prod.mk.injEq] at h
    obtain ⟨-, rfl⟩ := h
    exact hAC

/-- The function `updatePV` touches no killer. -/
theorem updatePV_kept (ss : Nat) (move : Move) (g : Globals) : g.Kept (updatePV ss move g) := by
  refine Globals.Kept.of_eq _ _ rfl rfl rfl rfl (fun j => ?_)
  show (Function.update g.searchStack ss _ j).killers = _
  exact killers_update g.searchStack ss _ (by rfl) j

/-- The move loop of `negaMax` keeps the state when the calls of `negaMax` do. -/
theorem negaMax_loop_kept (D : Decls) (T : Clock) (N : NegaMax) (nodeType : NodeType)
    (beta : Value) (depth : Int) (cutNode wasInCheck improving : Bool) (ss : Nat)
    (hN : ∀ nt a b d c s g v g2, N nt a b d c s g = some (v, g2) → g.Kept g2) :
    ∀ (n i : Nat) (l : negaMax.Locals) (g : Globals) (l2 : negaMax.Locals) (g2 : Globals),
      negaMax.loop D T N nodeType beta depth cutNode wasInCheck improving ss n i l g =
        some (l2, g2) →
      g.Kept g2 := by
  intro n
  induction n with
  | zero =>
    intro i l g l2 g2 h
    simp only [negaMax.loop, Option.some.injEq, Prod.mk.injEq] at h
    rw [← h.2]
    exact Globals.Kept.refl g
  | succ n ih =>
    intro i l g l2 g2 h
    simp only [negaMax.loop] at h
    split at h
    · exact ih _ _ _ _ _ h
    split at h
    · exact ih _ _ _ _ _ h
    split at h
    · cases h
    split at h
    · cases h
    split at h
    · cases h
    rename_i _ g1 hplay _ value gA hsearch _ g3 hcancel
    have hk : g.Kept g3 := Globals.Kept.cancel D g g1 gA g3
      (playMove_pushes D _ _ ss g g1 hplay) (playMove_mainHistory D _ _ ss g g1 hplay)
      (negaMax_searchMove_kept D N nodeType _ beta depth cutNode wasInCheck improving _ ss g1
        gA value hN hsearch) hcancel
    generalize hg4 : (if nodeType = NodeType.Root then _ else g3) = g4 at h
    have hk4 : g.Kept g4 := by
      rw [← hg4]
      split_ifs
      · exact Globals.Kept.trans g g3 _ hk (Globals.Kept.of_eq _ _ rfl rfl rfl rfl (fun _ => rfl))
      · exact hk
    split at h
    · exact Globals.Kept.trans g g4 _ hk4 (ih _ _ _ _ _ h)
    · exact Globals.Kept.trans g g4 _ hk4 (ih _ _ _ _ _ h)
    · simp only [Option.some.injEq, Prod.mk.injEq] at h
      rw [← h.2]
      exact hk4
    · exact Globals.Kept.trans g (updatePV ss (nextBestMove l.moves i).1 g4) _
        (Globals.Kept.trans g g4 _ hk4 (updatePV_kept ss _ g4)) (ih _ _ _ _ _ h)

/-- The killer update of `negaMax` leaves distinct killers distinct; when it changes the killers
of `*ss` it puts a non-null `bestMove` different from the old `killers[0]` in front of it. -/
theorem negaMax.updateHistories_killers (D : Decls) (ss : Nat) (bestMove : Move)
    (bestValue beta : Value) (depth : Int) (g : Globals) :
    (∀ j, (g.searchStack j).KillersDistinct →
      ((negaMax.updateHistories D ss bestMove bestValue beta depth g).searchStack
        j).KillersDistinct) ∧
    (∀ j, ((negaMax.updateHistories D ss bestMove bestValue beta depth g).searchStack j).killers =
        (g.searchStack j).killers ∨
      (j = ss ∧ bestMove ≠ MOVE_NONE ∧ bestMove ≠ (g.searchStack ss).killers 0 ∧
        ((negaMax.updateHistories D ss bestMove bestValue beta depth g).searchStack ss).killers 0
          = bestMove ∧
        ((negaMax.updateHistories D ss bestMove bestValue beta depth g).searchStack ss).killers 1
          = (g.searchStack ss).killers 0)) ∧
    (negaMax.updateHistories D ss bestMove bestValue beta depth g).ply = g.ply ∧
    (negaMax.updateHistories D ss bestMove bestValue beta depth g).position = g.position ∧
    (negaMax.updateHistories D ss bestMove bestValue beta depth g).posStack = g.posStack := by
  unfold negaMax.updateHistories
  simp only
  by_cases c1 : bestMove ≠ MOVE_NONE ∧ D.isQuiet g.position bestMove = true
  · rw [if_pos c1]
    by_cases c2 : bestMove ≠ (g.searchStack ss).killers 0
    · rw [if_pos c2]
      refine ⟨?_, ?_, rfl, rfl, rfl⟩
      · intro j hj
        by_cases hjs : j = ss
        · subst hjs
          left
          simp only [Function.update_same]
          rw [Function.update_noteq (by decide), Function.update_same]
          exact c2
        · simp only [Function.update_noteq hjs]
          exact hj
      · intro j
        by_cases hjs : j = ss
        · subst hjs
          right
          refine ⟨rfl, c1.1, c2, ?_, ?_⟩
          · simp only [Function.update_same]
          · simp only [Function.update_same]
            rw [Function.update_noteq (by decide), Function.update_same]
        · left
          simp only [Function.update_noteq hjs]
    · rw [if_neg c2]
      exact ⟨fun _ h => h, fun _ => Or.inl rfl, rfl, rfl, rfl⟩
  · rw [if_neg c1]
    exact ⟨fun _ h => h, fun _ => Or.inl rfl, rfl, rfl, rfl⟩

/-- The preamble of `negaMax` keeps the state: it writes `selDepth`, `ss->pvLength` and the
killers of `ss + 1`, which it resets. -/
theorem negaMax.enter_kept (D : Decls) (nodeType : NodeType) (alpha beta : Value) (ss : Nat)
    (g : Globals) :
    (∀ v g1, negaMax.enter D nodeType alpha beta ss g = .leave v g1 → g.Kept g1) ∧
    (∀ a b g1, negaMax.enter D nodeType alpha beta ss g = .proceed a b g1 →
      g.Kept g1 ∧ (g1.searchStack (ss + 1)).killers 0 = MOVE_NONE ∧
        (g1.searchStack (ss + 1)).killers 1 = MOVE_NONE) := by
  have key : ∀ (s : Nat → SearchInfo) (x : SearchInfo), x.killers = (s ss).killers →
      ∀ j, (s j).KillersDistinct →
        ((Function.update (Function.update s ss x) (ss + 1)
          { (Function.update s ss x) (ss + 1) with
            killers := Function.update
              (Function.update ((Function.update s ss x) (ss + 1)).killers 0 MOVE_NONE) 1
              MOVE_NONE }) j).KillersDistinct := by
    intro s x hx j hj
    by_cases h1 : j = ss + 1
    · subst h1
      right
      simp only [Function.update_same]
      exact ⟨Function.update_noteq (by decide) _ _, trivial⟩
    · rw [Function.update_noteq h1]
      unfold SearchInfo.KillersDistinct at hj ⊢
      rw [killers_update s ss x hx j]
      exact hj
  unfold negaMax.enter
  simp only
  refine ⟨?_, ?_⟩
  · intro v g1 h
    split_ifs at h
    all_goals
      simp only [negaMax.Entered.leave.injEq] at h
      obtain ⟨-, rfl⟩ := h
      first
        | exact Globals.Kept.refl g
        | exact Globals.Kept.of_eq _ _ rfl rfl rfl rfl
            (fun j => killers_update g.searchStack ss _ (by rfl) j)
        | exact ⟨rfl, rfl, fun _ _ => rfl, fun j hj => key g.searchStack _ (by rfl) j hj,
            fun h => h⟩
        | exact ⟨rfl, rfl, fun _ _ => rfl,
            fun j hj => by
              have := key g.searchStack (g.searchStack ss) rfl j hj
              rw [Function.update_eq_self] at this
              exact this,
            fun h => h⟩
  · intro a b g1 h
    split_ifs at h
    all_goals
      simp only [negaMax.Entered.proceed.injEq] at h
      obtain ⟨-, -, rfl⟩ := h
      refine ⟨?_, ?_, ?_⟩
      · first
          | exact ⟨rfl, rfl, fun _ _ => rfl, fun j hj => key g.searchStack _ (by rfl) j hj,
            fun h => h⟩
          | exact ⟨rfl, rfl, fun _ _ => rfl,
              fun j hj => by
                have := key g.searchStack (g.searchStack ss) rfl j hj
                rw [Function.update_eq_self] at this
                exact this,
              fun h => h⟩
      · simp only [Function.update_same]
        exact Function.update_noteq (by decide) _ _
      · simp only [Function.update_same]

/-- The statements of `negaMax` from `moves_loop` on keep the state when the calls of `negaMax`
do. -/
theorem negaMax_searchMoves_kept (D : Decls) (T : Clock) (N : NegaMax) (nodeType : NodeType)
    (cutNode : Bool) (ss : Nat) (node : negaMax.Node) (g g2 : Globals) (leave : Leave)
    (hN : ∀ nt a b d c s g v g2, N nt a b d c s g = some (v, g2) → g.Kept g2)
    (h : negaMax.searchMoves D T N nodeType cutNode ss node g = some (leave, g2)) :
    g.Kept g2 := by
  unfold negaMax.searchMoves at h
  simp only at h
  generalize hg0 : (if nodeType = NodeType.Root then _ else g) = g0 at h
  have hk0 : g.Kept g0 := by
    rw [← hg0]
    split_ifs
    · exact Globals.Kept.of_eq _ _ rfl rfl rfl rfl (fun _ => rfl)
    · exact Globals.Kept.refl g
  split at h
  · cases h
  rename_i l g3 hloop
  have hk3 : g.Kept g3 := Globals.Kept.trans g g0 g3 hk0
    (negaMax_loop_kept D T N nodeType _ _ cutNode _ _ ss hN _ _ _ _ _ _ hloop)
  split at h
  · simp only [Option.some.injEq, Prod.mk.injEq] at h
    obtain ⟨-, rfl⟩ := h
    exact hk3
  · simp only [Option.some.injEq, Prod.mk.injEq] at h
    obtain ⟨-, rfl⟩ := h
    obtain ⟨u1, -, u3, u4, u5⟩ := negaMax.updateHistories_killers D ss l.bestMove l.bestValue
      node.beta node.depth g3
    exact Globals.Kept.trans g g3 _ hk3 ⟨u3, u4, fun i _ => by rw [u5], u1,
      negaMax.updateHistories_bounded D g3 ss l.bestMove l.bestValue node.beta node.depth⟩

/-- Writing `ss->staticEval` keeps the state. -/
theorem staticEval_kept (g : Globals) (ss : Nat) (ev : Value) :
    g.Kept { g with
      searchStack := Function.update g.searchStack ss { g.searchStack ss with staticEval := ev } }
    := by
  refine Globals.Kept.of_eq _ _ rfl rfl rfl rfl (fun j => ?_)
  exact killers_update g.searchStack ss _ (by rfl) j

/-- The function `negaMax.pruneQuiet` in terms of its razoring and null move blocks. -/
theorem negaMax.pruneQuiet_eq (D : Decls) (T : Clock) (N : NegaMax) (Q : QSearch)
    (nodeType : NodeType) (alpha beta : Value) (depth : Int) (cutNode : Bool) (ss : Nat)
    (slot : Nat) (ttHit : Bool) (ttMove : Move) (g : Globals) :
    negaMax.pruneQuiet D T N Q nodeType alpha beta depth cutNode ss slot ttHit ttMove g =
      (let eval := negaMax.staticEval D (g.tt.entries slot) ttHit
        (D.evaluate g.position (g.accumulatorStack g.ply))
      let g0 : Globals := { g with
        searchStack :=
          Function.update g.searchStack ss { g.searchStack ss with staticEval := eval } }
      let improving : Bool :=
        if (g0.searchStack (ss - 2)).staticEval ≠ D.VALUE_NONE then
          decide (eval > (g0.searchStack (ss - 2)).staticEval)
        else if (g0.searchStack (ss - 4)).staticEval ≠ D.VALUE_NONE then
          decide (eval > (g0.searchStack (ss - 4)).staticEval)
        else false
      match negaMax.razoring Q alpha depth ss eval g0 with
      | none => none
      | some (some value, g1) => some (.leave value g1)
      | some (none, g1) =>
        if nodeType = NodeType.NonPV ∧ depth < 9 ∧ |eval| < D.VALUE_TB_WIN_IN_MAX_PLY ∧
            eval ≥ beta ∧ eval + 120 * (if improving then 1 else 0) - 140 * depth ≥ beta then
          some (.leave eval g1)
        else
          match negaMax.nullMove D T N nodeType beta depth cutNode ss eval g1 with
          | none => none
          | some (some value, g2) => some (.leave value g2)
          | some (none, g2) =>
            some (.moves
              { alpha := alpha, beta := beta,
                depth := if cutNode = true ∧ depth ≥ 4 ∧ ttMove = MOVE_NONE then depth - 2
                  else depth,
                ttMove := ttMove, improving := improving, slot := slot } g2)) :=
  rfl

/-- The razoring block keeps the state when `qsearch` does. -/
theorem negaMax.razoring_kept (Q : QSearch) (alpha : Value) (depth : Int) (ss : Nat)
    (eval : Value) (g gA : Globals) (x : Option Value)
    (hQ : ∀ nt a b s g v g2, Q nt a b s g = some (v, g2) → g.Kept g2)
    (h : negaMax.razoring Q alpha depth ss eval g = some (x, gA)) : g.Kept gA := by
  unfold negaMax.razoring at h
  by_cases c : eval < alpha - 400 - 500 * depth
  · rw [if_pos c] at h
    generalize hcall : Q NodeType.NonPV _ _ _ _ = r at h
    cases r with
    | none => cases h
    | some p =>
      simp only at h
      split at h <;>
        (simp only [Option.some.injEq, Prod.mk.injEq] at h
         obtain ⟨-, rfl⟩ := h
         exact hQ _ _ _ _ _ _ _ hcall)
  · rw [if_neg c] at h
    simp only [Option.some.injEq, Prod.mk.injEq] at h
    rw [← h.2]
    exact Globals.Kept.refl g

/-- The null move block keeps the state when `negaMax` does. -/
theorem negaMax.nullMove_kept (D : Decls) (T : Clock) (N : NegaMax) (nodeType : NodeType)
    (beta : Value) (depth : Int) (cutNode : Bool) (ss : Nat) (eval : Value) (g gA : Globals)
    (x : Option Value)
    (hN : ∀ nt a b d c s g v g2, N nt a b d c s g = some (v, g2) → g.Kept g2)
    (h : negaMax.nullMove D T N nodeType beta depth cutNode ss eval g = some (x, gA)) :
    g.Kept gA := by
  unfold negaMax.nullMove at h
  split_ifs at h with c
  · simp only at h
    generalize hplay : playNullMove D _ ss g = r1 at h
    cases r1 with
    | none => cases h
    | some g1 =>
      simp only at h
      generalize hcall : N NodeType.NonPV _ _ _ _ _ g1 = r2 at h
      cases r2 with
      | none => cases h
      | some p =>
        simp only at h
        generalize hcancel : cancelMove D p.2 = r3 at h
        cases r3 with
        | none => cases h
        | some g3 =>
          have hk : g.Kept g3 := Globals.Kept.cancel D g g1 p.2 g3
            (playNullMove_pushes D _ ss g g1 hplay) (playNullMove_mainHistory D _ ss g g1 hplay)
            (hN _ _ _ _ _ _ _ _ _ hcall) hcancel
          simp only at h
          split at h <;>
            (simp only [Option.some.injEq, Prod.mk.injEq] at h
             rw [← h.2]
             exact hk)
  · simp only [Option.some.injEq, Prod.mk.injEq] at h
    rw [← h.2]
    exact Globals.Kept.refl g

/-- A return before `moves_loop` with kept globals. -/
theorem negaMax.Pruned.leave_kept (g gX : Globals) (value : Value) (hk : g.Kept gX) :
    (∀ v g2, negaMax.Pruned.leave value gX = .leave v g2 → g.Kept g2) ∧
      (∀ node g2, negaMax.Pruned.leave value gX = .moves node g2 → g.Kept g2) := by
  refine ⟨fun v g2 e => ?_, fun node g2 e => by cases e⟩
  simp only [negaMax.Pruned.leave.injEq] at e
  rw [← e.2]
  exact hk

/-- An arrival at `moves_loop` with kept globals. -/
theorem negaMax.Pruned.moves_kept (g gX : Globals) (nd : negaMax.Node) (hk : g.Kept gX) :
    (∀ v g2, negaMax.Pruned.moves nd gX = .leave v g2 → g.Kept g2) ∧
      (∀ node g2, negaMax.Pruned.moves nd gX = .moves node g2 → g.Kept g2) := by
  refine ⟨fun v g2 e => (by cases e), fun node g2 e => ?_⟩
  simp only [negaMax.Pruned.moves.injEq] at e
  rw [← e.2]
  exact hk

/-- The pruning statements of `negaMax` keep the state when the calls of `negaMax` and `qsearch`
do. -/
theorem negaMax_pruneQuiet_kept (D : Decls) (T : Clock) (N : NegaMax) (Q : QSearch)
    (nodeType : NodeType) (alpha beta : Value) (depth : Int) (cutNode : Bool) (ss : Nat)
    (slot : Nat) (ttHit : Bool) (ttMove : Move) (g : Globals) (res : negaMax.Pruned)
    (hN : ∀ nt a b d c s g v g2, N nt a b d c s g = some (v, g2) → g.Kept g2)
    (hQ : ∀ nt a b s g v g2, Q nt a b s g = some (v, g2) → g.Kept g2)
    (h : negaMax.pruneQuiet D T N Q nodeType alpha beta depth cutNode ss slot ttHit ttMove g =
      some res) :
    (∀ v g2, res = .leave v g2 → g.Kept g2) ∧ (∀ node g2, res = .moves node g2 → g.Kept g2) := by
  rw [negaMax.pruneQuiet_eq] at h
  simp only at h
  generalize hr : negaMax.razoring Q alpha depth ss _ _ = r at h
  rcases r with _ | ⟨_ | v1, gA⟩
  · cases h
  · have hA : g.Kept gA := Globals.Kept.trans g _ gA (staticEval_kept g ss _)
      (negaMax.razoring_kept Q alpha depth ss _ _ gA _ hQ hr)
    simp only at h
    generalize hr2 : negaMax.nullMove D T N nodeType beta depth cutNode ss _ gA = r2 at h
    rcases r2 with _ | ⟨_ | v2, gB⟩
    · simp only at h
      repeat' split at h
      all_goals first
        | (cases h; done)
        | (simp only [Option.some.injEq] at h
           subst h
           exact negaMax.Pruned.leave_kept g gA _ hA)
    · have hB : g.Kept gB := Globals.Kept.trans g gA gB hA
        (negaMax.nullMove_kept D T N nodeType beta depth cutNode ss _ gA gB _ hN hr2)
      simp only at h
      repeat' split at h
      all_goals
        simp only [Option.some.injEq] at h
        subst h
        first
          | exact negaMax.Pruned.leave_kept g gA _ hA
          | exact negaMax.Pruned.moves_kept g gB _ hB
    · have hB : g.Kept gB := Globals.Kept.trans g gA gB hA
        (negaMax.nullMove_kept D T N nodeType beta depth cutNode ss _ gA gB _ hN hr2)
      simp only at h
      repeat' split at h
      all_goals
        simp only [Option.some.injEq] at h
        subst h
        first
          | exact negaMax.Pruned.leave_kept g gA _ hA
          | exact negaMax.Pruned.leave_kept g gB _ hB
  · have hA : g.Kept gA := Globals.Kept.trans g _ gA (staticEval_kept g ss _)
      (negaMax.razoring_kept Q alpha depth ss _ _ gA _ hQ hr)
    simp only [Option.some.injEq] at h
    subst h
    exact negaMax.Pruned.leave_kept g gA _ hA

/-- The statements of `negaMax` from the probe to `moves_loop` keep the state when the calls of
`negaMax` and `qsearch` do. -/
theorem negaMax_prune_kept (D : Decls) (T : Clock) (N : NegaMax) (Q : QSearch)
    (nodeType : NodeType) (alpha beta : Value) (depth : Int) (cutNode : Bool) (ss : Nat)
    (g : Globals) (res : negaMax.Pruned)
    (hN : ∀ nt a b d c s g v g2, N nt a b d c s g = some (v, g2) → g.Kept g2)
    (hQ : ∀ nt a b s g v g2, Q nt a b s g = some (v, g2) → g.Kept g2)
    (h : negaMax.prune D T N Q nodeType alpha beta depth cutNode ss g = some res) :
    (∀ v g2, res = .leave v g2 → g.Kept g2) ∧ (∀ node g2, res = .moves node g2 → g.Kept g2) := by
  unfold negaMax.prune at h
  split at h
  · cases h
  rename_i slot ttHit hprobe
  generalize negaMax.afterProbe D nodeType g (g.tt.entries slot) ttHit alpha beta depth = ap at h
  cases ap with
  | ttCutoff ttValue =>
    simp only [Option.some.injEq] at h
    subst h
    exact negaMax.Pruned.leave_kept g g _ (Globals.Kept.refl g)
  | quiescence a b =>
    simp only at h
    generalize hcall : Q _ a b ss g = r at h
    cases r with
    | none => cases h
    | some p =>
      simp only [Option.some.injEq] at h
      subst h
      exact negaMax.Pruned.leave_kept g p.2 _ (hQ _ _ _ _ _ _ _ hcall)
  | search d f v m =>
    simp only at h
    by_cases c : g.position.checkers ≠ 0
    · rw [if_pos c] at h
      simp only [Option.some.injEq] at h
      subst h
      exact negaMax.Pruned.moves_kept g _ _ (staticEval_kept g ss _)
    · rw [if_neg c] at h
      exact negaMax_pruneQuiet_kept D T N Q nodeType alpha beta d cutNode ss slot ttHit m g res
        hN hQ h

/-- The body of `negaMax` keeps the state when the calls of `negaMax` and `qsearch` do. -/
theorem negaMax_body_kept (D : Decls) (T : Clock) (N : NegaMax) (Q : QSearch)
    (nodeType : NodeType) (alpha beta : Value) (depth : Int) (cutNode : Bool) (ss : Nat)
    (g g2 : Globals) (leave : Leave)
    (hN : ∀ nt a b d c s g v g2, N nt a b d c s g = some (v, g2) → g.Kept g2)
    (hQ : ∀ nt a b s g v g2, Q nt a b s g = some (v, g2) → g.Kept g2)
    (h : negaMax.body D T N Q nodeType alpha beta depth cutNode ss g = some (leave, g2)) :
    g.Kept g2 := by
  unfold negaMax.body at h
  obtain ⟨e1, e2⟩ := negaMax.enter_kept D nodeType alpha beta ss g
  generalize hent : negaMax.enter D nodeType alpha beta ss g = ent at h e1 e2
  cases ent with
  | leave value g1 =>
    simp only [Option.some.injEq, Prod.mk.injEq] at h
    rw [← h.2]
    exact e1 value g1 rfl
  | proceed a b g1 =>
    simp only at h
    have hk1 := (e2 a b g1 rfl).1
    generalize hpr : negaMax.prune D T N Q nodeType a b depth cutNode ss g1 = pr at h
    cases pr with
    | none => cases h
    | some res =>
      obtain ⟨p1, p2⟩ := negaMax_prune_kept D T N Q nodeType a b depth cutNode ss g1 res hN hQ
        hpr
      cases res with
      | leave value g3 =>
        simp only [Option.some.injEq, Prod.mk.injEq] at h
        rw [← h.2]
        exact Globals.Kept.trans g g1 g3 hk1 (p1 value g3 rfl)
      | moves node g3 =>
        simp only at h
        exact Globals.Kept.trans g g3 g2 (Globals.Kept.trans g g1 g3 hk1 (p2 node g3 rfl))
          (negaMax_searchMoves_kept D T N nodeType cutNode ss node g3 g2 leave hN h)

/-- Every call of `qsearch` and of `negaMax` that returns keeps the state. -/
theorem search_kept (D : Decls) (T : Clock) :
    ∀ fuel : Nat,
      (∀ nt a b s g v g2, qsearch D T fuel nt a b s g = some (v, g2) → g.Kept g2) ∧
      (∀ nt a b d c s g v g2, negaMax D T fuel nt a b d c s g = some (v, g2) → g.Kept g2) := by
  intro fuel
  induction fuel with
  | zero =>
    exact ⟨fun _ _ _ _ _ _ _ h => (by cases h), fun _ _ _ _ _ _ _ _ _ h => (by cases h)⟩
  | succ fuel ih =>
    refine ⟨?_, ?_⟩
    · intro nt a b s g v g2 h
      simp only [qsearch] at h
      obtain ⟨⟨leave, g1⟩, hb, hf⟩ := Option.map_eq_some'.mp h
      have hk := qsearch_body_kept D T _ nt a b s g g1 leave ih.1 hb
      have hf2 := Leave.finish_kept leave g1
      rw [hf] at hf2
      exact Globals.Kept.trans g g1 g2 hk hf2
    · intro nt a b d c s g v g2 h
      simp only [negaMax] at h
      obtain ⟨⟨leave, g1⟩, hb, hf⟩ := Option.map_eq_some'.mp h
      have hk := negaMax_body_kept D T _ _ nt a b d c s g g1 leave ih.2 ih.1 hb
      have hf2 := Leave.finish_kept leave g1
      rw [hf] at hf2
      exact Globals.Kept.trans g g1 g2 hk hf2

/-- Claim C21: every call of `negaMax` and of `qsearch` that returns, by whatever path, returns
with `ply` and `position` equal to their values at entry, and with `posStack` below `ply` as it
was: each `playMove` or `playNullMove` made inside the call (one more ply) has been undone by
its `cancelMove` (one ply less, the position taken back from `posStack`). -/
theorem search_restores_position (D : Decls) (T : Clock) (fuel : Nat) :
    (∀ nodeType alpha beta depth cutNode ss g v g2,
      negaMax D T fuel nodeType alpha beta depth cutNode ss g = some (v, g2) →
      g2.ply = g.ply ∧ g2.position = g.position ∧
        ∀ i, i < g.ply → g2.posStack i = g.posStack i) ∧
    (∀ nodeType alpha beta ss g v g2,
      qsearch D T fuel nodeType alpha beta ss g = some (v, g2) →
      g2.ply = g.ply ∧ g2.position = g.position ∧
        ∀ i, i < g.ply → g2.posStack i = g.posStack i) := by
  obtain ⟨hq, hn⟩ := search_kept D T fuel
  refine ⟨?_, ?_⟩
  · intro nodeType alpha beta depth cutNode ss g v g2 h
    obtain ⟨k1, k2, k3, -⟩ := hn nodeType alpha beta depth cutNode ss g v g2 h
    exact ⟨k1, k2, k3⟩
  · intro nodeType alpha beta ss g v g2 h
    obtain ⟨k1, k2, k3, -⟩ := hq nodeType alpha beta ss g v g2 h
    exact ⟨k1, k2, k3⟩

/-- Witness of C21: the NonPV call of depth 1 on the quiet sample state, which plays and cancels
its single move and drops into `qsearch` below it, returns at ply 2 on the position with
key 78. -/
theorem search_restores_position_witness :
    (negaMax soundDecls sampleClock 3 NodeType.NonPV (-1) 0 1 false 4 stalemateGlobals).map
      (fun r => (r.2.ply, r.2.position.key)) = some (2, 78) := by
  have hs : (negaMax soundDecls sampleClock 3 NodeType.NonPV (-1) 0 1 false 4
      stalemateGlobals).isSome = true := by decide!
  obtain ⟨⟨v, g2⟩, hr⟩ := Option.isSome_iff_exists.mp hs
  obtain ⟨h1, h2, -⟩ := (search_restores_position soundDecls sampleClock 3).1 NodeType.NonPV
    (-1) 0 1 false 4 stalemateGlobals v g2 hr
  rw [hr]
  show some (g2.ply, g2.position.key) = some (2, 78)
  rw [h1, h2]
  rfl

/-! ### The killers -/

/-- Claim C22: the two killers of a search-stack slot are never the same real move. The
predicate holds for every slot after the reset of `startSearch`, and for the slot `ss + 1` after
the reset of `negaMax`, which leaves the predicate of the other slots as it was; the killer
update of `negaMax` preserves it and changes killers only by putting a non-null `bestMove`
different from `killers[0]` in front of the old `killers[0]`; hence every call of `negaMax`
that returns preserves it in every slot. With such killers `scoreMoves` adds at most one of the
two killer bonuses to a move other than `MOVE_NONE`: its score is the score computed with one
of the two killers replaced by `MOVE_NONE`. -/
theorem killers_distinct (D : Decls) :
    (∀ s i, i < D.MAX_PLY + SsOffset → (startSearch.resetStack D s i).KillersDistinct) ∧
    (∀ nodeType alpha beta ss g a b g1,
      negaMax.enter D nodeType alpha beta ss g = .proceed a b g1 →
      (g1.searchStack (ss + 1)).KillersDistinct ∧
        ∀ j, (g.searchStack j).KillersDistinct → (g1.searchStack j).KillersDistinct) ∧
    (∀ ss bestMove bestValue beta depth g,
      (∀ j, (g.searchStack j).KillersDistinct →
        ((negaMax.updateHistories D ss bestMove bestValue beta depth g).searchStack
          j).KillersDistinct) ∧
      (∀ j,
        ((negaMax.updateHistories D ss bestMove bestValue beta depth g).searchStack j).killers =
          (g.searchStack j).killers ∨
        (j = ss ∧ bestMove ≠ MOVE_NONE ∧ bestMove ≠ (g.searchStack ss).killers 0 ∧
          ((negaMax.updateHistories D ss bestMove bestValue beta depth g).searchStack
            ss).killers 0 = bestMove ∧
          ((negaMax.updateHistories D ss bestMove bestValue beta depth g).searchStack
            ss).killers 1 = (g.searchStack ss).killers 0))) ∧
    (∀ T fuel nodeType alpha beta depth cutNode ss g v g2,
      negaMax D T fuel nodeType alpha beta depth cutNode ss g = some (v, g2) →
      ∀ j, (g.searchStack j).KillersDistinct → (g2.searchStack j).KillersDistinct) ∧
    (∀ position mainHistory (ml : MoveList) ttMove (info : SearchInfo) k,
      info.KillersDistinct → k < ml.size → ml.moves k ≠ MOVE_NONE →
      ¬ (ml.moves k = info.killers 0 ∧ ml.moves k = info.killers 1) ∧
        ((scoreMoves D position mainHistory ml ttMove info).scores k =
            scoreMoves.score D position mainHistory ttMove (info.killers 0) MOVE_NONE
              (ml.moves k) ∨
          (scoreMoves D position mainHistory ml ttMove info).scores k =
            scoreMoves.score D position mainHistory ttMove MOVE_NONE (info.killers 1)
              (ml.moves k))) := by
  refine ⟨?_, ?_, ?_, ?_, ?_⟩
  · intro s i hi
    right
    unfold startSearch.resetStack
    rw [if_pos hi]
    refine ⟨?_, ?_⟩
    · show Function.update (Function.update (s i).killers 0 MOVE_NONE) 1 MOVE_NONE 0 = MOVE_NONE
      rw [Function.update_noteq (by decide), Function.update_same]
    · show Function.update (Function.update (s i).killers 0 MOVE_NONE) 1 MOVE_NONE 1 = MOVE_NONE
      rw [Function.update_same]
  · intro nodeType alpha beta ss g a b g1 h
    obtain ⟨⟨-, -, -, k4, -⟩, r0, r1⟩ :=
      (negaMax.enter_kept D nodeType alpha beta ss g).2 a b g1 h
    exact ⟨Or.inr ⟨r0, r1⟩, k4⟩
  · intro ss bestMove bestValue beta depth g
    obtain ⟨u1, u2, -⟩ := negaMax.updateHistories_killers D ss bestMove bestValue beta depth g
    exact ⟨u1, u2⟩
  · intro T fuel nodeType alpha beta depth cutNode ss g v g2 h
    exact ((search_kept D T fuel).2 nodeType alpha beta depth cutNode ss g v g2 h).2.2.2.1
  · intro position mainHistory ml ttMove info k hkd hk hm
    have hnot : ¬ (ml.moves k = info.killers 0 ∧ ml.moves k = info.killers 1) := by
      rintro ⟨e0, e1⟩
      rcases hkd with hne | ⟨h0, -⟩
      · exact hne (e0.symm.trans e1)
      · exact hm (e0.trans h0)
    refine ⟨hnot, ?_⟩
    have hs := (scoreMoves.loop_spec D position mainHistory ttMove (info.killers 0)
      (info.killers 1) ml.size 0 ml).2.2 k
    rw [if_pos ⟨Nat.zero_le _, by omega⟩] at hs
    have hs2 : (scoreMoves D position mainHistory ml ttMove info).scores k =
        scoreMoves.score D position mainHistory ttMove (info.killers 0) (info.killers 1)
          (ml.moves k) := hs
    rw [hs2]
    by_cases e1 : ml.moves k = info.killers 1
    · right
      have e0 : ml.moves k ≠ info.killers 0 := fun e0 => hnot ⟨e0, e1⟩
      unfold scoreMoves.score
      simp only [e0, hm, if_false]
    · left
      unfold scoreMoves.score
      simp only [e1, hm, if_false]

/-- Witness of C22: with the killers 70 and 5, the quiet move 70 of a one-move list gets one
killer bonus at most: its score is 40 (the first bonus) or 0, not 60. -/
theorem killers_distinct_witness :
    killerInfo.KillersDistinct ∧
      ((scoreMoves sampleDecls samplePosition (fun _ _ => 0)
          { moves := fun _ => 70, scores := fun _ => 0, size := 1 } 0 killerInfo).scores 0 = 40 ∨
        (scoreMoves sampleDecls samplePosition (fun _ _ => 0)
          { moves := fun _ => 70, scores := fun _ => 0, size := 1 } 0 killerInfo).scores 0 = 0)
    := by
  have hkd : killerInfo.KillersDistinct := Or.inl (by decide)
  refine ⟨hkd, ?_⟩
  rcases ((killers_distinct sampleDecls).2.2.2.2 samplePosition (fun _ _ => 0)
    { moves := fun _ => 70, scores := fun _ => 0, size := 1 } 0 killerInfo 0 hkd (by decide)
    (by decide)).2 with h | h
  · left
    rw [h]
    decide
  · right
    rw [h]
    decide

/-! ### The transposition table cutoff of the whole function -/

/-- Claim C9 as stated fails at a node in check. The NonPV call of depth 3 with the window
(49, 50) on a state in check reaches the probe with its window unchanged and hits a lower bound
of stored depth 3 >= 3 and value 100 >= 50, whose flag passes the test; the depth is first
extended to 4, the cutoff test `3 >= 4` fails, and `negaMax` goes on to the move loop and
returns the mate score -31998 instead of 100. -/
theorem negaMax_ttCutoff_in_check_counterexample :
    cutoffCheckGlobals.position.checkers ≠ 0 ∧
      (match negaMax.enter sampleDecls NodeType.NonPV 49 50 4 cutoffCheckGlobals with
        | .proceed a b _ => some (a, b)
        | .leave _ _ => none) = some (49, 50) ∧
      TT.probe cutoffCheckGlobals.tt cutoffCheckGlobals.position.key = some (78, true) ∧
      (cutoffCheckGlobals.tt.entries 78).depth ≥ 3 ∧
      (cutoffCheckGlobals.tt.entries 78).value = 100 ∧
      (cutoffCheckGlobals.tt.entries 78).flag.bits &&&
        (flagForTT (decide ((cutoffCheckGlobals.tt.entries 78).value ≥ 50))).bits ≠ 0 ∧
      (negaMax sampleDecls sampleClock 1 NodeType.NonPV 49 50 3 false 4
        cutoffCheckGlobals).map Prod.fst = some (-31998) := by
  refine ⟨by decide, by decide, by decide, by decide, by decide, by decide, by decide!⟩

/-- Claim C9, amended: at a NonPV node that reaches the probe (`negaMax.enter` ends in
`proceed` with the window `(a, b)` left by mate-distance pruning), if the probe hits an entry
whose stored depth is >= the depth after the check extension (the depth argument when not in
check, max(1, depth + 1) when in check) and whose flag satisfies
ttFlag & flagForTT(ttValue >= b) != 0, then `negaMax` returns ttValue, and it returns in the
state in which it reached the probe: no move is played (`nodesSearched`, `ply` and the position
are those of the call), and the table and the history are untouched. -/
theorem negaMax_ttCutoff (D : Decls) (T : Clock) (fuel : Nat) (alpha beta a b : Value)
    (depth : Int) (cutNode : Bool) (ss slot : Nat) (g g1 : Globals)
    (henter : negaMax.enter D NodeType.NonPV alpha beta ss g = .proceed a b g1)
    (hprobe : TT.probe g.tt g.position.key = some (slot, true))
    (hdepth : (g.tt.entries slot).depth ≥
      (if g.position.checkers ≠ 0 then max 1 (depth + 1) else depth))
    (hflag : (g.tt.entries slot).flag.bits &&&
      (flagForTT (decide ((g.tt.entries slot).value ≥ b))).bits ≠ 0) :
    negaMax D T (fuel + 1) NodeType.NonPV alpha beta depth cutNode ss g =
        some ((g.tt.entries slot).value, g1) ∧
      g1.nodesSearched = g.nodesSearched ∧ g1.ply = g.ply ∧ g1.position = g.position ∧
      g1.tt = g.tt ∧ g1.mainHistory = g.mainHistory := by
  obtain ⟨e1, e2, e3, -, e5, e6, -⟩ :=
    negaMax.enter_proceed D NodeType.NonPV alpha beta a b ss g g1 henter
  refine ⟨?_, e5, e2, e1, e3, e6⟩
  have hcut := negaMax.afterProbe_cutoff D g1 (g.tt.entries slot) a b depth
    (by rw [e1]; exact hdepth) hflag
  simp only [negaMax, negaMax.body, henter, negaMax.prune, e3, e1, hprobe, hcut, Option.map_some',
    Leave.finish]

/-- Witness of the amended C9: not in check, the NonPV call of depth 3 with the window (49, 50)
hits the lower bound of stored depth 3 and value 100 and returns 100. -/
theorem negaMax_ttCutoff_witness :
    (negaMax sampleDecls sampleClock 1 NodeType.NonPV 49 50 3 false 4 cutoffGlobals).map
      Prod.fst = some 100 := by
  rw [(negaMax_ttCutoff sampleDecls sampleClock 0 49 50 49 50 3 false 4 78 cutoffGlobals
    { cutoffGlobals with
      searchStack := Function.update cutoffGlobals.searchStack 5
        { cutoffGlobals.searchStack 5 with
          killers := Function.update
            (Function.update (cutoffGlobals.searchStack 5).killers 0 MOVE_NONE) 1 MOVE_NONE } }
    (by rfl) (by decide) (by decide) (by decide)).1]
  rfl

/-! ### The history bound in every reachable state -/

/-- Claim C12: every entry of mainHistory stays in [-12000, 12000] in every reachable state.
The table left by `clear()` is all zero. The decay at the start of `startSearch` replaces each
entry of the two colours by its quotient by 5 truncated toward zero, leaves the others, and
preserves the bound. The history update of `negaMax` writes, for a quiet best move, the entry
of the side to move and of `fromTo(bestMove)` with the old entry plus the bonus, clamped to
[-12000, 12000]; it leaves every other entry, writes nothing for another best move, and
preserves the bound for every depth, best move and score; for 1 <= d <= 32764 (no `int`
overflow) the bonus `stat_bonus(d)` is min(2*d*d + 16*d, 1000). Every call of `negaMax` and of
`qsearch` that returns preserves the bound, and so every table reached from `clear()` by
decays and calls of the search is within the bound. -/
theorem mainHistory_bounded (D : Decls) (T : Clock) :
    (∀ c i, clearedHistory c i = 0) ∧
    (∀ h : Nat → Nat → Int,
      (∀ c i, c ≤ 1 → i < 4096 → startSearch.decayHistory h c i = (h c i).tdiv 5) ∧
      (∀ c i, ¬ (c ≤ 1 ∧ i < 4096) → startSearch.decayHistory h c i = h c i) ∧
      ((∀ c i, -12000 ≤ h c i ∧ h c i ≤ 12000) →
        ∀ c i, -12000 ≤ startSearch.decayHistory h c i ∧
          startSearch.decayHistory h c i ≤ 12000)) ∧
    (∀ (g : Globals) (ss : Nat) (bestMove : Move) (bestValue beta : Value) (depth : Int),
      (bestMove ≠ MOVE_NONE → D.isQuiet g.position bestMove = true →
        (negaMax.updateHistories D ss bestMove bestValue beta depth g).mainHistory
            g.position.sideToMove (fromTo D bestMove) =
          myClamp (wrapInt (g.mainHistory g.position.sideToMove (fromTo D bestMove) +
            (if bestValue > beta + 150 then stat_bonus (wrapInt (depth + 1))
              else stat_bonus depth))) (-12000) 12000) ∧
      (∀ c i, bestMove = MOVE_NONE ∨ D.isQuiet g.position bestMove = false ∨
          c ≠ g.position.sideToMove ∨ i ≠ fromTo D bestMove →
        (negaMax.updateHistories D ss bestMove bestValue beta depth g).mainHistory c i =
          g.mainHistory c i) ∧
      ((∀ c i, -12000 ≤ g.mainHistory c i ∧ g.mainHistory c i ≤ 12000) →
        ∀ c i,
          -12000 ≤
            (negaMax.updateHistories D ss bestMove bestValue beta depth g).mainHistory c i ∧
          (negaMax.updateHistories D ss bestMove bestValue beta depth g).mainHistory c i
            ≤ 12000)) ∧
    (∀ d : Int, 1 ≤ d → d ≤ 32764 → stat_bonus d = min (2 * d * d + 16 * d) 1000) ∧
    (∀ fuel nodeType alpha beta depth cutNode ss g v g2,
      (∀ c i, -12000 ≤ g.mainHistory c i ∧ g.mainHistory c i ≤ 12000) →
      negaMax D T fuel nodeType alpha beta depth cutNode ss g = some (v, g2) →
      ∀ c i, -12000 ≤ g2.mainHistory c i ∧ g2.mainHistory c i ≤ 12000) ∧
    (∀ fuel nodeType alpha beta ss g v g2,
      (∀ c i, -12000 ≤ g.mainHistory c i ∧ g.mainHistory c i ≤ 12000) →
      qsearch D T fuel nodeType alpha beta ss g = some (v, g2) →
      ∀ c i, -12000 ≤ g2.mainHistory c i ∧ g2.mainHistory c i ≤ 12000) ∧
    (∀ h, HistoryReachable D T h → ∀ c i, -12000 ≤ h c i ∧ h c i ≤ 12000) := by
  have hdecay : ∀ h : Nat → Nat → Int, (∀ c i, -12000 ≤ h c i ∧ h c i ≤ 12000) →
      ∀ c i, -12000 ≤ startSearch.decayHistory h c i ∧
        startSearch.decayHistory h c i ≤ 12000 := by
    intro h hb c i
    unfold startSearch.decayHistory
    split_ifs
    · exact tdiv_5_bounds _ (hb c i).1 (hb c i).2
    · exact hb c i
  have hN : ∀ fuel nodeType alpha beta depth cutNode ss g v g2,
      (∀ c i, -12000 ≤ g.mainHistory c i ∧ g.mainHistory c i ≤ 12000) →
      negaMax D T fuel nodeType alpha beta depth cutNode ss g = some (v, g2) →
      ∀ c i, -12000 ≤ g2.mainHistory c i ∧ g2.mainHistory c i ≤ 12000 :=
    fun fuel nodeType alpha beta depth cutNode ss g v g2 hb h =>
      ((search_kept D T fuel).2 nodeType alpha beta depth cutNode ss g v g2 h).2.2.2.2 hb
  have hQ : ∀ fuel nodeType alpha beta ss g v g2,
      (∀ c i, -12000 ≤ g.mainHistory c i ∧ g.mainHistory c i ≤ 12000) →
      qsearch D T fuel nodeType alpha beta ss g = some (v, g2) →
      ∀ c i, -12000 ≤ g2.mainHistory c i ∧ g2.mainHistory c i ≤ 12000 :=
    fun fuel nodeType alpha beta ss g v g2 hb h =>
      ((search_kept D T fuel).1 nodeType alpha beta ss g v g2 h).2.2.2.2 hb
  refine ⟨fun _ _ => rfl, ?_, ?_, stat_bonus_eq, hN, hQ, ?_⟩
  · intro h
    refine ⟨?_, ?_, hdecay h⟩
    · intro c i hc hi
      unfold startSearch.decayHistory
      rw [if_pos ⟨hc, hi⟩]
    · intro c i hci
      unfold startSearch.decayHistory
      rw [if_neg hci]
  · intro g ss bestMove bestValue beta depth
    refine ⟨?_, ?_, negaMax.updateHistories_bounded D g ss bestMove bestValue beta depth⟩
    · intro hm hq
      unfold negaMax.updateHistories
      rw [if_pos ⟨hm, hq⟩]
      simp only
      split_ifs <;> simp only [Function.update_same]
    · intro c i hci
      unfold negaMax.updateHistories
      by_cases hq : bestMove ≠ MOVE_NONE ∧ D.isQuiet g.position bestMove = true
      · rw [if_pos hq]
        have hne : c ≠ g.position.sideToMove ∨ i ≠ fromTo D bestMove := by
          rcases hci with h | h | h | h
          · exact absurd h hq.1
          · rw [hq.2] at h
            cases h
          · exact Or.inl h
          · exact Or.inr h
        have key : ∀ v : Int, Function.update g.mainHistory g.position.sideToMove
            (Function.update (g.mainHistory g.position.sideToMove) (fromTo D bestMove) v) c i =
            g.mainHistory c i := by
          intro v
          by_cases hc : c = g.position.sideToMove
          · subst hc
            rw [Function.update_same]
            rcases hne with h | h
            · exact absurd rfl h
            · rw [Function.update_noteq h]
          · rw [Function.update_noteq hc]
        simp only
        split_ifs <;> exact key _
      · rw [if_neg hq]
  · intro h hr
    induction hr with
    | clear =>
      intro c i
      show (-12000 : Int) ≤ 0 ∧ (0 : Int) ≤ 12000
      decide
    | decay h _ ih => exact hdecay h ih
    | search fuel nodeType alpha beta depth cutNode ss g v g2 _ hcall ih =>
      exact hN fuel nodeType alpha beta depth cutNode ss g v g2 ih hcall
    | quiescence fuel nodeType alpha beta ss g v g2 _ hcall ih =>
      exact hQ fuel nodeType alpha beta ss g v g2 ih hcall

/-- Witness of C12: on a state whose history is all zero, the NonPV call of depth 1 with the
window (-1, 0) fails high on the quiet move 9 and writes the bonus `stat_bonus(1)` = 18 into its
history entry; the call returns, and every entry is within the bound afterwards. -/
theorem mainHistory_bounded_witness :
    (negaMax soundDecls sampleClock 3 NodeType.NonPV (-1) 0 1 false 4 quietGlobals).map
        (fun r => r.2.mainHistory 0 9) = some 18 ∧
      ∃ v g2, negaMax soundDecls sampleClock 3 NodeType.NonPV (-1) 0 1 false 4
          quietGlobals = some (v, g2) ∧
        ∀ c i, -12000 ≤ g2.mainHistory c i ∧ g2.mainHistory c i ≤ 12000 := by
  refine ⟨by decide!, ?_⟩
  have hs : (negaMax soundDecls sampleClock 3 NodeType.NonPV (-1) 0 1 false 4
      quietGlobals).isSome = true := by decide!
  obtain ⟨⟨v, g2⟩, hr⟩ := Option.isSome_iff_exists.mp hs
  refine ⟨v, g2, hr, ?_⟩
  exact (mainHistory_bounded soundDecls sampleClock).2.2.2.2.1 3 NodeType.NonPV (-1) 0 1 false
    4 quietGlobals v g2
    (fun c i => by
      show (-12000 : Int) ≤ 0 ∧ (0 : Int) ≤ 12000
      decide) hr

/-! ### Scrubbing the table commutes with the search -/

/-- Scrubbing changes the entries of the table only. -/
theorem Globals.scrub_fields (K : List Key) (c : TT.Entry) (g : Globals) :
    (g.scrub K c).rootColor = g.rootColor ∧ (g.scrub K c).lastBestMove = g.lastBestMove ∧
      (g.scrub K c).nodesSearched = g.nodesSearched ∧ (g.scrub K c).selDepth = g.selDepth ∧
      (g.scrub K c).rootDepth = g.rootDepth ∧ (g.scrub K c).ply = g.ply ∧
      (g.scrub K c).accumulatorStack = g.accumulatorStack ∧
      (g.scrub K c).posStack = g.posStack ∧ (g.scrub K c).position = g.position ∧
      (g.scrub K c).rootMoves = g.rootMoves ∧ (g.scrub K c).mainHistory = g.mainHistory ∧
      (g.scrub K c).searchStack = g.searchStack ∧ (g.scrub K c).searchState = g.searchState ∧
      (g.scrub K c).seenPositions = g.seenPositions ∧
      (g.scrub K c).tt.entryCount = g.tt.entryCount ∧
      ∀ i, (g.scrub K c).tt.entries i = (g.tt.entries i).scrub K c :=
  ⟨rfl, rfl, rfl, rfl, rfl, rfl, rfl, rfl, rfl, rfl, rfl, rfl, rfl, rfl, rfl, fun _ => rfl⟩

/-- A state built on the scrubbed table is the scrubbed state built on the table. -/
theorem Globals.mk_scrub (K : List Key) (c : TT.Entry) (g : Globals) (a1 : Nat) (a2 : Move)
    (a3 : Nat) (a4 a5 : Int) (a6 : Nat) (a7 : Nat → Accumulator) (a8 : Nat → Position)
    (a9 : Position) (a10 : MoveList) (a11 : Nat → Nat → Int) (a12 : Nat → SearchInfo)
    (a13 : RunState) (a14 : List Key) :
    ({ rootColor := a1, lastBestMove := a2, nodesSearched := a3, selDepth := a4,
       rootDepth := a5, ply := a6, accumulatorStack := a7, posStack := a8, position := a9,
       rootMoves := a10, mainHistory := a11, searchStack := a12, searchState := a13,
       seenPositions := a14, tt := (g.scrub K c).tt } : Globals) =
      Globals.scrub K c
        { rootColor := a1, lastBestMove := a2, nodesSearched := a3, selDepth := a4,
          rootDepth := a5, ply := a6, accumulatorStack := a7, posStack := a8, position := a9,
          rootMoves := a10, mainHistory := a11, searchStack := a12, searchState := a13,
          seenPositions := a14, tt := g.tt } :=
  rfl

/-- The function `checkTime` commutes with scrubbing. -/
theorem checkTime_scrub (K : List Key) (c : TT.Entry) (t : TimeReading) (g : Globals) :
    checkTime t (g.scrub K c) = (checkTime t g).scrub K c := by
  unfold checkTime
  simp only [Globals.scrub_fields]
  split_ifs <;> rfl

/-- The bookkeeping of `playMove` and `playNullMove` commutes with scrubbing. -/
theorem recordPlayed_scrub (K : List Key) (c : TT.Entry) (t : TimeReading) (move : Move)
    (ss : Nat) (g : Globals) :
    recordPlayed t move ss (g.scrub K c) = (recordPlayed t move ss g).scrub K c := by
  unfold recordPlayed checkTime
  simp only [Globals.scrub_fields]
  split_ifs <;> rfl

/-- The function `pushPosition` commutes with scrubbing. -/
theorem pushPosition_scrub (K : List Key) (c : TT.Entry) (D : Decls) (g : Globals) :
    pushPosition D (g.scrub K c) = (pushPosition D g).map (Globals.scrub K c) := by
  unfold pushPosition
  simp only [Globals.scrub_fields]
  split_ifs <;> rfl

/-- The function `playMove` commutes with scrubbing. -/
theorem playMove_scrub (K : List Key) (c : TT.Entry) (D : Decls) (t : TimeReading) (move : Move)
    (ss : Nat) (g : Globals) :
    playMove D t move ss (g.scrub K c) = (playMove D t move ss g).map (Globals.scrub K c) := by
  unfold playMove
  rw [recordPlayed_scrub, pushPosition_scrub]
  cases pushPosition D (recordPlayed t move ss g) <;> rfl

/-- The function `playNullMove` commutes with scrubbing. -/
theorem playNullMove_scrub (K : List Key) (c : TT.Entry) (D : Decls) (t : TimeReading)
    (ss : Nat) (g : Globals) :
    playNullMove D t ss (g.scrub K c) = (playNullMove D t ss g).map (Globals.scrub K c) := by
  unfold playNullMove
  rw [recordPlayed_scrub, pushPosition_scrub]
  cases pushPosition D (recordPlayed t MOVE_NONE ss g) <;> rfl

/-- The function `cancelMove` commutes with scrubbing. -/
theorem cancelMove_scrub (K : List Key) (c : TT.Entry) (D : Decls) (g : Globals) :
    cancelMove D (g.scrub K c) = (cancelMove D g).map (Globals.scrub K c) := by
  unfold cancelMove popPosition
  simp only [Globals.scrub_fields]
  split_ifs <;> rfl

/-- The function `updatePV` commutes with scrubbing. -/
theorem updatePV_scrub (K : List Key) (c : TT.Entry) (ss : Nat) (move : Move) (g : Globals) :
    updatePV ss move (g.scrub K c) = (updatePV ss move g).scrub K c := rfl

/-- The history update of `negaMax` commutes with scrubbing. -/
theorem negaMax.updateHistories_scrub (K : List Key) (c : TT.Entry) (D : Decls) (ss : Nat)
    (bestMove : Move) (bestValue beta : Value) (depth : Int) (g : Globals) :
    negaMax.updateHistories D ss bestMove bestValue beta depth (g.scrub K c) =
      (negaMax.updateHistories D ss bestMove bestValue beta depth g).scrub K c := by
  unfold negaMax.updateHistories
  simp only [Globals.scrub_fields]
  split_ifs <;> rfl

/-- The preamble of `negaMax` commutes with scrubbing: it does not read the table. -/
theorem negaMax.enter_scrub (K : List Key) (c : TT.Entry) (D : Decls) (nodeType : NodeType)
    (alpha beta : Value) (ss : Nat) (g : Globals) :
    negaMax.enter D nodeType alpha beta ss (g.scrub K c) =
      (negaMax.enter D nodeType alpha beta ss g).scrub K c := by
  unfold negaMax.enter is2FoldRepetition
  by_cases hnt : nodeType = NodeType.NonPV
  · simp only [hnt, ne_eq, not_true_eq_false, if_false, Globals.scrub_fields]
    split_ifs <;> rfl
  · simp only [hnt, ne_eq, not_false_eq_true, if_true, Globals.scrub_fields]
    split_ifs <;> rfl

/-- The move loop of `qsearch` commutes with scrubbing when the recursive call does. -/
theorem qsearch_loop_scrub (K : List Key) (c : TT.Entry) (D : Decls) (T : Clock) (Q : QSearch)
    (nodeType : NodeType) (beta : Value) (generateAllMoves : Bool) (ss : Nat)
    (hQ : ∀ nt a b s g, Q nt a b s (g.scrub K c) =
      (Q nt a b s g).map (Prod.map id (Globals.scrub K c))) :
    ∀ (n i : Nat) (l : qsearch.Locals) (g : Globals),
      qsearch.loop D T Q nodeType beta generateAllMoves ss n i l (g.scrub K c) =
        (qsearch.loop D T Q nodeType beta generateAllMoves ss n i l g).map
          (qsearch.LoopEnd.scrub K c) := by
  intro n
  induction n with
  | zero =>
    intro i l g
    rfl
  | succ n ih =>
    intro i l g
    simp only [qsearch.loop, Globals.scrub_fields]
    split_ifs
    · exact ih _ _ _
    · exact ih _ _ _
    · rw [playMove_scrub]
      cases playMove D (T g.nodesSearched) (nextBestMove l.moves i).1 ss g with
      | none => rfl
      | some g1 =>
        simp only [Option.map_some']
        rw [hQ]
        cases Q nodeType (-beta) (-l.alpha) (ss + 1) g1 with
        | none => rfl
        | some p =>
          obtain ⟨v, g2⟩ := p
          simp only [Option.map_some', Prod.map, id]
          rw [cancelMove_scrub]
          cases cancelMove D g2 with
          | none => rfl
          | some g3 =>
            simp only [Option.map_some']
            cases qsearch.improve nodeType (-v) l.bestValue l.alpha beta with
            | nothing => exact ih _ _ _
            | newBest => exact ih _ _ _
            | failHigh => rfl
            | raiseAlpha => exact ih _ _ _

/-- The searches of one move commute with scrubbing when the calls of `negaMax` do. -/
theorem negaMax_searchMove_scrub (K : List Key) (c : TT.Entry) (D : Decls) (N : NegaMax)
    (nodeType : NodeType) (alpha beta : Value) (depth : Int)
    (cutNode wasInCheck improving : Bool) (playedMoves : Int) (ss : Nat) (g : Globals)
    (hN : ∀ nt a b d cn s g, N nt a b d cn s (g.scrub K c) =
      (N nt a b d cn s g).map (Prod.map id (Globals.scrub K c))) :
    negaMax.searchMove D N nodeType alpha beta depth cutNode wasInCheck improving playedMoves ss
        (g.scrub K c) =
      (negaMax.searchMove D N nodeType alpha beta depth cutNode wasInCheck improving playedMoves
        ss g).map (Prod.map id (Globals.scrub K c)) := by
  unfold negaMax.searchMove
  simp only [hN]
  by_cases c1 : wasInCheck = false ∧ depth ≥ 3 ∧
      playedMoves > 1 + 2 * (if nodeType ≠ NodeType.NonPV then 1 else 0)
  · simp only [if_pos c1]
    generalize N NodeType.NonPV (-alpha - 1) (-alpha) (myClamp _ 1 (depth + 1)) true (ss + 1)
      g = r
    rcases r with _ | ⟨v, g2⟩
    · rfl
    · simp only [Option.map_some', Prod.map, id, hN]
      repeat' first
        | rfl
        | split_ifs
        | (simp only [Option.map_some', Option.map_none', Prod.map, id, hN])
        | (generalize N NodeType.NonPV (-alpha - 1) (-alpha) (depth - 1) (!cutNode) (ss + 1) g2 = r
           rcases r with _ | ⟨w, g3⟩ <;>
             simp only [Option.map_some', Option.map_none', Prod.map, id, hN])
        | (generalize N NodeType.PV (-beta) (-alpha) (depth - 1) false (ss + 1) g3 = r
           rcases r with _ | ⟨w2, g4⟩ <;>
             simp only [Option.map_some', Option.map_none', Prod.map, id, hN])
        | (generalize N NodeType.PV (-beta) (-alpha) (depth - 1) false (ss + 1) g2 = r
           rcases r with _ | ⟨w2, g4⟩ <;>
             simp only [Option.map_some', Option.map_none', Prod.map, id, hN])
  · simp only [if_neg c1]
    repeat' first
      | rfl
      | split_ifs
      | (simp only [Option.map_some', Option.map_none', Prod.map, id, hN])
      | (generalize N NodeType.NonPV (-alpha - 1) (-alpha) (depth - 1) (!cutNode) (ss + 1) g = r
         rcases r with _ | ⟨w, g3⟩ <;>
           simp only [Option.map_some', Option.map_none', Prod.map, id, hN])
      | (generalize N NodeType.PV (-beta) (-alpha) (depth - 1) false (ss + 1) g3 = r
         rcases r with _ | ⟨w2, g4⟩ <;>
           simp only [Option.map_some', Option.map_none', Prod.map, id, hN])
      | (generalize N NodeType.PV (-beta) (-alpha) (depth - 1) false (ss + 1) g = r
         rcases r with _ | ⟨w2, g4⟩ <;>
           simp only [Option.map_some', Option.map_none', Prod.map, id, hN])

/-- The move loop of `negaMax` commutes with scrubbing when the calls of `negaMax` do. -/
theorem negaMax_loop_scrub (K : List Key) (c : TT.Entry) (D : Decls) (T : Clock) (N : NegaMax)
    (nodeType : NodeType) (beta : Value) (depth : Int) (cutNode wasInCheck improving : Bool)
    (ss : Nat)
    (hN : ∀ nt a b d cn s g, N nt a b d cn s (g.scrub K c) =
      (N nt a b d cn s g).map (Prod.map id (Globals.scrub K c))) :
    ∀ (n i : Nat) (l : negaMax.Locals) (g : Globals),
      negaMax.loop D T N nodeType beta depth cutNode wasInCheck improving ss n i l
          (g.scrub K c) =
        (negaMax.loop D T N nodeType beta depth cutNode wasInCheck improving ss n i l g).map
          (Prod.map id (Globals.scrub K c)) := by
  intro n
  induction n with
  | zero =>
    intro i l g
    rfl
  | succ n ih =>
    intro i l g
    simp only [negaMax.loop, Globals.scrub_fields]
    split_ifs
    · exact ih _ _ _
    · exact ih _ _ _
    · rw [playMove_scrub]
      cases playMove D (T g.nodesSearched) (nextBestMove l.moves i).1 ss g with
      | none => rfl
      | some g1 =>
        simp only [Option.map_some']
        rw [negaMax_searchMove_scrub K c D N nodeType _ beta depth cutNode wasInCheck improving
          _ ss g1 hN]
        cases negaMax.searchMove D N nodeType l.alpha beta depth cutNode wasInCheck improving
          l.playedMoves ss g1 with
        | none => rfl
        | some p =>
          obtain ⟨v, g2⟩ := p
          simp only [Option.map_some', Prod.map, id]
          rw [cancelMove_scrub]
          cases cancelMove D g2 with
          | none => rfl
          | some g3 =>
            simp only [Option.map_some', Globals.scrub_fields, Globals.mk_scrub]
            cases negaMax.improve v l.bestValue l.alpha beta with
            | nothing => exact ih _ _ _
            | newBest => exact ih _ _ _
            | failHigh => rfl
            | raiseAlpha =>
              simp only [updatePV_scrub]
              exact ih _ _ _
    · rw [playMove_scrub]
      cases playMove D (T g.nodesSearched) (nextBestMove l.moves i).1 ss g with
      | none => rfl
      | some g1 =>
        simp only [Option.map_some']
        rw [negaMax_searchMove_scrub K c D N nodeType _ beta depth cutNode wasInCheck improving
          _ ss g1 hN]
        cases negaMax.searchMove D N nodeType l.alpha beta depth cutNode wasInCheck improving
          l.playedMoves ss g1 with
        | none => rfl
        | some p =>
          obtain ⟨v, g2⟩ := p
          simp only [Option.map_some', Prod.map, id]
          rw [cancelMove_scrub]
          cases cancelMove D g2 with
          | none => rfl
          | some g3 =>
            simp only [Option.map_some', Globals.scrub_fields, Globals.mk_scrub]
            cases negaMax.improve v l.bestValue l.alpha beta with
            | nothing => exact ih _ _ _
            | newBest => exact ih _ _ _
            | failHigh => rfl
            | raiseAlpha =>
              simp only [updatePV_scrub]
              exact ih _ _ _

/-- The statements of `negaMax` from `moves_loop` on commute with scrubbing when the calls of
`negaMax` do. -/
theorem negaMax_searchMoves_scrub (K : List Key) (c : TT.Entry) (D : Decls) (T : Clock)
    (N : NegaMax) (nodeType : NodeType) (cutNode : Bool) (ss : Nat) (node : negaMax.Node)
    (g : Globals)
    (hN : ∀ nt a b d cn s g, N nt a b d cn s (g.scrub K c) =
      (N nt a b d cn s g).map (Prod.map id (Globals.scrub K c))) :
    negaMax.searchMoves D T N nodeType cutNode ss node (g.scrub K c) =
      (negaMax.searchMoves D T N nodeType cutNode ss node g).map
        (Prod.map id (Globals.scrub K c)) := by
  unfold negaMax.searchMoves
  simp only [Globals.scrub_fields]
  split_ifs
  all_goals
    try simp only [Globals.mk_scrub]
    rw [negaMax_loop_scrub K c D T N nodeType node.beta node.depth cutNode _ node.improving ss
      hN]
    generalize negaMax.loop D T N nodeType node.beta node.depth cutNode _ node.improving ss
      _ 0 _ _ = r
    rcases r with _ | ⟨l, g2⟩
    · rfl
    · simp only [Option.map_some', Prod.map, id, Globals.scrub_fields]
      split_ifs <;> first | rfl | (rw [negaMax.updateHistories_scrub]; rfl)

/-- The razoring block commutes with scrubbing when `qsearch` does. -/
theorem negaMax.razoring_scrub (K : List Key) (c : TT.Entry) (Q : QSearch) (alpha : Value)
    (depth : Int) (ss : Nat) (eval : Value) (g : Globals)
    (hQ : ∀ nt a b s g, Q nt a b s (g.scrub K c) =
      (Q nt a b s g).map (Prod.map id (Globals.scrub K c))) :
    negaMax.razoring Q alpha depth ss eval (g.scrub K c) =
      (negaMax.razoring Q alpha depth ss eval g).map (Prod.map id (Globals.scrub K c)) := by
  unfold negaMax.razoring
  split_ifs
  · rw [hQ]
    rcases Q NodeType.NonPV (alpha - 1) alpha ss g with _ | ⟨v, g2⟩
    · rfl
    · simp only [Option.map_some', Prod.map, id]
      split_ifs <;> rfl
  · rfl

/-- The null move block commutes with scrubbing when `negaMax` does. -/
theorem negaMax.nullMove_scrub (K : List Key) (c : TT.Entry) (D : Decls) (T : Clock)
    (N : NegaMax) (nodeType : NodeType) (beta : Value) (depth : Int) (cutNode : Bool) (ss : Nat)
    (eval : Value) (g : Globals)
    (hN : ∀ nt a b d cn s g, N nt a b d cn s (g.scrub K c) =
      (N nt a b d cn s g).map (Prod.map id (Globals.scrub K c))) :
    negaMax.nullMove D T N nodeType beta depth cutNode ss eval (g.scrub K c) =
      (negaMax.nullMove D T N nodeType beta depth cutNode ss eval g).map
        (Prod.map id (Globals.scrub K c)) := by
  unfold negaMax.nullMove
  simp only [Globals.scrub_fields]
  split_ifs
  · rw [playNullMove_scrub]
    rcases playNullMove D (T g.nodesSearched) ss g with _ | g1
    · rfl
    · simp only [Option.map_some']
      rw [hN]
      rcases N NodeType.NonPV (-beta) (-beta + 1) _ (!cutNode) (ss + 1) g1 with _ | ⟨v, g2⟩
      · rfl
      · simp only [Option.map_some', Prod.map, id]
        rw [cancelMove_scrub]
        rcases cancelMove D g2 with _ | g3
        · rfl
        · simp only [Option.map_some']
          split_ifs <;> rfl
  · rfl

/-- An entry that matches a key outside `K` is left by scrubbing. -/
theorem TT.Entry.scrub_of_hit (K : List Key) (c e : TT.Entry) (key : Key)
    (hk : key ∉ K) (hhit : e.matches key = true) : e.scrub K c = e := by
  unfold TT.Entry.matches at hhit
  have he : e.key = key := by simpa using hhit
  unfold TT.Entry.scrub
  rw [if_neg (by rw [he]; exact hk)]

/-- Scrubbing with an entry whose key is in `K` changes no match with a key outside `K`. -/
theorem TT.Entry.scrub_matches (K : List Key) (c e : TT.Entry) (key : Key)
    (hc : c.key ∈ K) (hk : key ∉ K) : (e.scrub K c).matches key = e.matches key := by
  unfold TT.Entry.scrub
  split_ifs with h
  · unfold TT.Entry.matches
    have h1 : c.key ≠ key := fun e1 => hk (e1 ▸ hc)
    have h2 : e.key ≠ key := fun e1 => hk (e1 ▸ h)
    simp [h1, h2]
  · rfl

/-- The probe of a key outside `K` gives the same slot and the same answer on the scrubbed
table. -/
theorem TT.probe_scrub (K : List Key) (c : TT.Entry) (g : Globals) (key : Key)
    (hc : c.key ∈ K) (hk : key ∉ K) :
    TT.probe (g.scrub K c).tt key = TT.probe g.tt key := by
  unfold TT.probe
  simp only [Globals.scrub_fields]
  split_ifs
  · rfl
  · rw [TT.Entry.scrub_matches K c _ key hc hk]

/-- The answer of a probe is the match of the slot it returns. -/
theorem TT.probe_hit (t : TT.Table) (key : Key) (slot : Nat) (ttHit : Bool)
    (h : TT.probe t key = some (slot, ttHit)) : ttHit = (t.entries slot).matches key := by
  unfold TT.probe at h
  split_ifs at h
  simp only [Option.some.injEq, Prod.mk.injEq] at h
  obtain ⟨rfl, rfl⟩ := h
  rfl

/-- The statements after the probe read the same from a slot and from the scrubbed slot when a
hit is a hit on an entry the scrubbing leaves. -/
theorem negaMax.afterProbe_scrub (K : List Key) (c e : TT.Entry) (D : Decls)
    (nodeType : NodeType) (g : Globals) (ttHit : Bool) (alpha beta : Value) (depth : Int)
    (hread : ttHit = true → e.scrub K c = e) :
    negaMax.afterProbe D nodeType (g.scrub K c) (e.scrub K c) ttHit alpha beta depth =
      negaMax.afterProbe D nodeType g e ttHit alpha beta depth := by
  cases ttHit with
  | true =>
    rw [hread rfl]
    rfl
  | false =>
    rw [negaMax.afterProbe_miss, negaMax.afterProbe_miss]
    rfl

/-- The static evaluation of `negaMax` is the same from a slot and from the scrubbed slot. -/
theorem negaMax.staticEval_scrub (K : List Key) (c e : TT.Entry) (D : Decls) (ttHit : Bool)
    (ev : Value) (hread : ttHit = true → e.scrub K c = e) :
    negaMax.staticEval D (e.scrub K c) ttHit ev = negaMax.staticEval D e ttHit ev := by
  cases ttHit with
  | true => rw [hread rfl]
  | false => rw [negaMax.staticEval_miss, negaMax.staticEval_miss]

/-- The statements of `negaMax` from the static evaluation to `moves_loop` commute with
scrubbing when the calls of `negaMax` and `qsearch` do. -/
theorem negaMax_pruneQuiet_scrub (K : List Key) (c : TT.Entry) (D : Decls) (T : Clock)
    (N : NegaMax) (Q : QSearch) (nodeType : NodeType) (alpha beta : Value) (depth : Int)
    (cutNode : Bool) (ss slot : Nat) (ttHit : Bool) (ttMove : Move) (g : Globals)
    (hread : ttHit = true → (g.tt.entries slot).scrub K c = g.tt.entries slot)
    (hN : ∀ nt a b d cn s g, N nt a b d cn s (g.scrub K c) =
      (N nt a b d cn s g).map (Prod.map id (Globals.scrub K c)))
    (hQ : ∀ nt a b s g, Q nt a b s (g.scrub K c) =
      (Q nt a b s g).map (Prod.map id (Globals.scrub K c))) :
    negaMax.pruneQuiet D T N Q nodeType alpha beta depth cutNode ss slot ttHit ttMove
        (g.scrub K c) =
      (negaMax.pruneQuiet D T N Q nodeType alpha beta depth cutNode ss slot ttHit ttMove g).map
        (negaMax.Pruned.scrub K c) := by
  rw [negaMax.pruneQuiet_eq, negaMax.pruneQuiet_eq]
  simp only [Globals.scrub_fields, negaMax.staticEval_scrub K c _ D ttHit _ hread,
    Globals.mk_scrub]
  rw [negaMax.razoring_scrub K c Q alpha depth ss _ _ hQ]
  generalize negaMax.razoring Q alpha depth ss _ _ = r
  rcases r with _ | ⟨_ | v, g1⟩
  · rfl
  · simp only [Option.map_some', Prod.map, id]
    split_ifs <;> first
      | rfl
      | (rw [negaMax.nullMove_scrub K c D T N nodeType beta depth cutNode ss _ _ hN]
         generalize negaMax.nullMove D T N nodeType beta depth cutNode ss _ g1 = r2
         rcases r2 with _ | ⟨_ | v2, g2⟩ <;> rfl)
  · rfl

/-- The statements of `negaMax` from the probe to `moves_loop` commute with scrubbing at a node
whose key is outside `K`. -/
theorem negaMax_prune_scrub (K : List Key) (c : TT.Entry) (D : Decls) (T : Clock)
    (N : NegaMax) (Q : QSearch) (nodeType : NodeType) (alpha beta : Value) (depth : Int)
    (cutNode : Bool) (ss : Nat) (g : Globals) (hc : c.key ∈ K) (hk : g.position.key ∉ K)
    (hN : ∀ nt a b d cn s g, N nt a b d cn s (g.scrub K c) =
      (N nt a b d cn s g).map (Prod.map id (Globals.scrub K c)))
    (hQ : ∀ nt a b s g, Q nt a b s (g.scrub K c) =
      (Q nt a b s g).map (Prod.map id (Globals.scrub K c))) :
    negaMax.prune D T N Q nodeType alpha beta depth cutNode ss (g.scrub K c) =
      (negaMax.prune D T N Q nodeType alpha beta depth cutNode ss g).map
        (negaMax.Pruned.scrub K c) := by
  unfold negaMax.prune
  simp only [Globals.scrub_fields]
  rw [TT.probe_scrub K c g _ hc hk]
  rcases hp : TT.probe g.tt g.position.key with _ | ⟨slot, ttHit⟩
  · rfl
  · have hread : ttHit = true → (g.tt.entries slot).scrub K c = g.tt.entries slot := by
      intro ht
      rw [TT.probe_hit _ _ _ _ hp] at ht
      exact TT.Entry.scrub_of_hit K c _ _ hk ht
    simp only [negaMax.afterProbe_scrub K c _ D nodeType g ttHit alpha beta depth hread]
    rcases negaMax.afterProbe D nodeType g (g.tt.entries slot) ttHit alpha beta depth with
      v | ⟨a, b⟩ | ⟨d, f, v, m⟩
    · rfl
    · simp only [hQ]
      generalize Q _ a b ss g = r
      rcases r with _ | ⟨v, g2⟩ <;> rfl
    · simp only
      split_ifs
      · rfl
      · exact negaMax_pruneQuiet_scrub K c D T N Q nodeType alpha beta d cutNode ss slot ttHit m
          g hread hN hQ

/-- The store after a return commutes with scrubbing at a node whose key is outside `K`. -/
theorem Leave.finish_scrub (K : List Key) (c : TT.Entry) (leave : Leave) (g : Globals)
    (hk : g.position.key ∉ K) :
    Leave.finish (leave, g.scrub K c) = Prod.map id (Globals.scrub K c) (Leave.finish (leave, g))
    := by
  cases leave with
  | plain value => rfl
  | stored slot flag depth move value staticEval =>
    have hx : (TT.Entry.store g.position.key flag depth move value staticEval).scrub K c =
        TT.Entry.store g.position.key flag depth move value staticEval := by
      exact if_neg hk
    have he : Function.update (fun i => (g.tt.entries i).scrub K c) slot
          (TT.Entry.store g.position.key flag depth move value staticEval) =
        fun i => (Function.update g.tt.entries slot
          (TT.Entry.store g.position.key flag depth move value staticEval) i).scrub K c := by
      funext i
      by_cases hi : i = slot
      · subst hi
        rw [Function.update_same, Function.update_same, hx]
      · rw [Function.update_noteq hi, Function.update_noteq hi]
    unfold Leave.finish Globals.scrub
    simp only [Prod.map, id, he]

/-- The body of `qsearch` commutes with scrubbing at a node whose key is outside `K`. -/
theorem qsearch_body_scrub (K : List Key) (c : TT.Entry) (D : Decls) (T : Clock) (Q : QSearch)
    (nodeType : NodeType) (alpha beta : Value) (ss : Nat) (g : Globals) (hc : c.key ∈ K)
    (hk : g.position.key ∉ K)
    (hQ : ∀ nt a b s g, Q nt a b s (g.scrub K c) =
      (Q nt a b s g).map (Prod.map id (Globals.scrub K c))) :
    qsearch.body D T Q nodeType alpha beta ss (g.scrub K c) =
      (qsearch.body D T Q nodeType alpha beta ss g).map (Prod.map id (Globals.scrub K c)) := by
  unfold qsearch.body
  simp only [Globals.scrub_fields]
  by_cases hclock : g.position.halfMoveClock ≥ 100
  · simp only [if_pos hclock]
    rfl
  · simp only [if_neg hclock]
    rw [TT.probe_scrub K c g _ hc hk]
    rcases hp : TT.probe g.tt g.position.key with _ | ⟨slot, ttHit⟩
    · rfl
    · have hread : ttHit = true → (g.tt.entries slot).scrub K c = g.tt.entries slot := by
        intro ht
        rw [TT.probe_hit _ _ _ _ hp] at ht
        exact TT.Entry.scrub_of_hit K c _ _ hk ht
      cases ttHit with
      | true =>
        simp only [hread rfl, if_true]
        split_ifs <;> first
          | rfl
          | (rw [qsearch_loop_scrub K c D T Q nodeType beta _ ss hQ]
             generalize qsearch.loop D T Q nodeType beta _ ss _ 0 _ g = r
             rcases r with _ | ⟨bm, bv, g2⟩ | ⟨l, g2⟩
             · rfl
             · rfl
             · simp only [Option.map_some', qsearch.LoopEnd.scrub, Globals.scrub_fields]
               split_ifs <;> rfl)
      | false =>
        simp only [Bool.false_eq_true, if_false, qsearch.standPat_miss]
        split_ifs <;> first
          | rfl
          | (rw [qsearch_loop_scrub K c D T Q nodeType beta _ ss hQ]
             generalize qsearch.loop D T Q nodeType beta _ ss _ 0 _ g = r
             rcases r with _ | ⟨bm, bv, g2⟩ | ⟨l, g2⟩
             · rfl
             · rfl
             · simp only [Option.map_some', qsearch.LoopEnd.scrub, Globals.scrub_fields]
               split_ifs <;> rfl)

/-- The body of `negaMax` commutes with scrubbing at a node whose key is outside `K`. -/
theorem negaMax_body_scrub (K : List Key) (c : TT.Entry) (D : Decls) (T : Clock) (N : NegaMax)
    (Q : QSearch) (nodeType : NodeType) (alpha beta : Value) (depth : Int) (cutNode : Bool)
    (ss : Nat) (g : Globals) (hc : c.key ∈ K) (hk : g.position.key ∉ K)
    (hN : ∀ nt a b d cn s g, N nt a b d cn s (g.scrub K c) =
      (N nt a b d cn s g).map (Prod.map id (Globals.scrub K c)))
    (hQ : ∀ nt a b s g, Q nt a b s (g.scrub K c) =
      (Q nt a b s g).map (Prod.map id (Globals.scrub K c))) :
    negaMax.body D T N Q nodeType alpha beta depth cutNode ss (g.scrub K c) =
      (negaMax.body D T N Q nodeType alpha beta depth cutNode ss g).map
        (Prod.map id (Globals.scrub K c)) := by
  unfold negaMax.body
  rw [negaMax.enter_scrub]
  rcases he : negaMax.enter D nodeType alpha beta ss g with ⟨v, g1⟩ | ⟨a, b, g1⟩
  · rfl
  · simp only [negaMax.Entered.scrub]
    have hk1 : g1.position.key ∉ K := by
      rw [(negaMax.enter_proceed D nodeType alpha beta a b ss g g1 he).1]
      exact hk
    rw [negaMax_prune_scrub K c D T N Q nodeType a b depth cutNode ss g1 hc hk1 hN hQ]
    rcases negaMax.prune D T N Q nodeType a b depth cutNode ss g1 with
      _ | ⟨v, g2⟩ | ⟨node, g2⟩
    · rfl
    · rfl
    · simp only [Option.map_some', negaMax.Pruned.scrub]
      exact negaMax_searchMoves_scrub K c D T N nodeType cutNode ss node g2 hN

/-- Every monitored call that returns keeps the state. -/
theorem avoided_kept (D : Decls) (T : Clock) (K : List Key) :
    ∀ fuel : Nat,
      (∀ nt a b s g v g2, qsearch.avoided D T K fuel nt a b s g = some (v, g2) → g.Kept g2) ∧
      (∀ nt a b d c s g v g2,
        negaMax.avoided D T K fuel nt a b d c s g = some (v, g2) → g.Kept g2) := by
  intro fuel
  induction fuel with
  | zero =>
    exact ⟨fun _ _ _ _ _ _ _ h => (by cases h), fun _ _ _ _ _ _ _ _ _ h => (by cases h)⟩
  | succ fuel ih =>
    refine ⟨?_, ?_⟩
    · intro nt a b s g v g2 h
      simp only [qsearch.avoided, QSearch.avoiding] at h
      split_ifs at h
      obtain ⟨⟨leave, g1⟩, hb, hf⟩ := Option.map_eq_some'.mp h
      have hk := qsearch_body_kept D T _ nt a b s g g1 leave ih.1 hb
      have hf2 := Leave.finish_kept leave g1
      rw [hf] at hf2
      exact Globals.Kept.trans g g1 g2 hk hf2
    · intro nt a b d c s g v g2 h
      simp only [negaMax.avoided, NegaMax.avoiding] at h
      split_ifs at h
      obtain ⟨⟨leave, g1⟩, hb, hf⟩ := Option.map_eq_some'.mp h
      have hk := negaMax_body_kept D T _ _ nt a b d c s g g1 leave ih.2 ih.1 hb
      have hf2 := Leave.finish_kept leave g1
      rw [hf] at hf2
      exact Globals.Kept.trans g g1 g2 hk hf2

/-- The monitored search commutes with scrubbing: on the scrubbed table it returns the same
value and the scrubbed state. -/
theorem avoided_scrub (D : Decls) (T : Clock) (K : List Key) (c : TT.Entry) (hc : c.key ∈ K) :
    ∀ fuel : Nat,
      (∀ nt a b s g, qsearch.avoided D T K fuel nt a b s (g.scrub K c) =
        (qsearch.avoided D T K fuel nt a b s g).map (Prod.map id (Globals.scrub K c))) ∧
      (∀ nt a b d cn s g, negaMax.avoided D T K fuel nt a b d cn s (g.scrub K c) =
        (negaMax.avoided D T K fuel nt a b d cn s g).map
          (Prod.map id (Globals.scrub K c))) := by
  intro fuel
  induction fuel with
  | zero => exact ⟨fun _ _ _ _ _ => rfl, fun _ _ _ _ _ _ _ => rfl⟩
  | succ fuel ih =>
    have hkept := avoided_kept D T K fuel
    refine ⟨?_, ?_⟩
    · intro nt a b s g
      simp only [qsearch.avoided, QSearch.avoiding, Globals.scrub_fields]
      split_ifs with hk
      · rfl
      · rw [qsearch_body_scrub K c D T _ nt a b s g hc hk ih.1]
        rcases hb : qsearch.body D T (qsearch.avoided D T K fuel) nt a b s g with
          _ | ⟨leave, g1⟩
        · rfl
        · have hk1 : g1.position.key ∉ K := by
            rw [(qsearch_body_kept D T _ nt a b s g g1 leave hkept.1 hb).2.1]
            exact hk
          simp only [Option.map_some', Prod.map, id]
          rw [Leave.finish_scrub K c leave g1 hk1]
          rfl
    · intro nt a b d cn s g
      simp only [negaMax.avoided, NegaMax.avoiding, Globals.scrub_fields]
      split_ifs with hk
      · rfl
      · rw [negaMax_body_scrub K c D T _ _ nt a b d cn s g hc hk ih.2 ih.1]
        rcases hb : negaMax.body D T (negaMax.avoided D T K fuel) (qsearch.avoided D T K fuel)
          nt a b d cn s g with _ | ⟨leave, g1⟩
        · rfl
        · have hk1 : g1.position.key ∉ K := by
            rw [(negaMax_body_kept D T _ _ nt a b d cn s g g1 leave hkept.2 hkept.1 hb).2.1]
            exact hk
          simp only [Option.map_some', Prod.map, id]
          rw [Leave.finish_scrub K c leave g1 hk1]
          rfl

/-! ### A monitored search that returns is the search -/

/-- The move loop of `qsearch` with a recursive call that is refused or agrees with `Q2` is
refused or agrees with the loop of `Q2`. -/
theorem qsearch_loop_below (D : Decls) (T : Clock) (Q Q2 : QSearch) (nodeType : NodeType)
    (beta : Value) (generateAllMoves : Bool) (ss : Nat)
    (hQ : ∀ nt a b s g, Q nt a b s g = none ∨ Q nt a b s g = Q2 nt a b s g) :
    ∀ (n i : Nat) (l : qsearch.Locals) (g : Globals),
      qsearch.loop D T Q nodeType beta generateAllMoves ss n i l g = none ∨
        qsearch.loop D T Q nodeType beta generateAllMoves ss n i l g =
          qsearch.loop D T Q2 nodeType beta generateAllMoves ss n i l g := by
  intro n
  induction n with
  | zero =>
    intro i l g
    right
    rfl
  | succ n ih =>
    intro i l g
    simp only [qsearch.loop]
    split_ifs
    · exact ih _ _ _
    · exact ih _ _ _
    · rcases playMove D (T g.nodesSearched) (nextBestMove l.moves i).1 ss g with _ | g1
      · left
        rfl
      · simp only
        rcases hQ nodeType (-beta) (-l.alpha) (ss + 1) g1 with h | h
        · left
          rw [h]
        · rw [h]
          rcases Q2 nodeType (-beta) (-l.alpha) (ss + 1) g1 with _ | ⟨v, g2⟩
          · left
            rfl
          · simp only
            rcases cancelMove D g2 with _ | g3
            · left
              rfl
            · simp only
              cases qsearch.improve nodeType (-v) l.bestValue l.alpha beta with
              | nothing => exact ih _ _ _
              | newBest => exact ih _ _ _
              | failHigh =>
                right
                rfl
              | raiseAlpha => exact ih _ _ _

/-- The searches of one move with calls of `negaMax` that are refused or agree with `N2` are
refused or agree with the searches made with `N2`. -/
theorem negaMax_searchMove_below (D : Decls) (N N2 : NegaMax) (nodeType : NodeType)
    (alpha beta : Value) (depth : Int) (cutNode wasInCheck improving : Bool)
    (playedMoves : Int) (ss : Nat) (g : Globals)
    (hN : ∀ nt a b d cn s g, N nt a b d cn s g = none ∨
      N nt a b d cn s g = N2 nt a b d cn s g) :
    negaMax.searchMove D N nodeType alpha beta depth cutNode wasInCheck improving playedMoves ss
        g = none ∨
      negaMax.searchMove D N nodeType alpha beta depth cutNode wasInCheck improving playedMoves
          ss g =
        negaMax.searchMove D N2 nodeType alpha beta depth cutNode wasInCheck improving
          playedMoves ss g := by
  unfold negaMax.searchMove
  simp only
  by_cases c1 : wasInCheck = false ∧ depth ≥ 3 ∧
      playedMoves > 1 + 2 * (if nodeType ≠ NodeType.NonPV then 1 else 0)
  · simp only [if_pos c1]
    rcases hN NodeType.NonPV (-alpha - 1) (-alpha)
      (myClamp (depth - (D.lmrTable depth.toNat (playedMoves + 1).toNat +
        (if improving then 0 else 1) - (if nodeType ≠ NodeType.NonPV then 1 else 0))) 1
        (depth + 1)) true (ss + 1) g with h | h
    · left
      rw [h]
    · rw [h]
      generalize N2 NodeType.NonPV (-alpha - 1) (-alpha) (myClamp _ 1 (depth + 1)) true (ss + 1)
        g = r
      rcases r with _ | ⟨v, g2⟩
      · left
        rfl
      · simp only
        repeat' first
          | (right; rfl)
          | (left; trivial)
          | (right; trivial)
          | split_ifs
          | (rcases hN NodeType.NonPV (-alpha - 1) (-alpha) (depth - 1) (!cutNode) (ss + 1) g2 with
               h | h <;> simp only [h])
          | (generalize N2 NodeType.NonPV (-alpha - 1) (-alpha) (depth - 1) (!cutNode) (ss + 1) g2 = r
             rcases r with _ | ⟨w, g3⟩ <;> simp only)
          | (rcases hN NodeType.PV (-beta) (-alpha) (depth - 1) false (ss + 1) g3 with
               h | h <;> simp only [h])
          | (rcases hN NodeType.PV (-beta) (-alpha) (depth - 1) false (ss + 1) g2 with
               h | h <;> simp only [h])
  · simp only [if_neg c1]
    repeat' first
      | (right; rfl)
      | (left; trivial)
      | (right; trivial)
      | split_ifs
      | (rcases hN NodeType.NonPV (-alpha - 1) (-alpha) (depth - 1) (!cutNode) (ss + 1) g with
           h | h <;> simp only [h])
      | (generalize N2 NodeType.NonPV (-alpha - 1) (-alpha) (depth - 1) (!cutNode) (ss + 1) g = r
         rcases r with _ | ⟨w, g3⟩ <;> simp only)
      | (rcases hN NodeType.PV (-beta) (-alpha) (depth - 1) false (ss + 1) g3 with
           h | h <;> simp only [h])
      | (rcases hN NodeType.PV (-beta) (-alpha) (depth - 1) false (ss + 1) g with
           h | h <;> simp only [h])

/-- The move loop of `negaMax` with calls that are refused or agree with `N2` is refused or
agrees with the loop of `N2`. -/
theorem negaMax_loop_below (D : Decls) (T : Clock) (N N2 : NegaMax) (nodeType : NodeType)
    (beta : Value) (depth : Int) (cutNode wasInCheck improving : Bool) (ss : Nat)
    (hN : ∀ nt a b d cn s g, N nt a b d cn s g = none ∨
      N nt a b d cn s g = N2 nt a b d cn s g) :
    ∀ (n i : Nat) (l : negaMax.Locals) (g : Globals),
      negaMax.loop D T N nodeType beta depth cutNode wasInCheck improving ss n i l g = none ∨
        negaMax.loop D T N nodeType beta depth cutNode wasInCheck improving ss n i l g =
          negaMax.loop D T N2 nodeType beta depth cutNode wasInCheck improving ss n i l g := by
  intro n
  induction n with
  | zero =>
    intro i l g
    right
    rfl
  | succ n ih =>
    intro i l g
    simp only [negaMax.loop]
    split_ifs
    all_goals first
      | exact ih _ _ _
      | (rcases playMove D (T g.nodesSearched) (nextBestMove l.moves i).1 ss g with _ | g1
         · left
           rfl
         · simp only
           rcases negaMax_searchMove_below D N N2 nodeType l.alpha beta depth cutNode wasInCheck
             improving l.playedMoves ss g1 hN with h | h
           · left
             rw [h]
           · rw [h]
             rcases negaMax.searchMove D N2 nodeType l.alpha beta depth cutNode wasInCheck
               improving l.playedMoves ss g1 with _ | ⟨v, g2⟩
             · left
               rfl
             · simp only
               rcases cancelMove D g2 with _ | g3
               · left
                 rfl
               · simp only
                 cases negaMax.improve v l.bestValue l.alpha beta with
                 | nothing => exact ih _ _ _
                 | newBest => exact ih _ _ _
                 | failHigh =>
                   right
                   rfl
                 | raiseAlpha => exact ih _ _ _)

/-- The statements of `negaMax` from `moves_loop` on, with calls that are refused or agree with
`N2`, are refused or agree with those made with `N2`. -/
theorem negaMax_searchMoves_below (D : Decls) (T : Clock) (N N2 : NegaMax)
    (nodeType : NodeType) (cutNode : Bool) (ss : Nat) (node : negaMax.Node) (g : Globals)
    (hN : ∀ nt a b d cn s g, N nt a b d cn s g = none ∨
      N nt a b d cn s g = N2 nt a b d cn s g) :
    negaMax.searchMoves D T N nodeType cutNode ss node g = none ∨
      negaMax.searchMoves D T N nodeType cutNode ss node g =
        negaMax.searchMoves D T N2 nodeType cutNode ss node g := by
  unfold negaMax.searchMoves
  simp only
  rcases negaMax_loop_below D T N N2 nodeType node.beta node.depth cutNode
    (decide (g.position.checkers ≠ 0)) node.improving ss hN _ 0 _ _ with h | h
  · left
    rw [h]
  · right
    rw [h]

/-- The razoring block with a `qsearch` that is refused or agrees with `Q2`. -/
theorem negaMax.razoring_below (Q Q2 : QSearch) (alpha : Value) (depth : Int) (ss : Nat)
    (eval : Value) (g : Globals)
    (hQ : ∀ nt a b s g, Q nt a b s g = none ∨ Q nt a b s g = Q2 nt a b s g) :
    negaMax.razoring Q alpha depth ss eval g = none ∨
      negaMax.razoring Q alpha depth ss eval g = negaMax.razoring Q2 alpha depth ss eval g := by
  unfold negaMax.razoring
  split_ifs
  · rcases hQ NodeType.NonPV (alpha - 1) alpha ss g with h | h
    · left
      rw [h]
    · right
      rw [h]
  · right
    rfl

/-- The null move block with a `negaMax` that is refused or agrees with `N2`. -/
theorem negaMax.nullMove_below (D : Decls) (T : Clock) (N N2 : NegaMax) (nodeType : NodeType)
    (beta : Value) (depth : Int) (cutNode : Bool) (ss : Nat) (eval : Value) (g : Globals)
    (hN : ∀ nt a b d cn s g, N nt a b d cn s g = none ∨
      N nt a b d cn s g = N2 nt a b d cn s g) :
    negaMax.nullMove D T N nodeType beta depth cutNode ss eval g = none ∨
      negaMax.nullMove D T N nodeType beta depth cutNode ss eval g =
        negaMax.nullMove D T N2 nodeType beta depth cutNode ss eval g := by
  unfold negaMax.nullMove
  split_ifs
  · rcases playNullMove D (T g.nodesSearched) ss g with _ | g1
    · left
      rfl
    · simp only
      rcases hN NodeType.NonPV (-beta) (-beta + 1)
        (depth - (min ((eval - beta).tdiv 200) 3 + depth.tdiv 3 + 4)) (!cutNode) (ss + 1)
        g1 with h | h
      · left
        rw [h]
      · right
        rw [h]
  · right
    rfl

/-- The statements of `negaMax` from the static evaluation to `moves_loop` with calls that are
refused or agree with `N2` and `Q2`. -/
theorem negaMax_pruneQuiet_below (D : Decls) (T : Clock) (N N2 : NegaMax) (Q Q2 : QSearch)
    (nodeType : NodeType) (alpha beta : Value) (depth : Int) (cutNode : Bool) (ss slot : Nat)
    (ttHit : Bool) (ttMove : Move) (g : Globals)
    (hN : ∀ nt a b d cn s g, N nt a b d cn s g = none ∨
      N nt a b d cn s g = N2 nt a b d cn s g)
    (hQ : ∀ nt a b s g, Q nt a b s g = none ∨ Q nt a b s g = Q2 nt a b s g) :
    negaMax.pruneQuiet D T N Q nodeType alpha beta depth cutNode ss slot ttHit ttMove g = none ∨
      negaMax.pruneQuiet D T N Q nodeType alpha beta depth cutNode ss slot ttHit ttMove g =
        negaMax.pruneQuiet D T N2 Q2 nodeType alpha beta depth cutNode ss slot ttHit ttMove
          g := by
  rw [negaMax.pruneQuiet_eq, negaMax.pruneQuiet_eq]
  simp only
  rcases negaMax.razoring_below Q Q2 alpha depth ss _ _ hQ with h | h
  · left
    rw [h]
  · rw [h]
    generalize negaMax.razoring Q2 alpha depth ss _ _ = r
    rcases r with _ | ⟨_ | v, g1⟩
    · left
      rfl
    · simp only
      split_ifs <;> first
        | (right; rfl)
        | (rcases negaMax.nullMove_below D T N N2 nodeType beta depth cutNode ss
             (negaMax.staticEval D (g.tt.entries slot) ttHit
               (D.evaluate g.position (g.accumulatorStack g.ply))) g1 hN with h2 | h2
           · left
             rw [h2]
           · right
             rw [h2])
    · right
      rfl

/-- The statements of `negaMax` from the probe to `moves_loop` with calls that are refused or
agree with `N2` and `Q2`. -/
theorem negaMax_prune_below (D : Decls) (T : Clock) (N N2 : NegaMax) (Q Q2 : QSearch)
    (nodeType : NodeType) (alpha beta : Value) (depth : Int) (cutNode : Bool) (ss : Nat)
    (g : Globals)
    (hN : ∀ nt a b d cn s g, N nt a b d cn s g = none ∨
      N nt a b d cn s g = N2 nt a b d cn s g)
    (hQ : ∀ nt a b s g, Q nt a b s g = none ∨ Q nt a b s g = Q2 nt a b s g) :
    negaMax.prune D T N Q nodeType alpha beta depth cutNode ss g = none ∨
      negaMax.prune D T N Q nodeType alpha beta depth cutNode ss g =
        negaMax.prune D T N2 Q2 nodeType alpha beta depth cutNode ss g := by
  unfold negaMax.prune
  rcases TT.probe g.tt g.position.key with _ | ⟨slot, ttHit⟩
  · left
    rfl
  · simp only
    rcases negaMax.afterProbe D nodeType g (g.tt.entries slot) ttHit alpha beta depth with
      v | ⟨a, b⟩ | ⟨d, f, v, m⟩
    · right
      rfl
    · simp only
      rcases hQ (if nodeType ≠ NodeType.NonPV then NodeType.PV else NodeType.NonPV) a b ss g with
        h | h
      · left
        rw [h]
      · right
        rw [h]
    · simp only
      split_ifs
      · right
        rfl
      · exact negaMax_pruneQuiet_below D T N N2 Q Q2 nodeType alpha beta d cutNode ss slot ttHit m
          g hN hQ

/-- The body of `negaMax` with calls that are refused or agree with `N2` and `Q2`. -/
theorem negaMax_body_below (D : Decls) (T : Clock) (N N2 : NegaMax) (Q Q2 : QSearch)
    (nodeType : NodeType) (alpha beta : Value) (depth : Int) (cutNode : Bool) (ss : Nat)
    (g : Globals)
    (hN : ∀ nt a b d cn s g, N nt a b d cn s g = none ∨
      N nt a b d cn s g = N2 nt a b d cn s g)
    (hQ : ∀ nt a b s g, Q nt a b s g = none ∨ Q nt a b s g = Q2 nt a b s g) :
    negaMax.body D T N Q nodeType alpha beta depth cutNode ss g = none ∨
      negaMax.body D T N Q nodeType alpha beta depth cutNode ss g =
        negaMax.body D T N2 Q2 nodeType alpha beta depth cutNode ss g := by
  unfold negaMax.body
  rcases negaMax.enter D nodeType alpha beta ss g with ⟨v, g1⟩ | ⟨a, b, g1⟩
  · right
    rfl
  · simp only
    rcases negaMax_prune_below D T N N2 Q Q2 nodeType a b depth cutNode ss g1 hN hQ with h | h
    · left
      rw [h]
    · rw [h]
      rcases negaMax.prune D T N2 Q2 nodeType a b depth cutNode ss g1 with
        _ | ⟨v, g2⟩ | ⟨node, g2⟩
      · left
        rfl
      · right
        rfl
      · exact negaMax_searchMoves_below D T N N2 nodeType cutNode ss node g2 hN

/-- The body of `qsearch` with a recursive call that is refused or agrees with `Q2`. -/
theorem qsearch_body_below (D : Decls) (T : Clock) (Q Q2 : QSearch) (nodeType : NodeType)
    (alpha beta : Value) (ss : Nat) (g : Globals)
    (hQ : ∀ nt a b s g, Q nt a b s g = none ∨ Q nt a b s g = Q2 nt a b s g) :
    qsearch.body D T Q nodeType alpha beta ss g = none ∨
      qsearch.body D T Q nodeType alpha beta ss g =
        qsearch.body D T Q2 nodeType alpha beta ss g := by
  unfold qsearch.body
  by_cases hclock : g.position.halfMoveClock ≥ 100
  · right
    simp only [if_pos hclock]
  · simp only [if_neg hclock]
    rcases TT.probe g.tt g.position.key with _ | ⟨slot, ttHit⟩
    · left
      rfl
    · simp only
      split_ifs <;> first
        | (right; rfl)
        | (rcases qsearch_loop_below D T Q Q2 nodeType beta
             (decide (g.position.checkers ≠ 0)) ss hQ _ 0 _ g with h | h
           · left
             rw [h]
           · right
             rw [h])

/-- A monitored call is refused or returns what the search returns. -/
theorem avoided_below (D : Decls) (T : Clock) (K : List Key) :
    ∀ fuel : Nat,
      (∀ nt a b s g, qsearch.avoided D T K fuel nt a b s g = none ∨
        qsearch.avoided D T K fuel nt a b s g = qsearch D T fuel nt a b s g) ∧
      (∀ nt a b d cn s g, negaMax.avoided D T K fuel nt a b d cn s g = none ∨
        negaMax.avoided D T K fuel nt a b d cn s g = negaMax D T fuel nt a b d cn s g) := by
  intro fuel
  induction fuel with
  | zero => exact ⟨fun _ _ _ _ _ => Or.inl rfl, fun _ _ _ _ _ _ _ => Or.inl rfl⟩
  | succ fuel ih =>
    refine ⟨?_, ?_⟩
    · intro nt a b s g
      simp only [qsearch.avoided, QSearch.avoiding, qsearch]
      split_ifs
      · left
        rfl
      · rcases qsearch_body_below D T _ (qsearch D T fuel) nt a b s g ih.1 with h | h
        · left
          rw [h]
          rfl
        · right
          rw [h]
    · intro nt a b d cn s g
      simp only [negaMax.avoided, NegaMax.avoiding, negaMax]
      split_ifs
      · left
        rfl
      · rcases negaMax_body_below D T _ (negaMax D T fuel) _ (qsearch D T fuel) nt a b d cn s g
          ih.2 ih.1 with h | h
        · left
          rw [h]
          rfl
        · right
          rw [h]

/-- Two states that differ in the content of one slot, both contents holding keys of `K`, have
the same scrubbed state. -/
theorem Globals.withSlot_scrub (K : List Key) (g : Globals) (slot : Nat) (e : TT.Entry)
    (h1 : (g.tt.entries slot).key ∈ K) (h2 : e.key ∈ K) :
    (g.withSlot slot e).scrub K (g.tt.entries slot) = g.scrub K (g.tt.entries slot) := by
  have he : (fun i => ((g.withSlot slot e).tt.entries i).scrub K (g.tt.entries slot)) =
      fun i => (g.tt.entries i).scrub K (g.tt.entries slot) := by
    funext i
    by_cases hi : i = slot
    · subst hi
      show (Function.update g.tt.entries i e i).scrub K _ = _
      rw [Function.update_same]
      unfold TT.Entry.scrub
      rw [if_pos h1, if_pos h2]
    · show (Function.update g.tt.entries slot e i).scrub K _ = _
      rw [Function.update_noteq hi]
  unfold Globals.scrub
  rw [he]
  rfl

/-- When the monitored search returns on a state, the search returns the same value on that
state and on every state with the same scrubbed state. -/
theorem avoided_independent (D : Decls) (T : Clock) (K : List Key) (c : TT.Entry)
    (hc : c.key ∈ K) (fuel : Nat) :
    (∀ nt a b d cn s gA gB v g2, gB.scrub K c = gA.scrub K c →
      negaMax.avoided D T K fuel nt a b d cn s gA = some (v, g2) →
      (negaMax D T fuel nt a b d cn s gA).map Prod.fst = some v ∧
        (negaMax D T fuel nt a b d cn s gB).map Prod.fst = some v) ∧
    (∀ nt a b s gA gB v g2, gB.scrub K c = gA.scrub K c →
      qsearch.avoided D T K fuel nt a b s gA = some (v, g2) →
      (qsearch D T fuel nt a b s gA).map Prod.fst = some v ∧
        (qsearch D T fuel nt a b s gB).map Prod.fst = some v) := by
  obtain ⟨bq, bn⟩ := avoided_below D T K fuel
  obtain ⟨sq, sn⟩ := avoided_scrub D T K c hc fuel
  refine ⟨?_, ?_⟩
  · intro nt a b d cn s gA gB v g2 hs h
    have hA : negaMax D T fuel nt a b d cn s gA = some (v, g2) := by
      rcases bn nt a b d cn s gA with h0 | h0
      · rw [h0] at h
        cases h
      · rw [← h0]
        exact h
    have hsB := sn nt a b d cn s gB
    rw [hs, sn nt a b d cn s gA, h] at hsB
    rcases hB : negaMax.avoided D T K fuel nt a b d cn s gB with _ | ⟨v2, g3⟩
    · rw [hB] at hsB
      cases hsB
    · rw [hB] at hsB
      simp only [Option.map_some', Prod.map, id, Option.some.injEq, Prod.mk.injEq] at hsB
      have hB2 : negaMax D T fuel nt a b d cn s gB = some (v2, g3) := by
        rcases bn nt a b d cn s gB with h0 | h0
        · rw [h0] at hB
          cases hB
        · rw [← h0]
          exact hB
      rw [hA, hB2, hsB.1]
      exact ⟨rfl, rfl⟩
  · intro nt a b s gA gB v g2 hs h
    have hA : qsearch D T fuel nt a b s gA = some (v, g2) := by
      rcases bq nt a b s gA with h0 | h0
      · rw [h0] at h
        cases h
      · rw [← h0]
        exact h
    have hsB := sq nt a b s gB
    rw [hs, sq nt a b s gA, h] at hsB
    rcases hB : qsearch.avoided D T K fuel nt a b s gB with _ | ⟨v2, g3⟩
    · rw [hB] at hsB
      cases hsB
    · rw [hB] at hsB
      simp only [Option.map_some', Prod.map, id, Option.some.injEq, Prod.mk.injEq] at hsB
      have hB2 : qsearch D T fuel nt a b s gB = some (v2, g3) := by
        rcases bq nt a b s gB with h0 | h0
        · rw [h0] at hB
          cases hB
        · rw [← h0]
          exact hB
      rw [hA, hB2, hsB.1]
      exact ⟨rfl, rfl⟩

/-- At a miss the statements of `negaMax` from the probe to `moves_loop` are those of a node
without TT data. -/
theorem negaMax.prune_miss (D : Decls) (T : Clock) (N : NegaMax) (Q : QSearch)
    (nodeType : NodeType) (alpha beta : Value) (depth : Int) (cutNode : Bool) (ss slot : Nat)
    (g : Globals) (hp : TT.probe g.tt g.position.key = some (slot, false)) :
    negaMax.prune D T N Q nodeType alpha beta depth cutNode ss g =
      (if g.position.checkers ≠ 0 then
        some (.moves
          { alpha := alpha, beta := beta, depth := max 1 (depth + 1),
            ttMove := if nodeType = NodeType.Root then g.rootMoves.moves 0 else MOVE_NONE,
            improving := false, slot := slot }
          { g with
            searchStack := Function.update g.searchStack ss
              { g.searchStack ss with staticEval := D.VALUE_NONE } })
      else if depth ≤ 0 then
        (Q (if nodeType ≠ NodeType.NonPV then NodeType.PV else NodeType.NonPV) alpha beta ss
          g).map (fun r => negaMax.Pruned.leave r.1 r.2)
      else
        negaMax.pruneQuiet D T N Q nodeType alpha beta depth cutNode ss slot false
          (if nodeType = NodeType.Root then g.rootMoves.moves 0 else MOVE_NONE) g) := by
  unfold negaMax.prune
  rw [hp]
  simp only [negaMax.afterProbe_miss]
  by_cases hck : g.position.checkers ≠ 0
  · have hd : ¬ max 1 (depth + 1) ≤ 0 := by omega
    simp only [if_pos hck, if_neg hd]
  · simp only [if_neg hck]
    by_cases hd : depth ≤ 0
    · simp only [if_pos hd]
      rcases Q (if nodeType ≠ NodeType.NonPV then NodeType.PV else NodeType.NonPV) alpha beta ss
        g with _ | ⟨v, g2⟩ <;> rfl
    · simp only [if_neg hd]

/-- At a NonPV node not in check that misses, with depth in [1, 8], a static evaluation that
does not trigger razoring and is at least `b + 140 * depth` is returned by reverse futility
pruning: the evaluation is that of `Eval::evaluate()` and no cutoff is taken from the slot. -/
theorem negaMax_miss_futility (D : Decls) (T : Clock) (fuel : Nat) (alpha beta a b : Value)
    (depth : Int) (cutNode : Bool) (ss slot : Nat) (g g1 : Globals)
    (henter : negaMax.enter D NodeType.NonPV alpha beta ss g = .proceed a b g1)
    (hp : TT.probe g.tt g.position.key = some (slot, false))
    (hck : g.position.checkers = 0) (hd1 : 1 ≤ depth) (hd9 : depth < 9)
    (hraz : a - 400 - 500 * depth ≤ D.evaluate g.position (g.accumulatorStack g.ply))
    (htb : |D.evaluate g.position (g.accumulatorStack g.ply)| < D.VALUE_TB_WIN_IN_MAX_PLY)
    (hfut : b + 140 * depth ≤ D.evaluate g.position (g.accumulatorStack g.ply)) :
    (negaMax D T (fuel + 1) NodeType.NonPV alpha beta depth cutNode ss g).map Prod.fst =
      some (D.evaluate g.position (g.accumulatorStack g.ply)) := by
  obtain ⟨e1, e2, e3, -, -, -, -, e8, -⟩ :=
    negaMax.enter_proceed D NodeType.NonPV alpha beta a b ss g g1 henter
  have hp1 : TT.probe g1.tt g1.position.key = some (slot, false) := by
    rw [e3, e1]
    exact hp
  have hck1 : ¬ g1.position.checkers ≠ 0 := by
    rw [e1, hck]
    exact fun h => h rfl
  have hd : ¬ depth ≤ 0 := by omega
  have hev : D.evaluate g1.position (g1.accumulatorStack g1.ply) =
      D.evaluate g.position (g.accumulatorStack g.ply) := by
    rw [e1, e2, e8]
  generalize D.evaluate g.position (g.accumulatorStack g.ply) = ev at *
  have hr : ¬ ev < a - 400 - 500 * depth := by
    unfold Value at *
    omega
  have hf : NodeType.NonPV = NodeType.NonPV ∧ depth < 9 ∧ |ev| < D.VALUE_TB_WIN_IN_MAX_PLY ∧
      ev ≥ b ∧ ∀ x : Bool, ev + 120 * (if x then 1 else 0) - 140 * depth ≥ b := by
    refine ⟨rfl, hd9, htb, ?_, ?_⟩
    · unfold Value at *
      omega
    · intro x
      cases x <;> simp only [Bool.false_eq_true, if_false, if_true] <;>
        (unfold Value at *; omega)
  simp only [negaMax, negaMax.body, henter]
  rw [negaMax.prune_miss D T _ _ NodeType.NonPV a b depth cutNode ss slot g1 hp1, if_neg hck1,
    if_neg hd, negaMax.pruneQuiet_eq]
  simp only [negaMax.staticEval_miss, hev, negaMax.razoring, if_neg hr]
  rw [if_pos ⟨trivial, hf.2.1, hf.2.2.1, hf.2.2.2.1, hf.2.2.2.2 _⟩]
  rfl

/-- At a miss a `qsearch` node not in check whose evaluation is at least `beta` returns that
evaluation and leaves the state as it is. -/
theorem qsearch_miss_standPat (D : Decls) (T : Clock) (fuel : Nat) (nodeType : NodeType)
    (alpha beta : Value) (ss slot : Nat) (g : Globals)
    (hp : TT.probe g.tt g.position.key = some (slot, false))
    (hclock : g.position.halfMoveClock < 100) (hck : g.position.checkers = 0)
    (hev : D.evaluate g.position (g.accumulatorStack g.ply) ≥ beta) :
    qsearch D T (fuel + 1) nodeType alpha beta ss g =
      some (D.evaluate g.position (g.accumulatorStack g.ply), g) := by
  simp only [qsearch]
  unfold qsearch.body
  rw [if_neg (by omega), hp]
  simp only [Bool.false_eq_true, if_false, TT.Flag.no_flag_bits, ne_eq, not_true_eq_false,
    and_false, qsearch.standPat_miss, hck, not_false_eq_true, true_and, hev, ge_iff_le, if_true,
    Option.map_some', Leave.finish]

/-! ### A probe that misses: the whole search -/

/-- A monitored call that returns was made on a position whose key is outside `K`. -/
theorem avoided_key (D : Decls) (T : Clock) (K : List Key) (fuel : Nat) :
    (∀ nt a b d cn s g r, negaMax.avoided D T K fuel nt a b d cn s g = some r →
      g.position.key ∉ K) ∧
    (∀ nt a b s g r, qsearch.avoided D T K fuel nt a b s g = some r → g.position.key ∉ K) := by
  cases fuel with
  | zero => exact ⟨fun _ _ _ _ _ _ _ _ h => (by cases h), fun _ _ _ _ _ _ h => (by cases h)⟩
  | succ fuel =>
    refine ⟨?_, ?_⟩
    · intro nt a b d cn s g r h
      simp only [negaMax.avoided, NegaMax.avoiding] at h
      split_ifs at h with hk
      exact hk
    · intro nt a b s g r h
      simp only [qsearch.avoided, QSearch.avoiding] at h
      split_ifs at h with hk
      exact hk

/-- A slot that misses a key still misses it when it holds an entry with another key. -/
theorem TT.probe_withSlot (g : Globals) (key : Key) (slot : Nat) (e : TT.Entry)
    (hp : TT.probe g.tt key = some (slot, false)) (he : e.key ≠ key) :
    TT.probe (g.withSlot slot e).tt key = some (slot, false) := by
  unfold TT.probe at hp ⊢
  show (if g.tt.entryCount = 0 then none
    else some (key % g.tt.entryCount,
      (Function.update g.tt.entries slot e (key % g.tt.entryCount)).matches key)) = _
  split_ifs at hp ⊢ with h0
  simp only [Option.some.injEq, Prod.mk.injEq] at hp
  obtain ⟨h1, -⟩ := hp
  rw [h1, Function.update_same]
  unfold TT.Entry.matches
  simp [he]

/-- Claim C18 as stated fails for the returned value: the position with key 1 misses slot 1 of a
table of 65536 entries, which holds an entry of the position with key 65537, and its only
capture leads to that position, which hits the slot. With a lower bound 50 in the slot the NonPV
`qsearch` with the window (10, 11) returns its stand-pat value 0; with an upper bound -50 in the
slot the child returns -50 and the node fails high with 50. The search visits a node whose key
is the stored one: the monitored search is refused. -/
theorem tt_miss_value_counterexample :
    TT.probe (collisionGlobals aliasLower).tt (collisionGlobals aliasLower).position.key =
        some (1, false) ∧
      TT.probe (collisionGlobals aliasUpper).tt (collisionGlobals aliasUpper).position.key =
        some (1, false) ∧
      (qsearch collisionDecls sampleClock 2 NodeType.NonPV 10 11 4
        (collisionGlobals aliasLower)).map Prod.fst = some 0 ∧
      (qsearch collisionDecls sampleClock 2 NodeType.NonPV 10 11 4
        (collisionGlobals aliasUpper)).map Prod.fst = some 50 ∧
      (qsearch.avoided collisionDecls sampleClock [aliasLower.key, aliasUpper.key] 2
        NodeType.NonPV 10 11 4 (collisionGlobals aliasLower)).map Prod.fst = none := by
  refine ⟨by decide, by decide, by decide!, by decide!, by decide!⟩

/-- Claim C18, amended: when `TT::probe` reports a miss, `negaMax` and `qsearch` treat the node
as having no TT data. After the probe there is no cutoff and the locals are `NO_FLAG`,
`VALUE_NONE` and no TT move (the first root move at the root), whatever the slot holds, its
depth field included. The statements of `negaMax` up to `moves_loop` are then: in check, the
move loop with the extended depth, `ss->staticEval = VALUE_NONE` and no TT move; at depth <= 0
the call of `qsearch`; otherwise the pruning block run without a hit. A NonPV node not in check
with depth in [1, 8] whose `Eval::evaluate()` does not trigger razoring and is at least
`b + 140 * depth` returns that evaluation, and a `qsearch` node not in check whose evaluation is
at least `beta` returns that evaluation. The value returned by `negaMax` and by `qsearch` is
the same for any two contents of the unmatched slot provided no node of the search, the first
one included, has a key equal to the key held by the slot in either content (the monitored
search returns): the other content is a miss too, and the search returns the same value on
both. -/
theorem tt_miss_no_data (D : Decls) (T : Clock) :
    (∀ (nodeType : NodeType) (g : Globals) (e : TT.Entry) (alpha beta : Value) (depth : Int),
      negaMax.afterProbe D nodeType g e false alpha beta depth =
        (if (if g.position.checkers ≠ 0 then max 1 (depth + 1) else depth) ≤ 0 then
          .quiescence alpha beta
        else
          .search (if g.position.checkers ≠ 0 then max 1 (depth + 1) else depth)
            TT.Flag.NO_FLAG D.VALUE_NONE
            (if nodeType = NodeType.Root then g.rootMoves.moves 0 else MOVE_NONE))) ∧
    (∀ (N : NegaMax) (Q : QSearch) (nodeType : NodeType) (alpha beta : Value) (depth : Int)
      (cutNode : Bool) (ss slot : Nat) (g : Globals),
      TT.probe g.tt g.position.key = some (slot, false) →
      negaMax.prune D T N Q nodeType alpha beta depth cutNode ss g =
        (if g.position.checkers ≠ 0 then
          some (.moves
            { alpha := alpha, beta := beta, depth := max 1 (depth + 1),
              ttMove := if nodeType = NodeType.Root then g.rootMoves.moves 0 else MOVE_NONE,
              improving := false, slot := slot }
            { g with
              searchStack := Function.update g.searchStack ss
                { g.searchStack ss with staticEval := D.VALUE_NONE } })
        else if depth ≤ 0 then
          (Q (if nodeType ≠ NodeType.NonPV then NodeType.PV else NodeType.NonPV) alpha beta ss
            g).map (fun r => negaMax.Pruned.leave r.1 r.2)
        else
          negaMax.pruneQuiet D T N Q nodeType alpha beta depth cutNode ss slot false
            (if nodeType = NodeType.Root then g.rootMoves.moves 0 else MOVE_NONE) g)) ∧
    (∀ (fuel : Nat) (alpha beta a b : Value) (depth : Int) (cutNode : Bool) (ss slot : Nat)
      (g g1 : Globals),
      negaMax.enter D NodeType.NonPV alpha beta ss g = .proceed a b g1 →
      TT.probe g.tt g.position.key = some (slot, false) →
      g.position.checkers = 0 → 1 ≤ depth → depth < 9 →
      a - 400 - 500 * depth ≤ D.evaluate g.position (g.accumulatorStack g.ply) →
      |D.evaluate g.position (g.accumulatorStack g.ply)| < D.VALUE_TB_WIN_IN_MAX_PLY →
      b + 140 * depth ≤ D.evaluate g.position (g.accumulatorStack g.ply) →
      (negaMax D T (fuel + 1) NodeType.NonPV alpha beta depth cutNode ss g).map Prod.fst =
        some (D.evaluate g.position (g.accumulatorStack g.ply))) ∧
    (∀ (fuel : Nat) (nodeType : NodeType) (alpha beta : Value) (ss slot : Nat) (g : Globals),
      TT.probe g.tt g.position.key = some (slot, false) →
      g.position.halfMoveClock < 100 → g.position.checkers = 0 →
      D.evaluate g.position (g.accumulatorStack g.ply) ≥ beta →
      qsearch D T (fuel + 1) nodeType alpha beta ss g =
        some (D.evaluate g.position (g.accumulatorStack g.ply), g)) ∧
    (∀ (fuel : Nat) (nodeType : NodeType) (alpha beta : Value) (depth : Int) (cutNode : Bool)
      (ss slot : Nat) (g : Globals) (e : TT.Entry) (v : Value) (g2 : Globals),
      TT.probe g.tt g.position.key = some (slot, false) →
      negaMax.avoided D T [(g.tt.entries slot).key, e.key] fuel nodeType alpha beta depth
        cutNode ss g = some (v, g2) →
      TT.probe (g.withSlot slot e).tt g.position.key = some (slot, false) ∧
        (negaMax D T fuel nodeType alpha beta depth cutNode ss g).map Prod.fst = some v ∧
        (negaMax D T fuel nodeType alpha beta depth cutNode ss (g.withSlot slot e)).map
          Prod.fst = some v) ∧
    (∀ (fuel : Nat) (nodeType : NodeType) (alpha beta : Value) (ss slot : Nat) (g : Globals)
      (e : TT.Entry) (v : Value) (g2 : Globals),
      TT.probe g.tt g.position.key = some (slot, false) →
      qsearch.avoided D T [(g.tt.entries slot).key, e.key] fuel nodeType alpha beta ss g =
        some (v, g2) →
      TT.probe (g.withSlot slot e).tt g.position.key = some (slot, false) ∧
        (qsearch D T fuel nodeType alpha beta ss g).map Prod.fst = some v ∧
        (qsearch D T fuel nodeType alpha beta ss (g.withSlot slot e)).map Prod.fst =
          some v) := by
  refine ⟨negaMax.afterProbe_miss D, ?_, ?_, ?_, ?_, ?_⟩
  · intro N Q nodeType alpha beta depth cutNode ss slot g hp
    exact negaMax.prune_miss D T N Q nodeType alpha beta depth cutNode ss slot g hp
  · intro fuel alpha beta a b depth cutNode ss slot g g1 henter hp hck hd1 hd9 hraz htb hfut
    exact negaMax_miss_futility D T fuel alpha beta a b depth cutNode ss slot g g1 henter hp hck
      hd1 hd9 hraz htb hfut
  · intro fuel nodeType alpha beta ss slot g hp hclock hck hev
    exact qsearch_miss_standPat D T fuel nodeType alpha beta ss slot g hp hclock hck hev
  · intro fuel nodeType alpha beta depth cutNode ss slot g e v g2 hp h
    have hk := (avoided_key D T _ fuel).1 _ _ _ _ _ _ _ _ h
    have h1 : (g.tt.entries slot).key ∈ [(g.tt.entries slot).key, e.key] := by simp
    have h2 : e.key ∈ [(g.tt.entries slot).key, e.key] := by simp
    refine ⟨TT.probe_withSlot g _ slot e hp (fun he => hk (he ▸ h2)), ?_⟩
    exact (avoided_independent D T _ (g.tt.entries slot) h1 fuel).1 nodeType alpha beta depth
      cutNode ss g (g.withSlot slot e) v g2 (Globals.withSlot_scrub _ g slot e h1 h2) h
  · intro fuel nodeType alpha beta ss slot g e v g2 hp h
    have hk := (avoided_key D T _ fuel).2 _ _ _ _ _ _ h
    have h1 : (g.tt.entries slot).key ∈ [(g.tt.entries slot).key, e.key] := by simp
    have h2 : e.key ∈ [(g.tt.entries slot).key, e.key] := by simp
    refine ⟨TT.probe_withSlot g _ slot e hp (fun he => hk (he ▸ h2)), ?_⟩
    exact (avoided_independent D T _ (g.tt.entries slot) h1 fuel).2 nodeType alpha beta ss g
      (g.withSlot slot e) v g2 (Globals.withSlot_scrub _ g slot e h1 h2) h

/-- Witness of the amended C18. The NonPV call of depth 1 on the quiet sample state misses
slot 78, which holds a cleared entry; no node of its search has the key 0 or 65614, and the
call returns 0 both with the cleared entry and with a lower bound 100 of depth 9 for the key
65614 in the slot. The NonPV `qsearch` on the position with key 1 misses slot 1; its child
has the key 65537, not the stored key 131073, and it returns 0 both with the lower bound 50 and
with the upper bound -50 in the slot. -/
theorem tt_miss_no_data_witness :
    ((negaMax soundDecls sampleClock 3 NodeType.NonPV (-1) 0 1 false 4 stalemateGlobals).map
        Prod.fst = some 0 ∧
      (negaMax soundDecls sampleClock 3 NodeType.NonPV (-1) 0 1 false 4
        (stalemateGlobals.withSlot 78 strayEntry)).map Prod.fst = some 0) ∧
    ((qsearch collisionDecls sampleClock 2 NodeType.NonPV 10 11 4
        (collisionGlobals strayLower)).map Prod.fst = some 0 ∧
      (qsearch collisionDecls sampleClock 2 NodeType.NonPV 10 11 4
        ((collisionGlobals strayLower).withSlot 1 strayUpper)).map Prod.fst = some 0) := by
  have h1 : (negaMax.avoided soundDecls sampleClock
      [(stalemateGlobals.tt.entries 78).key, strayEntry.key] 3 NodeType.NonPV (-1) 0 1 false 4
      stalemateGlobals).map Prod.fst = some 0 := by decide!
  have h2 : (qsearch.avoided collisionDecls sampleClock
      [((collisionGlobals strayLower).tt.entries 1).key, strayUpper.key] 2 NodeType.NonPV 10 11
      4 (collisionGlobals strayLower)).map Prod.fst = some 0 := by decide!
  obtain ⟨⟨v1, g1⟩, hr1, hv1⟩ := Option.map_eq_some'.mp h1
  obtain ⟨⟨v2, g2⟩, hr2, hv2⟩ := Option.map_eq_some'.mp h2
  simp only at hv1 hv2
  subst hv1 hv2
  exact ⟨((tt_miss_no_data soundDecls sampleClock).2.2.2.2.1 3 NodeType.NonPV (-1) 0 1 false 4
      78 stalemateGlobals strayEntry _ g1 (by decide) hr1).2,
    ((tt_miss_no_data collisionDecls sampleClock).2.2.2.2.2 2 NodeType.NonPV 10 11 4 1
      (collisionGlobals strayLower) strayUpper _ g2 (by decide) hr2).2⟩

end Obsidian
